import Mathlib

/-!
# Verification of the loom thread/ownership engine

Shallow embedding of the `loom` scaffolding tool's thread-resolution and
file-ownership engine (packages `internal/core/project`, `internal/cli/weave`,
`internal/cli/add`, `internal/cli/remove`), together with proofs of the
ownership-ledger properties stated in the specification.

Modelling conventions:
* Paths are plain forward-slash strings, as on Linux, where
  `filepath.Separator` is `'/'` and `filepath.ToSlash` is the identity.
* The Go standard-library path helpers (`filepath.Clean`, `filepath.Join`,
  `filepath.Split`) are modelled faithfully at the character-list level.
* Absolute paths never appear: every Go call site first forms
  `filepath.Join(projectRoot, rel)` and the callee immediately recovers
  `rel` via `filepath.Rel(projectRoot, ·)`; the embedding works directly
  with the project-relative path `rel`.
* The project file tree is an association list from relative path to file
  content; a thread's source tree maps source-relative paths to entries
  (regular file with content, or directory).
* The interactive yes/no/skip prompt is modelled as a stream of already
  parsed answers (the Go prompt loops until one of the three is read, and
  maps empty input to yes); an exhausted stream models a failed read of
  standard input, which the Go code surfaces as a fatal error.
* Go `map` iteration order is unspecified; the embedding fixes insertion
  order via association lists, a deterministic refinement.
-/

/-! ## Character-level models of Go `path/filepath` primitives -/

/-- Split a character list on a separator character.  Never returns `[]`;
models the segment decomposition used by `filepath.Clean`. -/
def splitOnChar (c : Char) : List Char → List (List Char)
  | [] => [[]]
  | a :: rest =>
    match splitOnChar c rest with
    | [] => [[]]
    | s :: ss => if a = c then [] :: s :: ss else (a :: s) :: ss

/-- Join character-list segments with a separator character (inverse of
`splitOnChar` on separator-free segments). -/
def joinChar (c : Char) : List (List Char) → List Char
  | [] => []
  | [s] => s
  | s :: ss => s ++ c :: joinChar c ss

/-- One segment-processing pass of Go `filepath.Clean`: drop empty and `"."`
segments, let `".."` pop the previous segment (kept literally at the start of
a relative path, dropped at the root of an absolute one).  The accumulator
holds the output segments in reverse. -/
def cleanSegs (rooted : Bool) : List (List Char) → List (List Char) → List (List Char)
  | acc, [] => acc.reverse
  | acc, s :: rest =>
    if s = [] ∨ s = ['.'] then cleanSegs rooted acc rest
    else if s = ['.', '.'] then
      match acc with
      | [] => if rooted then cleanSegs rooted [] rest else cleanSegs rooted [['.', '.']] rest
      | a :: as => if a = ['.', '.'] then cleanSegs rooted (s :: a :: as) rest
                   else cleanSegs rooted as rest
    else cleanSegs rooted (s :: acc) rest

/-- Model of Go `filepath.Clean` for forward-slash paths. -/
def goCleanL (l : List Char) : List Char :=
  let rooted := l.head? = some '/'
  let out := cleanSegs rooted [] (splitOnChar '/' l)
  let joined := joinChar '/' out
  if rooted then
    if joined = [] then ['/'] else '/' :: joined
  else
    if joined = [] then ['.'] else joined

/-- Model of Go `filepath.Clean` (string wrapper). -/
def goClean (p : String) : String := ⟨goCleanL p.data⟩

/-- Model of Go `filepath.Join` on two elements: the first non-empty element
onward is joined with the separator and cleaned. -/
def goJoin (a b : String) : String :=
  if a = "" then (if b = "" then "" else goClean b) else goClean (a ++ "/" ++ b)

/-- Model of Go `filepath.Split`: the directory part of a path up to and
including the final separator, and the file-name part after it. -/
def splitFileL (l : List Char) : List Char × List Char :=
  let r := l.reverse
  ((r.dropWhile (· ≠ '/')).reverse, (r.takeWhile (· ≠ '/')).reverse)

/-- Model of Go `filepath.Split` (string wrapper). -/
def splitFileString (p : String) : String × String :=
  (⟨(splitFileL p.data).1⟩, ⟨(splitFileL p.data).2⟩)

/-- Model of Go `filepath.ToSlash`: on Linux the separator is already `'/'`,
so this is the identity. -/
def toSlash (s : String) : String := s

/-- Model of Go `strings.HasSuffix(s, "/")`: the last character is `'/'`. -/
def endsWithSlash (s : String) : Bool := s.data.getLast? = some '/'

/-- `normalizeDir` from `internal/cli/weave/weave.go`: directory keys for
`loom.yaml` are `"./"` for empty or `"."`, otherwise forward slashes with a
trailing slash appended if missing. -/
def normalizeDir (dirPath : String) : String :=
  if dirPath = "" ∨ dirPath = "." then "./"
  else if endsWithSlash (toSlash dirPath) then toSlash dirPath
  else toSlash dirPath ++ "/"

/-! ## Manifest model (`internal/core/project`) -/

/-- A thread entry of `loom.yaml` (`project.Thread`).  The `files` map is an
association list from directory key to the file names owned in that
directory. -/
structure Thread where
  name : String
  source : String
  files : List (String × List String)
deriving DecidableEq, Repr, Inhabited

/-- The `loom.yaml` manifest (`project.LoomConfig`). -/
structure LoomConfig where
  version : String
  threads : List Thread
deriving DecidableEq, Repr, Inhabited

/-- The inline directory-key normalization done by `IsFileOwned`: every key
other than `"./"` that lacks a trailing slash gets one appended. -/
def isOwnedNormDir (dir : String) : String :=
  if dir ≠ "./" ∧ ¬ endsWithSlash dir then dir ++ "/" else dir

/-- The full owned path reconstructed by `IsFileOwned` from a directory key
and a file name: the bare file name under the root key `"./"`, otherwise
`filepath.Join` of the normalized key and the name. -/
def reconstructOwnedPath (dir file : String) : String :=
  let normalizedDir := isOwnedNormDir dir
  if normalizedDir = "./" then file else toSlash (goJoin normalizedDir file)

/-- Whether one thread's `files` map claims the given project-relative path
(the inner two loops of `IsFileOwned`). -/
def threadMatchesPath (t : Thread) (relPath : String) : Bool :=
  t.files.any (fun e => e.2.any (fun f => reconstructOwnedPath e.1 f = relPath))

/-- `LoomConfig.IsFileOwned` from `internal/core/project`: scan the threads in
manifest order and return the name of the first whose `files` map reconstructs
the queried path.  The Go function receives an absolute path and the project
root and first recovers the slash-normalized relative path; the embedding
starts from that relative path. -/
def IsFileOwned (lc : LoomConfig) (relPath : String) : Option String :=
  (lc.threads.find? (fun t => threadMatchesPath t relPath)).map (·.name)

/-! ## Ledger mutation helpers -/

/-- Remove one file name from one directory key of a `files` map, deleting
the key when its list becomes empty (shared shape of the manifest removal
helpers in `weave.go` and `add.go`). -/
def removeFileFromFilesMap (files : List (String × List String))
    (dirKey file : String) : List (String × List String) :=
  files.foldr
    (fun e acc =>
      if e.1 = dirKey ∧ e.2.contains file then
        let fs := e.2.filter (· ≠ file)
        if fs.isEmpty then acc else (e.1, fs) :: acc
      else e :: acc) []

/-- Update the first thread with a given name, leaving the rest untouched
(the `for … return` loop shape shared by `removeFileFromThreadManifest` and
the update branch of `updateLoomConfig`). -/
def updateFirstNamed (threadName : String) (upd : Thread → Thread) : List Thread → List Thread
  | [] => []
  | t :: rest =>
    if t.name = threadName then upd t :: rest
    else t :: updateFirstNamed threadName upd rest

/-- `removeFileFromThreadManifest` from `weave.go`: split the project-relative
path, normalize its directory, and remove the file from the first thread with
the given name. -/
def removeFileFromThreadManifest (lc : LoomConfig) (ownerThreadName fileRelToProject : String) :
    LoomConfig :=
  let dir := (splitFileString fileRelToProject).1
  let file := (splitFileString fileRelToProject).2
  let normalizedDir := normalizeDir dir
  let ts := updateFirstNamed ownerThreadName
    (fun t => { t with files := removeFileFromFilesMap t.files normalizedDir file })
    lc.threads
  { lc with threads := ts }

/-- `removeFileFromOtherThreads` from `add.go`: strip the `(dirToRemove,
fileToRemove)` entry from every thread except the one named
`currentThreadName`; the directory key is used exactly as given. -/
def removeFileFromOtherThreads (lc : LoomConfig) (currentThreadName dirToRemove fileToRemove : String) :
    LoomConfig :=
  { lc with threads := lc.threads.map (fun t =>
      if t.name = currentThreadName then t
      else { t with files := removeFileFromFilesMap t.files dirToRemove fileToRemove }) }

/-- Set one key of a `files` map to a new list (Go map assignment
`Files[dir] = files`). -/
def setFilesEntry (files : List (String × List String)) (dir : String) (fs : List String) :
    List (String × List String) :=
  if files.any (·.1 = dir) then files.map (fun e => if e.1 = dir then (dir, fs) else e)
  else files ++ [(dir, fs)]

/-- Append values under a key of a multimap (Go
`m[k] = append(m[k], vs...)`). -/
def addToMultimap (m : List (String × List String)) (k : String) (vs : List String) :
    List (String × List String) :=
  if m.any (·.1 = k) then m.map (fun e => if e.1 = k then (e.1, e.2 ++ vs) else e)
  else m ++ [(k, vs)]

/-- `updateLoomConfig` from `add.go` (the manifest part; the final YAML write
is persistence, outside the engine): first strip every copied `(dir, file)`
pair from all other threads, then update the existing thread in place (new
source; each copied directory key overwritten) or append a new thread whose
`files` is exactly the copied map. -/
def updateLoomConfigModel (lc : LoomConfig) (threadName source : String)
    (filesByDir : List (String × List String)) : LoomConfig :=
  let lc1 := filesByDir.foldl
    (fun acc e => e.2.foldl
      (fun acc2 file => removeFileFromOtherThreads acc2 threadName e.1 file) acc) lc
  if lc1.threads.any (·.name = threadName) then
    let ts := updateFirstNamed threadName
      (fun t => { t with
        source := source
        files := filesByDir.foldl (fun fs e => setFilesEntry fs e.1 e.2) t.files })
      lc1.threads
    { lc1 with threads := ts }
  else
    { lc1 with threads := lc1.threads ++ [{ name := threadName, source := source, files := filesByDir }] }

/-! ## Engine state -/

/-- A parsed answer of the yes/no/skip overwrite prompt
(`promptUserForOverwrite` / `promptUserForOverwriteInWeave`; empty input
parses as yes). -/
inductive Answer
  | yes
  | no
  | skip
deriving DecidableEq, Repr

/-- An entry of a thread's source tree: a regular file with its content, or a
directory. -/
inductive SrcEntry
  | file (content : String)
  | dir
deriving DecidableEq, Repr

/-- A thread's source tree (`_thread` directory): association list from
source-relative path to entry, listed in the visit order of
`filepath.Walk` / recursive `os.ReadDir`. -/
structure SourceTree where
  entries : List (String × SrcEntry)
deriving DecidableEq, Repr

/-- Look up a source-tree entry by relative path (`os.Stat` inside the
source). -/
def srcLookup (src : SourceTree) (relPath : String) : Option SrcEntry :=
  (src.entries.find? (·.1 = relPath)).map (·.2)

/-- Mutable state threaded through one engine operation: the project file
tree (relative path to content), the in-memory manifest, and the remaining
prompt answers. -/
structure EngineState where
  disk : List (String × String)
  config : LoomConfig
  decisions : List Answer
deriving DecidableEq, Repr

/-- Read a project file (`os.Stat`/`os.ReadFile` on the destination). -/
def diskLookup (d : List (String × String)) (p : String) : Option String :=
  (d.find? (·.1 = p)).map (·.2)

/-- Write a project file (`os.WriteFile`), overwriting any previous
content. -/
def diskWrite (d : List (String × String)) (p c : String) : List (String × String) :=
  if d.any (·.1 = p) then d.map (fun e => if e.1 = p then (e.1, c) else e)
  else d ++ [(p, c)]

/-- Delete a project file (`os.Remove`). -/
def diskRemove (d : List (String × String)) (p : String) : List (String × String) :=
  d.filter (·.1 ≠ p)

/-- Consume the next prompt answer; an exhausted stream models a failed
standard-input read, fatal to the current operation. -/
def promptDecide : List Answer → Except String (Answer × List Answer)
  | [] => .error "prompt failure"
  | a :: rest => .ok (a, rest)

/-! ## Weave conflict resolution (`internal/cli/weave`) -/

/-- `handleFileConflictOwnedByOther`: the destination exists and is owned by
`ownerThreadName` (another thread).  Weaving all threads prompts and on yes
revokes the owner's manifest entry; a targeted weave of the current thread
revokes and overwrites without prompting; a targeted weave of a different
thread skips. -/
def handleFileConflictOwnedByOther (st : EngineState)
    (currentThreadName threadNameToWeave ownerThreadName relDestPath : String) :
    Except String (Bool × EngineState) :=
  if threadNameToWeave = "" then
    match promptDecide st.decisions with
    | .error e => .error e
    | .ok (choice, rest) =>
      if choice = .yes then
        .ok (true, { st with
          config := removeFileFromThreadManifest st.config ownerThreadName relDestPath
          decisions := rest })
      else .ok (false, { st with decisions := rest })
  else if threadNameToWeave = currentThreadName then
    .ok (true, { st with
      config := removeFileFromThreadManifest st.config ownerThreadName relDestPath })
  else .ok (false, st)

/-- `handleFileConflictUnowned`: the destination exists but no thread owns
it.  Weaving all threads prompts; a targeted weave of the current thread
takes it without prompting; a targeted weave of a different thread skips. -/
def handleFileConflictUnowned (st : EngineState)
    (currentThreadName threadNameToWeave : String) :
    Except String (Bool × EngineState) :=
  if threadNameToWeave = "" then
    match promptDecide st.decisions with
    | .error e => .error e
    | .ok (choice, rest) =>
      if choice = .yes then .ok (true, { st with decisions := rest })
      else .ok (false, { st with decisions := rest })
  else if threadNameToWeave = currentThreadName then .ok (true, st)
  else .ok (false, st)

/-- `decideFileWeavingAction`: the per-file 4-way decision of the weave
engine, keyed on destination existence and current ownership. -/
def decideFileWeavingAction (st : EngineState)
    (currentThreadName threadNameToWeave relDestPath : String) :
    Except String (Bool × EngineState) :=
  if (diskLookup st.disk relDestPath).isSome then
    match IsFileOwned st.config relDestPath with
    | some owner =>
      if owner ≠ currentThreadName then
        handleFileConflictOwnedByOther st currentThreadName threadNameToWeave owner relDestPath
      else .ok (true, st)
    | none => handleFileConflictUnowned st currentThreadName threadNameToWeave
  else .ok (true, st)

/-- `handleFileWeavingOperation`: process one candidate file of a weave.  A
missing or directory-typed source entry is skipped with a warning; otherwise
the decision logic runs and, on a write decision, the source content is
copied to the destination. -/
def handleFileWeavingOperation (src : SourceTree) (st : EngineState)
    (currentThreadName threadNameToWeave relPathFromSource : String) :
    Except String (Bool × EngineState) :=
  match srcLookup src relPathFromSource with
  | none => .ok (false, st)
  | some .dir => .ok (false, st)
  | some (.file content) =>
    match decideFileWeavingAction st currentThreadName threadNameToWeave relPathFromSource with
    | .error e => .error e
    | .ok (shouldWrite, st1) =>
      if shouldWrite then
        .ok (true, { st1 with disk := diskWrite st1.disk relPathFromSource content })
      else .ok (false, st1)

/-- `collectFilesToProcessForWeaving`: candidate files for one thread.  A
targeted weave of this thread replays its manifest `files` entries (keys
re-normalized) without touching the filesystem; weaving all threads walks the
source tree, splitting each regular file's relative path into a normalized
directory key and file name. -/
-- One `filepath.Walk` visit of the weave-all enumeration: directories are
-- skipped; a regular file's relative path is split and recorded.
def weaveWalkStep (m : List (String × List String)) (e : String × SrcEntry) :
    List (String × List String) :=
  match e.2 with
  | .dir => m
  | .file _ => addToMultimap m (normalizeDir (splitFileString e.1).1) [(splitFileString e.1).2]

def collectFilesToProcessForWeaving (thread : Thread) (src : SourceTree)
    (threadNameToWeave : String) : List (String × List String) :=
  if threadNameToWeave ≠ "" ∧ threadNameToWeave = thread.name then
    thread.files.foldl (fun m e => addToMultimap m (normalizeDir e.1) e.2) []
  else if threadNameToWeave = "" then
    src.entries.foldl weaveWalkStep []
  else []

/-- Flatten a collected multimap into the `(directory, file)` pairs visited
by the nested processing loops of `processWeavingForThread`. -/
def flattenPairs (m : List (String × List String)) : List (String × String) :=
  m.flatMap (fun e => e.2.map (fun f => (e.1, f)))

/-- The inner file loop of `processWeavingForThread`: process each candidate
pair in order, accumulating the files actually written into
`filesActuallyWrittenByThisThread`. -/
def weaveFilesLoop (src : SourceTree) (currentThreadName threadNameToWeave : String) :
    List (String × String) → EngineState → List (String × List String) →
    Except String (EngineState × List (String × List String))
  | [], st, written => .ok (st, written)
  | (d, f) :: rest, st, written =>
    match handleFileWeavingOperation src st currentThreadName threadNameToWeave (goJoin d f) with
    | .error e => .error e
    | .ok (wrote, st1) =>
      weaveFilesLoop src currentThreadName threadNameToWeave rest st1
        (if wrote then addToMultimap written d [f] else written)

/-- Replace the `files` map of the thread at one manifest position (the
`thread.Files = filesActuallyWrittenByThisThread` pointer assignment). -/
def setThreadFiles (lc : LoomConfig) (i : Nat) (files : List (String × List String)) : LoomConfig :=
  { lc with threads := lc.threads.set i { lc.threads.getD i default with files := files } }

/-- `processWeavingForThread`: skip threads other than the target of a
targeted weave; skip (unchanged) a thread whose source directory is missing
(`src?` is `none`); otherwise collect candidates, run the file loop, and
replace the thread's `files` with exactly the written set. -/
def processWeavingForThread (src? : Option SourceTree) (st : EngineState)
    (i : Nat) (threadNameToWeave : String) : Except String EngineState :=
  let thread := st.config.threads.getD i default
  if threadNameToWeave ≠ "" ∧ thread.name ≠ threadNameToWeave then .ok st
  else
    match src? with
    | none => .ok st
    | some src =>
      let filesToProcess := collectFilesToProcessForWeaving thread src threadNameToWeave
      match weaveFilesLoop src thread.name threadNameToWeave (flattenPairs filesToProcess) st [] with
      | .error e => .error e
      | .ok (st1, written) => .ok { st1 with config := setThreadFiles st1.config i written }

/-- The thread loop of `Weave`: indices into the (length-stable) thread list,
tracking whether the targeted thread was encountered and breaking right after
processing it. -/
def weaveGo (srcs : Nat → Option SourceTree) (threadNameToWeave : String) :
    List Nat → Bool → EngineState → Except String (EngineState × Bool)
  | [], found, st => .ok (st, found)
  | i :: rest, found, st =>
    let t := st.config.threads.getD i default
    let found1 := found || (threadNameToWeave ≠ "" && t.name = threadNameToWeave)
    match processWeavingForThread (srcs i) st i threadNameToWeave with
    | .error e => .error e
    | .ok st1 =>
      if threadNameToWeave ≠ "" ∧ t.name = threadNameToWeave then .ok (st1, found1)
      else weaveGo srcs threadNameToWeave rest found1 st1

/-- `Weave` (manifest load/save is persistence, outside the engine): process
every thread in manifest order; error if a requested target thread does not
exist.  `srcs i` is the source tree resolved for the thread at position `i`
(`determineThreadSourcePath`), `none` when that directory does not exist. -/
def Weave (srcs : Nat → Option SourceTree) (threadNameToWeave : String)
    (st : EngineState) : Except String EngineState :=
  match weaveGo srcs threadNameToWeave (List.range st.config.threads.length) false st with
  | .error e => .error e
  | .ok (st1, found) =>
    if threadNameToWeave ≠ "" ∧ found = false then .error "thread not found"
    else .ok st1

/-! ## Add-command conflict resolution and copying (`internal/cli/add`) -/

/-- The owning thread's source label as looked up by
`handleExistingFileConflict`: the `source` of the first thread with the
owner's name, falling back to the owner's name when that is empty. -/
def ownerSourceOf (lc : LoomConfig) (ownerName : String) : String :=
  let s := (((lc.threads.find? (fun t => t.name = ownerName)).map (·.source)).getD "")
  if s = "" then ownerName else s

/-- `handleExistingFileConflict`: decide whether `add` may overwrite an
existing destination file.  When the destination is owned and the owner's
recorded source label equals the source label of the add, overwrite silently;
otherwise (owned by a different source, or unowned) prompt, overwriting only
on yes.  A missing destination is always written. -/
def handleExistingFileConflict (st : EngineState)
    (relDestPath displayCurrentThreadSource : String) :
    Except String (Bool × EngineState) :=
  match diskLookup st.disk relDestPath with
  | some _ =>
    match IsFileOwned st.config relDestPath with
    | some ownerName =>
      if ownerSourceOf st.config ownerName = displayCurrentThreadSource then .ok (true, st)
      else
        match promptDecide st.decisions with
        | .error e => .error e
        | .ok (choice, rest) =>
          if choice = .yes then .ok (true, { st with decisions := rest })
          else .ok (false, { st with decisions := rest })
    | none =>
      match promptDecide st.decisions with
      | .error e => .error e
      | .ok (choice, rest) =>
        if choice = .yes then .ok (true, { st with decisions := rest })
        else .ok (false, { st with decisions := rest })
  | none => .ok (true, st)

/-- `_processFileCopy`: copy one source file into the project after conflict
resolution (directory creation is implicit in the file-map disk model).
Returns whether the file was written. -/
def processFileCopyModel (st : EngineState)
    (relPath content displayCurrentThreadSource : String) :
    Except String (Bool × EngineState) :=
  match handleExistingFileConflict st relPath displayCurrentThreadSource with
  | .error e => .error e
  | .ok (shouldOverwrite, st1) =>
    if shouldOverwrite then
      .ok (true, { st1 with disk := diskWrite st1.disk relPath content })
    else .ok (false, st1)

/-- The recursive copy of `copyDir`/`copyDirWithBasePath`, flattened to the
visit order of its `os.ReadDir` recursion: each regular source file is
processed in turn and, when copied, recorded in `filesByDir` under the
normalized directory key that `_processFileCopy` derives from the
destination's parent directory (`"./"` for the project root, otherwise the
relative directory with a trailing slash). -/
def addFilesLoop (displayCurrentThreadSource : String) :
    List (String × String) → EngineState → List (String × List String) →
    Except String (EngineState × List (String × List String))
  | [], st, filesByDir => .ok (st, filesByDir)
  | (relPath, content) :: rest, st, filesByDir =>
    match processFileCopyModel st relPath content displayCurrentThreadSource with
    | .error e => .error e
    | .ok (copied, st1) =>
      addFilesLoop displayCurrentThreadSource rest st1
        (if copied then
          addToMultimap filesByDir (normalizeDir (splitFileString relPath).1)
            [(splitFileString relPath).2]
         else filesByDir)

/-- The `add` action after thread resolution: copy the thread's source files
into the project, then apply `updateLoomConfig` to the manifest. -/
def addThread (st : EngineState) (threadName threadSource : String)
    (srcFiles : List (String × String)) : Except String EngineState :=
  match addFilesLoop threadSource srcFiles st [] with
  | .error e => .error e
  | .ok (st1, filesByDir) =>
    .ok { st1 with config := updateLoomConfigModel st1.config threadName threadSource filesByDir }

/-! ## Store resolution (`internal/cli/add`) -/

/-- What `os.Stat` finds at a store's `<threadName>/_thread` path: nothing, a
regular file, or a directory. -/
inductive FsKind
  | file
  | dir
deriving DecidableEq, Repr

/-- A configured global store (`globalconfig.Store`) together with what is on
disk at each thread's `_thread` path inside it. -/
structure GStore where
  name : String
  stype : String
  path : String
  threadEntries : List (String × FsKind)
deriving DecidableEq, Repr

/-- Stat a store's `<threadName>/_thread` path. -/
def storeStat (entries : List (String × FsKind)) (threadName : String) : Option FsKind :=
  (entries.find? (·.1 = threadName)).map (·.2)

/-- The structured error outcomes of thread resolution; the Go code renders
each as a distinct formatted message (`thread path '…' in store '…' is a
file, not a directory`; `specified store '…' not found in global
configuration`; `thread '…' not found in specified store '…'`; `thread '…'
not found in project's .loom folder or any configured local PC stores`). -/
inductive ResolveError
  | malformedThread (path storeName : String)
  | storeNotFound (storeName : String)
  | threadNotFoundInStore (threadName storeName : String)
  | threadNotFoundAnywhere (threadName : String)
deriving DecidableEq, Repr

/-- `findThreadInProjectStore`: the project-local store resolves a thread
when anything exists at `.loom/<threadName>/_thread` — a regular file there
also counts as found (no directory check). -/
def findThreadInProjectStore (projectStore : List (String × FsKind)) (threadName : String) :
    Option (String × String) :=
  match storeStat projectStore threadName with
  | some _ => some (".loom/" ++ threadName ++ "/_thread", "project:.loom/" ++ threadName)
  | none => none

/-- `findThreadInLocalStores`: scan the configured stores in order (only those
matching a requested store name, only `local` ones); a directory at the
thread path resolves, a regular file there is a malformed-thread error naming
the path and store. -/
def findThreadInLocalStores (targetStoreName threadName : String) :
    List GStore → Except ResolveError (Option (String × String))
  | [] => .ok none
  | store :: rest =>
    if targetStoreName ≠ "" ∧ store.name ≠ targetStoreName then
      findThreadInLocalStores targetStoreName threadName rest
    else if store.stype = "local" then
      match storeStat store.threadEntries threadName with
      | some .dir => .ok (some (store.path ++ "/" ++ threadName ++ "/_thread", store.name))
      | some .file => .error (.malformedThread (store.path ++ "/" ++ threadName ++ "/_thread") store.name)
      | none => findThreadInLocalStores targetStoreName threadName rest
    else findThreadInLocalStores targetStoreName threadName rest

/-- `handleThreadSearch`: resolve a thread, trying the project store first
(only when no store is named), then the configured local stores, choosing
among the three distinct not-found error kinds otherwise. -/
def handleThreadSearch (projectStore : List (String × FsKind)) (stores : List GStore)
    (targetStoreName threadName : String) : Except ResolveError (String × String) :=
  let viaLocal : Except ResolveError (String × String) :=
    match findThreadInLocalStores targetStoreName threadName stores with
    | .error e => .error e
    | .ok (some r) => .ok r
    | .ok none =>
      if targetStoreName ≠ "" then
        if stores.any (·.name = targetStoreName) then
          .error (.threadNotFoundInStore threadName targetStoreName)
        else .error (.storeNotFound targetStoreName)
      else .error (.threadNotFoundAnywhere threadName)
  if targetStoreName = "" then
    match findThreadInProjectStore projectStore threadName with
    | some r => .ok r
    | none => viaLocal
  else viaLocal

/-! ## Remove command (`internal/cli/remove`) -/

/-- The file-deletion pass of `removeThreadAction` (`removeThreadFiles`):
delete every file listed in the thread's `files` map (empty-directory cleanup
has no observable effect in the file-map disk model). -/
def removeThreadFilesFromDisk (thread : Thread) (disk : List (String × String)) :
    List (String × String) :=
  thread.files.foldl
    (fun d e => e.2.foldl (fun d2 f => diskRemove d2 (goJoin e.1 f)) d) disk

/-- `removeThreadAction` (manifest and disk effect): error when the thread is
absent; otherwise delete its files from disk and drop it from the thread
list. -/
def removeThreadAction (st : EngineState) (threadName : String) :
    Except String EngineState :=
  match st.config.threads.find? (·.name = threadName) with
  | none => .error "thread not found"
  | some t =>
    .ok { st with
      disk := removeThreadFilesFromDisk t st.disk
      config := { st.config with threads := st.config.threads.filter (·.name ≠ threadName) } }

/-- `removeAllThreadsAction` (manifest and disk effect): delete every
thread's files and clear the thread list. -/
def removeAllThreadsAction (st : EngineState) : EngineState :=
  { st with
    disk := st.config.threads.foldl (fun d t => removeThreadFilesFromDisk t d) st.disk
    config := { st.config with threads := [] } }

/-! ## Well-formedness of manifests, trees and states -/

/-- A simple path segment: usable as a file name, free of separators and dot
navigation. -/
def isSimpleSeg (l : List Char) : Bool :=
  decide (l ≠ []) && decide (l ≠ ['.']) && decide (l ≠ ['.', '.']) && !(l.contains '/')

/-- A clean relative path: nonempty simple segments only (no leading,
trailing or doubled separator, no dot navigation). -/
def isCleanRel (p : String) : Bool :=
  (splitOnChar '/' p.data).all isSimpleSeg

/-- A simple file name (one clean segment). -/
def isSimpleName (f : String) : Bool := isSimpleSeg f.data

/-- A well-formed manifest directory key, as the engine itself produces them:
the root key `"./"`, or a clean relative directory path with a trailing
slash. -/
def wfDirKey (d : String) : Bool :=
  decide (d = "./") || (endsWithSlash d && isCleanRel ⟨d.data.dropLast⟩)

/-- A well-formed `files` map: well-formed normalized keys without
duplicates, simple file names. -/
def wfFilesMap (files : List (String × List String)) : Bool :=
  files.all (fun e => wfDirKey e.1 && e.2.all isSimpleName) &&
    (files.map (·.1)).Nodup

/-- A well-formed manifest: unique thread names, each thread's `files` map
well-formed. -/
def wfConfig (lc : LoomConfig) : Bool :=
  (lc.threads.map (·.name)).Nodup && lc.threads.all (fun t => wfFilesMap t.files)

/-- A well-formed source tree: clean relative entry paths. -/
def wfSourceTree (src : SourceTree) : Bool :=
  src.entries.all (fun e => isCleanRel e.1)

/-- A `files` map contains the normalized `(directory, filename)` pair. -/
def ownsPairF (files : List (String × List String)) (nd f : String) : Bool :=
  files.any (fun e => decide (normalizeDir e.1 = nd) && e.2.contains f)

/-- One thread owns the normalized `(directory, filename)` pair. -/
def ownsPair (t : Thread) (nd f : String) : Bool :=
  ownsPairF t.files nd f

/-- Literal key membership of a `(directory, filename)` pair in a `files`
map or collected multimap (no re-normalization of the key). -/
def pairMem (m : List (String × List String)) (d f : String) : Bool :=
  m.any (fun e => decide (e.1 = d) && e.2.contains f)

/-- Look up the file list recorded under a directory key. -/
def lookupFiles (files : List (String × List String)) (dir : String) : Option (List String) :=
  (files.find? (·.1 = dir)).map (·.2)

/-- Whether a source-tree lookup hit a regular file. -/
def isSrcFile : Option SrcEntry → Bool
  | some (.file _) => true
  | _ => false

/-- Append a trailing slash to a directory key that lacks one (spec-side
helper used to compare the two spellings of the same key). -/
def addSlashKey (d : String) : String :=
  if endsWithSlash d then d else d ++ "/"

/-- Re-spell every directory key of a manifest with a trailing slash
(spec-side helper for the key-normalization claim). -/
def slashConfig (lc : LoomConfig) : LoomConfig :=
  { lc with threads := lc.threads.map (fun t =>
      { t with files := t.files.map (fun e => (addSlashKey e.1, e.2)) }) }

/-- Pairwise ownership exclusivity: no two distinct threads of the manifest
own the same normalized `(directory, filename)` pair. -/
def exclusiveThreads : List Thread → Bool
  | [] => true
  | t :: rest =>
    rest.all (fun u => t.files.all (fun e => e.2.all (fun f => !(ownsPair u (normalizeDir e.1) f)))) &&
      exclusiveThreads rest

/-- Manifest-level exclusivity. -/
def exclusive (lc : LoomConfig) : Bool := exclusiveThreads lc.threads

/-- The canonical project-relative path of a well-formed `(directory key,
file name)` pair. -/
def pathOf (nd f : String) : String := if nd = "./" then f else nd ++ f

/-- Ledger/disk agreement: every file a thread owns is present on disk at its
reconstructed path. -/
def ownedOnDisk (lc : LoomConfig) (disk : List (String × String)) : Bool :=
  lc.threads.all (fun t => t.files.all (fun e => e.2.all
    (fun f => (diskLookup disk (pathOf e.1 f)).isSome)))

/-! ## Lemma kit: splitting and joining on the separator -/

theorem splitOnChar_ne_nil (c : Char) : ∀ l, splitOnChar c l ≠ []
  | [] => by simp [splitOnChar]
  | a :: rest => by
    have h2 := splitOnChar_ne_nil c rest
    cases h : splitOnChar c rest with
    | nil => exact absurd h h2
    | cons s ss =>
      simp only [splitOnChar, h]
      by_cases hac : a = c <;> simp [hac]

theorem splitOnChar_cons_self (c : Char) (l : List Char) :
    splitOnChar c (c :: l) = [] :: splitOnChar c l := by
  cases h : splitOnChar c l with
  | nil => exact absurd h (splitOnChar_ne_nil c l)
  | cons s ss => simp only [splitOnChar, h]; simp

theorem splitOnChar_cons_ne (c a : Char) (l : List Char) (hac : a ≠ c)
    (s : List Char) (ss : List (List Char)) (h : splitOnChar c l = s :: ss) :
    splitOnChar c (a :: l) = (a :: s) :: ss := by
  simp only [splitOnChar, h]
  simp [hac]

theorem splitOnChar_append_sep (c : Char) (ys : List Char) :
    ∀ xs, splitOnChar c (xs ++ c :: ys) = splitOnChar c xs ++ splitOnChar c ys
  | [] => by rw [List.nil_append, splitOnChar_cons_self]; rfl
  | a :: xs => by
    have IH := splitOnChar_append_sep c ys xs
    by_cases hac : a = c
    · subst hac
      rw [List.cons_append, splitOnChar_cons_self, splitOnChar_cons_self, IH]
      rfl
    · cases h : splitOnChar c xs with
      | nil => exact absurd h (splitOnChar_ne_nil c xs)
      | cons s ss =>
        rw [h] at IH
        have IH2 : splitOnChar c (xs ++ c :: ys) = s :: (ss ++ splitOnChar c ys) := by
          simpa using IH
        rw [List.cons_append,
          splitOnChar_cons_ne c a _ hac s (ss ++ splitOnChar c ys) IH2,
          splitOnChar_cons_ne c a xs hac s ss h]
        simp

theorem splitOnChar_of_not_mem (c : Char) : ∀ l, c ∉ l → splitOnChar c l = [l]
  | [], _ => rfl
  | a :: l, h => by
    have hac : a ≠ c := fun he => h (he ▸ List.mem_cons_self a l)
    have IH := splitOnChar_of_not_mem c l (fun hm => h (List.mem_cons_of_mem a hm))
    exact splitOnChar_cons_ne c a l hac l [] IH

theorem joinChar_cons_of_ne_nil (c : Char) (s : List Char) (ss : List (List Char)) (h : ss ≠ []) :
    joinChar c (s :: ss) = s ++ c :: joinChar c ss := by
  cases ss with
  | nil => exact absurd rfl h
  | cons t ts => rfl

theorem joinChar_splitOnChar (c : Char) : ∀ l, joinChar c (splitOnChar c l) = l
  | [] => rfl
  | a :: l => by
    have IH := joinChar_splitOnChar c l
    by_cases hac : a = c
    · subst hac
      rw [splitOnChar_cons_self, joinChar_cons_of_ne_nil a [] _ (splitOnChar_ne_nil a l), IH]
      simp
    · cases h : splitOnChar c l with
      | nil => exact absurd h (splitOnChar_ne_nil c l)
      | cons s ss =>
        rw [h] at IH
        rw [splitOnChar_cons_ne c a l hac s ss h]
        cases ss with
        | nil => simp_all [joinChar]
        | cons t ts =>
          rw [joinChar_cons_of_ne_nil c (a :: s) _ (by simp),
            ← IH, joinChar_cons_of_ne_nil c s _ (by simp)]
          simp

theorem splitOnChar_joinChar (c : Char) :
    ∀ ss, ss ≠ [] → (∀ s ∈ ss, c ∉ s) → splitOnChar c (joinChar c ss) = ss
  | [], h, _ => absurd rfl h
  | [s], _, h => by
    rw [joinChar]
    exact splitOnChar_of_not_mem c s (h s (by simp))
  | s :: t :: ts, _, h => by
    have IH := splitOnChar_joinChar c (t :: ts) (by simp)
      (fun u hu => h u (List.mem_cons_of_mem s hu))
    rw [joinChar_cons_of_ne_nil c s _ (by simp), splitOnChar_append_sep, IH,
      splitOnChar_of_not_mem c s (h s (by simp))]
    rfl

theorem joinChar_concat_of_ne_nil (c : Char) (z : List Char) :
    ∀ ss, ss ≠ [] → joinChar c (ss ++ [z]) = joinChar c ss ++ c :: z
  | [], h => absurd rfl h
  | [s], _ => by simp [joinChar]
  | s :: t :: ts, _ => by
    have IH := joinChar_concat_of_ne_nil c z (t :: ts) (by simp)
    rw [List.cons_append, joinChar_cons_of_ne_nil c s _ (by simp),
      joinChar_cons_of_ne_nil c s _ (by simp), IH]
    simp

/-! ## Lemma kit: `filepath.Split` -/

theorem takeWhile_append_all {α : Type} (p : α → Bool) (ys : List α) :
    ∀ xs, (∀ a ∈ xs, p a = true) → (xs ++ ys).takeWhile p = xs ++ ys.takeWhile p
  | [], _ => rfl
  | a :: xs, h => by
    have ha : p a = true := h a (by simp)
    have IH := takeWhile_append_all p ys xs (fun b hb => h b (List.mem_cons_of_mem a hb))
    simp [List.takeWhile_cons, ha, IH]

theorem dropWhile_append_all {α : Type} (p : α → Bool) (ys : List α) :
    ∀ xs, (∀ a ∈ xs, p a = true) → (xs ++ ys).dropWhile p = ys.dropWhile p
  | [], _ => rfl
  | a :: xs, h => by
    have ha : p a = true := h a (by simp)
    have IH := dropWhile_append_all p ys xs (fun b hb => h b (List.mem_cons_of_mem a hb))
    simp [List.dropWhile_cons, ha, IH]

theorem takeWhile_all {α : Type} (p : α → Bool) (xs : List α) (h : ∀ a ∈ xs, p a = true) :
    xs.takeWhile p = xs := by
  have h2 := takeWhile_append_all p [] xs h
  simpa using h2

theorem dropWhile_all {α : Type} (p : α → Bool) (xs : List α) (h : ∀ a ∈ xs, p a = true) :
    xs.dropWhile p = [] := by
  have h2 := dropWhile_append_all p [] xs h
  simpa using h2

theorem splitFileL_eq (l : List Char) :
    splitFileL l = ((l.reverse.dropWhile (· ≠ '/')).reverse,
      (l.reverse.takeWhile (· ≠ '/')).reverse) := rfl

theorem splitFileL_no_sep (f : List Char) (hf : '/' ∉ f) : splitFileL f = ([], f) := by
  have hall : ∀ a ∈ f.reverse, (fun x => decide (x ≠ '/')) a = true := by
    intro a ha
    simp only [decide_eq_true_eq]
    intro he
    exact hf (he ▸ (List.mem_reverse.mp ha))
  rw [splitFileL_eq, takeWhile_all _ _ hall, dropWhile_all _ _ hall]
  simp

theorem splitFileL_append (d f : List Char) (hd : d.getLast? = some '/') (hf : '/' ∉ f) :
    splitFileL (d ++ f) = (d, f) := by
  have hall : ∀ a ∈ f.reverse, (fun x => decide (x ≠ '/')) a = true := by
    intro a ha
    simp only [decide_eq_true_eq]
    intro he
    exact hf (he ▸ (List.mem_reverse.mp ha))
  have hdr : d.reverse.head? = some '/' := by rw [List.head?_reverse]; exact hd
  obtain ⟨dr, hdr2⟩ : ∃ dr, d.reverse = '/' :: dr := by
    cases hD : d.reverse with
    | nil => rw [hD] at hdr; simp at hdr
    | cons x xs =>
      rw [hD] at hdr
      simp at hdr
      exact ⟨xs, by rw [hdr]⟩
  rw [splitFileL_eq, List.reverse_append, takeWhile_append_all _ _ f.reverse hall,
    dropWhile_append_all _ _ f.reverse hall, hdr2]
  have h1 : (decide (('/' : Char) ≠ '/')) = false := by decide
  simp only [List.takeWhile_cons, List.dropWhile_cons, h1]
  rw [← hdr2]
  simp

theorem splitFileL_fst_append_snd (l : List Char) :
    (splitFileL l).1 ++ (splitFileL l).2 = l := by
  unfold splitFileL
  rw [← List.reverse_append, List.takeWhile_append_dropWhile, List.reverse_reverse]

/-! ## Lemma kit: `filepath.Clean` and `filepath.Join` on well-formed paths -/

theorem stringMk_data (s : String) : (⟨s.data⟩ : String) = s := by cases s; rfl

theorem string_data_inj {s t : String} (h : s.data = t.data) : s = t := by
  cases s
  cases t
  simp_all

theorem isSimpleSeg_props (s : List Char) (h : isSimpleSeg s = true) :
    s ≠ [] ∧ s ≠ ['.'] ∧ s ≠ ['.', '.'] ∧ '/' ∉ s := by
  simp only [isSimpleSeg, Bool.and_eq_true, decide_eq_true_eq, Bool.not_eq_true'] at h
  obtain ⟨⟨⟨h1, h2⟩, h3⟩, h4⟩ := h
  refine ⟨h1, h2, h3, ?h5⟩
  intro hm
  have h5 : s.contains '/' = true := by simpa using hm
  rw [h5] at h4
  simp at h4

theorem cleanSegs_allowed (rooted : Bool) :
    ∀ segs acc, (∀ s ∈ segs, s = [] ∨ s = ['.'] ∨ isSimpleSeg s = true) →
      cleanSegs rooted acc segs = acc.reverse ++ segs.filter isSimpleSeg
  | [], acc, _ => by simp [cleanSegs]
  | s :: segs, acc, h => by
    have hs := h s (by simp)
    have IH := fun acc2 => cleanSegs_allowed rooted segs acc2
      (fun u hu => h u (List.mem_cons_of_mem s hu))
    rcases hs with h1 | h1 | h1
    · subst h1
      rw [show cleanSegs rooted acc ([] :: segs) = cleanSegs rooted acc segs from by
        simp [cleanSegs], IH acc]
      have he : isSimpleSeg ([] : List Char) = false := by decide
      simp [he]
    · subst h1
      rw [show cleanSegs rooted acc (['.'] :: segs) = cleanSegs rooted acc segs from by
        simp [cleanSegs], IH acc]
      have he : isSimpleSeg ['.'] = false := by decide
      simp [he]
    · obtain ⟨hn1, hn2, hn3, _⟩ := isSimpleSeg_props s h1
      rw [show cleanSegs rooted acc (s :: segs) = cleanSegs rooted (s :: acc) segs from by
        simp [cleanSegs, hn1, hn2, hn3], IH (s :: acc)]
      simp [h1]

theorem splitOnChar_no_slash_of_simple (f : List Char) (hf : isSimpleSeg f = true) :
    splitOnChar '/' f = [f] :=
  splitOnChar_of_not_mem '/' f (isSimpleSeg_props f hf).2.2.2

theorem isCleanRel_segs (k : List Char) (h : isCleanRel ⟨k⟩ = true) :
    ∀ s ∈ splitOnChar '/' k, isSimpleSeg s = true := by
  intro s hs
  have h2 : (splitOnChar '/' k).all isSimpleSeg = true := h
  exact List.all_eq_true.mp h2 s hs

theorem isCleanRel_ne_nil (k : List Char) (h : isCleanRel ⟨k⟩ = true) : k ≠ [] := by
  intro he
  subst he
  have h2 := isCleanRel_segs [] h [] (by simp [splitOnChar])
  exact absurd h2 (by decide)

theorem isCleanRel_head_ne_slash (k : List Char) (h : isCleanRel ⟨k⟩ = true) :
    k.head? ≠ some '/' := by
  cases hsp : splitOnChar '/' k with
  | nil => exact absurd hsp (splitOnChar_ne_nil '/' k)
  | cons s ss =>
    have hk : joinChar '/' (s :: ss) = k := by rw [← hsp, joinChar_splitOnChar]
    have hsimp := isCleanRel_segs k h s (by rw [hsp]; simp)
    obtain ⟨hne, _, _, hnm⟩ := isSimpleSeg_props s hsimp
    obtain ⟨a, s2, rfl⟩ : ∃ a s2, s = a :: s2 := by
      cases s with
      | nil => exact absurd rfl hne
      | cons a s2 => exact ⟨a, s2, rfl⟩
    have hka : k.head? = some a := by
      cases ss with
      | nil => rw [← hk]; rfl
      | cons t ts =>
        rw [← hk, joinChar_cons_of_ne_nil '/' _ _ (by simp)]
        rfl
    rw [hka]
    intro he
    simp only [Option.some.injEq] at he
    exact hnm (he ▸ List.mem_cons_self a s2)

theorem goCleanL_wf_concat (k f : List Char)
    (hk : isCleanRel ⟨k⟩ = true) (hf : isSimpleSeg f = true) :
    goCleanL (k ++ '/' :: '/' :: f) = k ++ '/' :: f := by
  have hsegs : splitOnChar '/' (k ++ '/' :: '/' :: f)
      = splitOnChar '/' k ++ [] :: [f] := by
    rw [splitOnChar_append_sep, splitOnChar_cons_self, splitOnChar_no_slash_of_simple f hf]
  have hallowed : ∀ s ∈ splitOnChar '/' (k ++ '/' :: '/' :: f),
      s = [] ∨ s = ['.'] ∨ isSimpleSeg s = true := by
    intro s hs
    rw [hsegs] at hs
    rcases List.mem_append.mp hs with hs1 | hs1
    · exact Or.inr (Or.inr (isCleanRel_segs k hk s hs1))
    · rcases List.mem_cons.mp hs1 with hs2 | hs2
      · exact Or.inl hs2
      · exact Or.inr (Or.inr (by rcases List.mem_singleton.mp hs2 with rfl; exact hf))
  have hfilter : (splitOnChar '/' (k ++ '/' :: '/' :: f)).filter isSimpleSeg
      = splitOnChar '/' k ++ [f] := by
    rw [hsegs, List.filter_append]
    rw [List.filter_eq_self.mpr (isCleanRel_segs k hk)]
    have he : isSimpleSeg ([] : List Char) = false := by decide
    simp [he, hf]
  have hjoin : joinChar '/' (splitOnChar '/' k ++ [f]) = k ++ '/' :: f := by
    rw [joinChar_concat_of_ne_nil '/' f _ (splitOnChar_ne_nil '/' k), joinChar_splitOnChar]
  have hhead : (k ++ '/' :: '/' :: f).head? ≠ some '/' := by
    have hkne := isCleanRel_ne_nil k hk
    obtain ⟨a, k2, rfl⟩ : ∃ a k2, k = a :: k2 := by
      cases k with
      | nil => exact absurd rfl hkne
      | cons a k2 => exact ⟨a, k2, rfl⟩
    have hh := isCleanRel_head_ne_slash _ hk
    simpa using hh
  unfold goCleanL
  rw [if_neg hhead, cleanSegs_allowed _ _ [] hallowed]
  simp only [List.reverse_nil, List.nil_append]
  rw [hfilter, hjoin]
  rw [if_neg (by simp)]

theorem goCleanL_root_concat (f : List Char) (hf : isSimpleSeg f = true) :
    goCleanL ('.' :: '/' :: '/' :: f) = f := by
  have hsegs : splitOnChar '/' ('.' :: '/' :: '/' :: f) = [['.']] ++ [] :: [f] := by
    have h2 : ('.' :: '/' :: '/' :: f) = ['.'] ++ '/' :: ('/' :: f) := rfl
    rw [h2, splitOnChar_append_sep, splitOnChar_cons_self, splitOnChar_no_slash_of_simple f hf]
    rfl
  have hfnil := (isSimpleSeg_props f hf).1
  unfold goCleanL
  rw [if_neg (by simp)]
  rw [hsegs, cleanSegs_allowed _ _ []
    (by
      intro s hs
      simp only [List.mem_append, List.mem_cons, List.mem_singleton] at hs
      rcases hs with h1 | h1 | h1
      · rcases h1 with rfl | h1
        · exact Or.inr (Or.inl rfl)
        · simp at h1
      · exact Or.inl h1
      · rcases h1 with rfl | h1
        · exact Or.inr (Or.inr hf)
        · simp at h1)]
  have he : isSimpleSeg ([] : List Char) = false := by decide
  have hd : isSimpleSeg ['.'] = false := by decide
  simp only [List.reverse_nil, List.nil_append, List.filter_append, List.filter_cons,
    List.filter_nil, he, hd, hf]
  simp [joinChar, hfnil]

/-! ## Lemma kit: canonical paths of well-formed keys -/

theorem endsWithSlash_iff (s : String) :
    endsWithSlash s = true ↔ s.data.getLast? = some '/' := by
  simp [endsWithSlash]

theorem getLast?_slash_decomp (l : List Char) (h : l.getLast? = some '/') :
    l = l.dropLast ++ ['/'] := by
  have hr : l.reverse.head? = some '/' := by rw [List.head?_reverse]; exact h
  cases hl : l.reverse with
  | nil => rw [hl] at hr; simp at hr
  | cons x t =>
    rw [hl] at hr
    simp only [List.head?_cons, Option.some.injEq] at hr
    subst hr
    have h2 : l = t.reverse ++ ['/'] := by
      rw [← List.reverse_reverse l, hl]
      simp
    rw [h2, List.dropLast_concat]

theorem wfDirKey_decomp (d : String) (hd : wfDirKey d = true) (hne : d ≠ "./") :
    d.data = d.data.dropLast ++ ['/'] ∧ isCleanRel ⟨d.data.dropLast⟩ = true := by
  simp only [wfDirKey, Bool.or_eq_true, decide_eq_true_eq, Bool.and_eq_true] at hd
  rcases hd with h1 | ⟨h1, h2⟩
  · exact absurd h1 hne
  · exact ⟨getLast?_slash_decomp d.data ((endsWithSlash_iff d).mp h1), h2⟩

theorem wfDirKey_ne_empty (d : String) (hd : wfDirKey d = true) : d ≠ "" := by
  by_cases hne : d = "./"
  · subst hne; intro h; exact absurd h (by decide)
  · obtain ⟨h1, _⟩ := wfDirKey_decomp d hd hne
    intro he
    subst he
    simp at h1

theorem endsWithSlash_of_wf_ne_root (d : String) (hd : wfDirKey d = true) (hne : d ≠ "./") :
    endsWithSlash d = true := by
  simp only [wfDirKey, Bool.or_eq_true, decide_eq_true_eq, Bool.and_eq_true] at hd
  rcases hd with h1 | ⟨h1, _⟩
  · exact absurd h1 hne
  · exact h1

theorem normalizeDir_wfDirKey (d : String) (hd : wfDirKey d = true) : normalizeDir d = d := by
  by_cases hne : d = "./"
  · subst hne; decide
  · have hes := endsWithSlash_of_wf_ne_root d hd hne
    have h1 : d ≠ "" := wfDirKey_ne_empty d hd
    have h2 : d ≠ "." := by
      intro he
      subst he
      exact absurd hes (by decide)
    unfold normalizeDir toSlash
    rw [if_neg (by simp [h1, h2]), if_pos hes]

theorem goJoin_pathOf (d f : String) (hd : wfDirKey d = true) (hf : isSimpleName f = true) :
    goJoin d f = pathOf d f := by
  by_cases hne : d = "./"
  · subst hne
    unfold goJoin pathOf
    rw [if_neg (by decide), if_pos rfl]
    have hdata : ("./" ++ "/" ++ f).data = '.' :: '/' :: '/' :: f.data := by
      have h1 : ("./" ++ "/" ++ f).data = ("./" ++ "/").data ++ f.data := String.data_append _ _
      rw [h1]
      rfl
    unfold goClean
    rw [hdata, goCleanL_root_concat f.data hf]
  · obtain ⟨h1, h2⟩ := wfDirKey_decomp d hd hne
    unfold goJoin pathOf
    rw [if_neg (wfDirKey_ne_empty d hd), if_neg hne]
    have hdata : (d ++ "/" ++ f).data = d.data.dropLast ++ '/' :: '/' :: f.data := by
      have ha : (d ++ "/" ++ f).data = (d ++ "/").data ++ f.data := String.data_append _ _
      have hb : (d ++ "/").data = d.data ++ ['/'] := String.data_append _ _
      rw [ha, hb]
      conv => lhs; rw [h1]
      simp
    unfold goClean
    rw [hdata, goCleanL_wf_concat _ _ h2 hf]
    apply string_data_inj
    have hc : (d ++ f).data = d.data ++ f.data := String.data_append _ _
    rw [hc]
    conv => rhs; rw [h1]
    simp

theorem reconstruct_pathOf (d f : String) (hd : wfDirKey d = true)
    (hf : isSimpleName f = true) : reconstructOwnedPath d f = pathOf d f := by
  by_cases hne : d = "./"
  · subst hne
    unfold reconstructOwnedPath isOwnedNormDir
    simp [pathOf]
  · have hes := endsWithSlash_of_wf_ne_root d hd hne
    have hnorm : isOwnedNormDir d = d := by
      unfold isOwnedNormDir
      rw [if_neg (by simp [hes])]
    unfold reconstructOwnedPath
    rw [hnorm, if_neg hne]
    unfold toSlash
    exact goJoin_pathOf d f hd hf

theorem splitFileString_pathOf (d f : String) (hd : wfDirKey d = true)
    (hf : isSimpleName f = true) :
    splitFileString (pathOf d f) = (if d = "./" then "" else d, f) := by
  have hnm : '/' ∉ f.data := (isSimpleSeg_props f.data hf).2.2.2
  by_cases hne : d = "./"
  · subst hne
    unfold pathOf splitFileString
    rw [if_pos rfl, if_pos rfl, splitFileL_no_sep f.data hnm]
  · obtain ⟨h1, _⟩ := wfDirKey_decomp d hd hne
    have hlast : d.data.getLast? = some '/' := by
      rw [h1]
      simp
    unfold pathOf splitFileString
    rw [if_neg hne, if_neg hne]
    have hdata : (d ++ f).data = d.data ++ f.data := String.data_append _ _
    rw [hdata, splitFileL_append d.data f.data hlast hnm]

theorem normalizeDir_split_pathOf (d f : String) (hd : wfDirKey d = true)
    (hf : isSimpleName f = true) :
    normalizeDir (splitFileString (pathOf d f)).1 = d ∧ (splitFileString (pathOf d f)).2 = f := by
  rw [splitFileString_pathOf d f hd hf]
  by_cases hne : d = "./"
  · rw [if_pos hne]
    constructor
    · show normalizeDir "" = d
      rw [hne]
      decide
    · rfl
  · rw [if_neg hne]
    exact ⟨normalizeDir_wfDirKey d hd, rfl⟩

theorem pathOf_inj (d d' f f' : String) (hd : wfDirKey d = true) (hd' : wfDirKey d' = true)
    (hf : isSimpleName f = true) (hf' : isSimpleName f' = true)
    (h : pathOf d f = pathOf d' f') : d = d' ∧ f = f' := by
  have hs := congrArg splitFileString h
  rw [splitFileString_pathOf d f hd hf, splitFileString_pathOf d' f' hd' hf'] at hs
  have h1 : (if d = "./" then "" else d) = (if d' = "./" then "" else d') := congrArg Prod.fst hs
  have h2 : f = f' := congrArg Prod.snd hs
  refine ⟨?hda, h2⟩
  by_cases he : d = "./" <;> by_cases he' : d' = "./"
  · rw [he, he']
  · rw [if_pos he, if_neg he'] at h1
    exact absurd h1.symm (wfDirKey_ne_empty d' hd')
  · rw [if_neg he, if_pos he'] at h1
    exact absurd h1 (wfDirKey_ne_empty d hd)
  · rw [if_neg he, if_neg he'] at h1
    exact h1

theorem splitFileString_clean (p : String) (hp : isCleanRel p = true) :
    wfDirKey (normalizeDir (splitFileString p).1) = true ∧
    isSimpleName (splitFileString p).2 = true ∧
    goJoin (normalizeDir (splitFileString p).1) (splitFileString p).2 = p := by
  have hsegs : ∀ s ∈ splitOnChar '/' p.data, isSimpleSeg s = true := by
    intro s hs
    exact List.all_eq_true.mp hp s hs
  have hjoin : joinChar '/' (splitOnChar '/' p.data) = p.data := joinChar_splitOnChar '/' p.data
  rcases List.eq_nil_or_concat (splitOnChar '/' p.data) with hc | ⟨ss, z, hc⟩
  · exact absurd hc (splitOnChar_ne_nil '/' p.data)
  rw [List.concat_eq_append] at hc
  have hz : isSimpleSeg z = true := hsegs z (by rw [hc]; simp)
  have hznm : '/' ∉ z := (isSimpleSeg_props z hz).2.2.2
  cases hss : ss with
  | nil =>
    subst hss
    have hpz : p.data = z := by rw [← hjoin, hc]; rfl
    have hsplit : splitFileL p.data = ([], p.data) := splitFileL_no_sep p.data (hpz ▸ hznm)
    have hfst : (splitFileString p).1 = "" := by
      unfold splitFileString
      rw [hsplit]
    have hsnd : (splitFileString p).2 = p := by
      unfold splitFileString
      rw [hsplit]
    have hsimp : isSimpleName p = true := by
      unfold isSimpleName
      rw [hpz]
      exact hz
    have hnd : normalizeDir "" = "./" := by decide
    rw [hfst, hsnd, hnd]
    refine ⟨by decide, hsimp, ?hj⟩
    rw [goJoin_pathOf "./" p (by decide) hsimp]
    rfl
  | cons s0 ss0 =>
    subst hss
    have hssne : (s0 :: ss0) ≠ ([] : List (List Char)) := by simp
    have hpd : p.data = (joinChar '/' (s0 :: ss0) ++ ['/']) ++ z := by
      rw [← hjoin, hc, joinChar_concat_of_ne_nil '/' z _ hssne]
      simp
    have hlast : (joinChar '/' (s0 :: ss0) ++ ['/']).getLast? = some '/' := by simp
    have hsplit : splitFileL p.data = (joinChar '/' (s0 :: ss0) ++ ['/'], z) := by
      rw [hpd]
      exact splitFileL_append _ _ hlast hznm
    have hmemss : ∀ s ∈ (s0 :: ss0), isSimpleSeg s = true := by
      intro s hs
      exact hsegs s (by rw [hc]; exact List.mem_append_left _ hs)
    have hfst : (splitFileString p).1 = ⟨joinChar '/' (s0 :: ss0) ++ ['/']⟩ := by
      unfold splitFileString
      rw [hsplit]
    have hsnd : (splitFileString p).2 = ⟨z⟩ := by
      unfold splitFileString
      rw [hsplit]
    have hdd : (⟨joinChar '/' (s0 :: ss0) ++ ['/']⟩ : String).data
        = joinChar '/' (s0 :: ss0) ++ ['/'] := rfl
    have hclean : isCleanRel ⟨joinChar '/' (s0 :: ss0)⟩ = true := by
      unfold isCleanRel
      rw [show (⟨joinChar '/' (s0 :: ss0)⟩ : String).data = joinChar '/' (s0 :: ss0) from rfl]
      rw [splitOnChar_joinChar '/' (s0 :: ss0) hssne
        (fun s hs => (isSimpleSeg_props s (hmemss s hs)).2.2.2)]
      exact List.all_eq_true.mpr hmemss
    have hwf : wfDirKey (⟨joinChar '/' (s0 :: ss0) ++ ['/']⟩ : String) = true := by
      unfold wfDirKey endsWithSlash
      rw [hdd, List.dropLast_concat]
      simp [hclean]
    have hsimple : isSimpleName (⟨z⟩ : String) = true := hz
    have hnd := normalizeDir_wfDirKey _ hwf
    rw [hfst, hsnd, hnd]
    have hroot : (⟨joinChar '/' (s0 :: ss0) ++ ['/']⟩ : String) ≠ "./" := by
      intro he
      have hdd2 := congrArg String.data he
      rw [hdd] at hdd2
      have hs0 : isSimpleSeg s0 = true := hmemss s0 (by simp)
      obtain ⟨hs0ne, hs0d, _, _⟩ := isSimpleSeg_props s0 hs0
      have hj0 : joinChar '/' (s0 :: ss0) = ['.'] := by
        have h3 := congrArg List.dropLast hdd2
        rw [List.dropLast_concat] at h3
        exact h3
      cases ss0 with
      | nil =>
        rw [joinChar] at hj0
        exact hs0d hj0
      | cons t ts =>
        rw [joinChar_cons_of_ne_nil '/' s0 _ (by simp)] at hj0
        cases s0 with
        | nil => exact hs0ne rfl
        | cons a as =>
          have h4 := congrArg List.length hj0
          simp at h4
    refine ⟨hwf, hsimple, ?hj2⟩
    rw [goJoin_pathOf _ _ hwf hsimple]
    unfold pathOf
    rw [if_neg hroot]
    apply string_data_inj
    rw [String.data_append, hdd]
    rw [show (⟨z⟩ : String).data = z from rfl, hpd]

/-! ## Lemma kit: ownership predicates -/

theorem pairMem_iff (m : List (String × List String)) (d f : String) :
    pairMem m d f = true ↔ ∃ e ∈ m, e.1 = d ∧ f ∈ e.2 := by
  unfold pairMem
  simp [List.any_eq_true]

theorem ownsPairF_iff (files : List (String × List String)) (nd f : String) :
    ownsPairF files nd f = true ↔ ∃ e ∈ files, normalizeDir e.1 = nd ∧ f ∈ e.2 := by
  unfold ownsPairF
  simp [List.any_eq_true]

theorem ownsPair_iff (t : Thread) (nd f : String) :
    ownsPair t nd f = true ↔ ∃ e ∈ t.files, normalizeDir e.1 = nd ∧ f ∈ e.2 :=
  ownsPairF_iff t.files nd f

theorem wfFilesMap_entries (files : List (String × List String)) (h : wfFilesMap files = true) :
    ∀ e ∈ files, wfDirKey e.1 = true ∧ ∀ g ∈ e.2, isSimpleName g = true := by
  intro e he
  unfold wfFilesMap at h
  simp only [Bool.and_eq_true, List.all_eq_true] at h
  obtain ⟨h1, _⟩ := h
  exact h1 e he

theorem wfFilesMap_nodup (files : List (String × List String)) (h : wfFilesMap files = true) :
    (files.map (·.1)).Nodup := by
  unfold wfFilesMap at h
  simp only [Bool.and_eq_true] at h
  exact of_decide_eq_true h.2

theorem ownsPairF_eq_pairMem (files : List (String × List String)) (nd f : String)
    (h : wfFilesMap files = true) : ownsPairF files nd f = pairMem files nd f := by
  rw [Bool.eq_iff_iff, ownsPairF_iff, pairMem_iff]
  constructor
  · rintro ⟨e, he, hnd, hf⟩
    refine ⟨e, he, ?h1, hf⟩
    rw [← hnd, normalizeDir_wfDirKey e.1 (wfFilesMap_entries files h e he).1]
  · rintro ⟨e, he, hnd, hf⟩
    refine ⟨e, he, ?h2, hf⟩
    rw [normalizeDir_wfDirKey e.1 (wfFilesMap_entries files h e he).1, hnd]

theorem threadDisjoint_iff (t u : Thread) :
    (t.files.all (fun e => e.2.all (fun f => !(ownsPair u (normalizeDir e.1) f)))) = true ↔
    ∀ nd f, ownsPair t nd f = true → ownsPair u nd f = false := by
  simp only [List.all_eq_true, Bool.not_eq_true']
  constructor
  · intro h nd f hof
    obtain ⟨e, he, hnd, hf⟩ := (ownsPair_iff t nd f).mp hof
    subst hnd
    exact h e he f hf
  · intro h e he f hf
    exact h (normalizeDir e.1) f ((ownsPair_iff t _ f).mpr ⟨e, he, rfl, hf⟩)

theorem exclusiveThreads_iff_pairwise (l : List Thread) :
    exclusiveThreads l = true ↔
    l.Pairwise (fun t u => ∀ nd f, ownsPair t nd f = true → ownsPair u nd f = false) := by
  induction l with
  | nil => simp [exclusiveThreads]
  | cons t rest IH =>
    rw [show exclusiveThreads (t :: rest)
      = (rest.all (fun u => t.files.all (fun e => e.2.all
          (fun f => !(ownsPair u (normalizeDir e.1) f)))) && exclusiveThreads rest) from rfl]
    rw [Bool.and_eq_true, List.pairwise_cons, IH, List.all_eq_true]
    constructor
    · rintro ⟨h1, h2⟩
      exact ⟨fun u hu => (threadDisjoint_iff t u).mp (h1 u hu), h2⟩
    · rintro ⟨h1, h2⟩
      exact ⟨fun u hu => (threadDisjoint_iff t u).mpr (h1 u hu), h2⟩

theorem exclusive_idx (l : List Thread) (h : exclusiveThreads l = true)
    (j k : Nat) (hj : j < l.length) (hk : k < l.length) (hne : j ≠ k) (nd f : String)
    (how : ownsPair (l.getD j default) nd f = true) :
    ownsPair (l.getD k default) nd f = false := by
  have hp := (exclusiveThreads_iff_pairwise l).mp h
  rw [List.pairwise_iff_getElem] at hp
  rw [List.getD_eq_getElem l default hj] at how
  rw [List.getD_eq_getElem l default hk]
  rcases Nat.lt_or_ge j k with hlt | hge
  · exact hp j k hj hk hlt nd f how
  · have hlt : k < j := Nat.lt_of_le_of_ne hge (Ne.symm hne)
    by_cases hc : ownsPair l[k] nd f = true
    · have h2 := hp k j hk hj hlt nd f hc
      rw [how] at h2
      simp at h2
    · simpa using hc

theorem exclusive_of_idx (l : List Thread)
    (h : ∀ j k, j < l.length → k < l.length → j ≠ k → ∀ nd f,
      ownsPair (l.getD j default) nd f = true → ownsPair (l.getD k default) nd f = false) :
    exclusiveThreads l = true := by
  rw [exclusiveThreads_iff_pairwise, List.pairwise_iff_getElem]
  intro j k hj hk hlt nd f how
  have h2 := h j k hj hk (Nat.ne_of_lt hlt) nd f
  rw [List.getD_eq_getElem l default hj, List.getD_eq_getElem l default hk] at h2
  exact h2 how

/-! ## Lemma kit: disk reads and writes -/

theorem diskLookup_cons (a b : String) (dk : List (String × String)) (q : String) :
    diskLookup ((a, b) :: dk) q = if a = q then some b else diskLookup dk q := by
  unfold diskLookup
  by_cases h : a = q
  · rw [List.find?_cons_of_pos _ (by simpa using h), if_pos h]
    rfl
  · rw [List.find?_cons_of_neg _ (by simpa using h), if_neg h]

theorem diskLookup_map_write_self (p c : String) :
    ∀ dk : List (String × String), dk.any (·.1 = p) = true →
      diskLookup (dk.map (fun e => if e.1 = p then (e.1, c) else e)) p = some c
  | [], h => by simp at h
  | (a, b) :: dk, h => by
    by_cases hap : a = p
    · subst hap
      simp only [List.map_cons, if_pos rfl]
      rw [diskLookup_cons]
      simp
    · have h2 : dk.any (·.1 = p) = true := by
        simp only [List.any_cons] at h
        rcases Bool.or_eq_true_iff.mp h with h3 | h3
        · exact absurd (of_decide_eq_true h3) hap
        · exact h3
      simp only [List.map_cons, if_neg hap]
      rw [diskLookup_cons, if_neg hap]
      exact diskLookup_map_write_self p c dk h2

theorem diskLookup_append_write_self (p c : String) :
    ∀ dk : List (String × String), dk.any (·.1 = p) = false →
      diskLookup (dk ++ [(p, c)]) p = some c
  | [], _ => by rw [List.nil_append, diskLookup_cons, if_pos rfl]
  | (a, b) :: dk, h => by
    simp only [List.any_cons, Bool.or_eq_false_iff] at h
    obtain ⟨h1, h2⟩ := h
    have hap : a ≠ p := by simpa using h1
    rw [List.cons_append, diskLookup_cons, if_neg hap]
    exact diskLookup_append_write_self p c dk h2

theorem diskLookup_map_write_ne (p c q : String) (hqp : q ≠ p) :
    ∀ dk : List (String × String),
      diskLookup (dk.map (fun e => if e.1 = p then (e.1, c) else e)) q = diskLookup dk q
  | [] => rfl
  | (a, b) :: dk => by
    by_cases hap : a = p
    · subst hap
      simp only [List.map_cons, if_pos rfl]
      rw [diskLookup_cons, diskLookup_cons, if_neg (fun he => hqp he.symm),
        if_neg (fun he => hqp he.symm)]
      exact diskLookup_map_write_ne a c q hqp dk
    · simp only [List.map_cons, if_neg hap]
      rw [diskLookup_cons, diskLookup_cons]
      by_cases haq : a = q
      · rw [if_pos haq, if_pos haq]
      · rw [if_neg haq, if_neg haq]
        exact diskLookup_map_write_ne p c q hqp dk

theorem diskLookup_append_write_ne (p c q : String) (hqp : q ≠ p) :
    ∀ dk : List (String × String), diskLookup (dk ++ [(p, c)]) q = diskLookup dk q
  | [] => by
    rw [List.nil_append, diskLookup_cons, if_neg (fun he => hqp he.symm)]
  | (a, b) :: dk => by
    rw [List.cons_append, diskLookup_cons, diskLookup_cons]
    by_cases haq : a = q
    · rw [if_pos haq, if_pos haq]
    · rw [if_neg haq, if_neg haq]
      exact diskLookup_append_write_ne p c q hqp dk

theorem diskLookup_write_self (dk : List (String × String)) (p c : String) :
    diskLookup (diskWrite dk p c) p = some c := by
  unfold diskWrite
  by_cases h : dk.any (·.1 = p) = true
  · rw [if_pos h]
    exact diskLookup_map_write_self p c dk h
  · rw [if_neg h]
    exact diskLookup_append_write_self p c dk (Bool.not_eq_true _ ▸ Bool.of_not_eq_true h)

theorem diskLookup_write_ne (dk : List (String × String)) (p c q : String) (hqp : q ≠ p) :
    diskLookup (diskWrite dk p c) q = diskLookup dk q := by
  unfold diskWrite
  by_cases h : dk.any (·.1 = p) = true
  · rw [if_pos h]
    exact diskLookup_map_write_ne p c q hqp dk
  · rw [if_neg h]
    exact diskLookup_append_write_ne p c q hqp dk

theorem diskLookup_write_isSome_mono (dk : List (String × String)) (p c q : String)
    (h : (diskLookup dk q).isSome = true) : (diskLookup (diskWrite dk p c) q).isSome = true := by
  by_cases hqp : q = p
  · subst hqp
    rw [diskLookup_write_self]
    rfl
  · rw [diskLookup_write_ne dk p c q hqp]
    exact h

/-! ## Lemma kit: `IsFileOwned` under well-formedness and exclusivity -/

theorem wfConfig_nodup_names (lc : LoomConfig) (h : wfConfig lc = true) :
    (lc.threads.map (·.name)).Nodup := by
  unfold wfConfig at h
  simp only [Bool.and_eq_true] at h
  exact of_decide_eq_true h.1

theorem wfConfig_files (lc : LoomConfig) (h : wfConfig lc = true) :
    ∀ t ∈ lc.threads, wfFilesMap t.files = true := by
  unfold wfConfig at h
  simp only [Bool.and_eq_true, List.all_eq_true] at h
  exact h.2

theorem threadMatchesPath_iff (t : Thread) (p : String) :
    threadMatchesPath t p = true ↔ ∃ e ∈ t.files, ∃ g ∈ e.2, reconstructOwnedPath e.1 g = p := by
  unfold threadMatchesPath
  simp [List.any_eq_true]

theorem threadMatches_of_ownsPair (t : Thread) (d f : String)
    (hwf : wfFilesMap t.files = true) (_hd : wfDirKey d = true) (hf : isSimpleName f = true)
    (ho : ownsPair t d f = true) : threadMatchesPath t (pathOf d f) = true := by
  obtain ⟨e, he, hnd, hfm⟩ := (ownsPair_iff t d f).mp ho
  have hkey : wfDirKey e.1 = true := (wfFilesMap_entries t.files hwf e he).1
  have he1 : e.1 = d := by rw [← hnd, normalizeDir_wfDirKey e.1 hkey]
  refine (threadMatchesPath_iff t _).mpr ⟨e, he, f, hfm, ?hr⟩
  rw [reconstruct_pathOf e.1 f hkey hf, he1]

theorem ownsPair_of_threadMatches (t : Thread) (d f : String)
    (hwf : wfFilesMap t.files = true) (hd : wfDirKey d = true) (hf : isSimpleName f = true)
    (hm : threadMatchesPath t (pathOf d f) = true) : ownsPair t d f = true := by
  obtain ⟨e, he, g, hg, hr⟩ := (threadMatchesPath_iff t _).mp hm
  obtain ⟨hkey, hsimple⟩ := wfFilesMap_entries t.files hwf e he
  rw [reconstruct_pathOf e.1 g hkey (hsimple g hg)] at hr
  obtain ⟨hde, hgf⟩ := pathOf_inj e.1 d g f hkey hd (hsimple g hg) hf hr
  exact (ownsPair_iff t d f).mpr ⟨e, he, by rw [normalizeDir_wfDirKey e.1 hkey, hde], hgf ▸ hg⟩

theorem isFileOwned_none_iff (lc : LoomConfig) (p : String) :
    IsFileOwned lc p = none ↔ ∀ t ∈ lc.threads, threadMatchesPath t p = false := by
  unfold IsFileOwned
  rw [Option.map_eq_none']
  rw [List.find?_eq_none]
  constructor
  · intro h t ht
    have h2 := h t ht
    simpa using h2
  · intro h t ht
    simp [h t ht]

theorem isFileOwned_some_exists (lc : LoomConfig) (p B : String)
    (h : IsFileOwned lc p = some B) :
    ∃ t ∈ lc.threads, t.name = B ∧ threadMatchesPath t p = true := by
  unfold IsFileOwned at h
  rw [Option.map_eq_some'] at h
  obtain ⟨t, ht, hname⟩ := h
  refine ⟨t, List.mem_of_find?_eq_some ht, hname, ?hm⟩
  have h3 := @List.find?_some Thread (fun u => threadMatchesPath u p) t lc.threads ht
  simpa using h3

theorem ownsPair_false_of_isFileOwned_none (lc : LoomConfig) (d f : String)
    (hwf : wfConfig lc = true) (hd : wfDirKey d = true) (hf : isSimpleName f = true)
    (hnone : IsFileOwned lc (pathOf d f) = none) (j : Nat) (hj : j < lc.threads.length) :
    ownsPair (lc.threads.getD j default) d f = false := by
  by_cases hc : ownsPair (lc.threads.getD j default) d f = true
  · have hmem : lc.threads.getD j default ∈ lc.threads := by
      rw [List.getD_eq_getElem lc.threads default hj]
      exact List.getElem_mem hj
    have hm := threadMatches_of_ownsPair _ d f (wfConfig_files lc hwf _ hmem) hd hf hc
    have h2 := (isFileOwned_none_iff lc (pathOf d f)).mp hnone _ hmem
    rw [hm] at h2
    simp at h2
  · simpa using hc

theorem ownsPair_name_of_isFileOwned_some (lc : LoomConfig) (d f B : String)
    (hwf : wfConfig lc = true) (hex : exclusive lc = true)
    (hd : wfDirKey d = true) (hf : isSimpleName f = true)
    (hfo : IsFileOwned lc (pathOf d f) = some B) (j : Nat) (hj : j < lc.threads.length)
    (how : ownsPair (lc.threads.getD j default) d f = true) :
    (lc.threads.getD j default).name = B := by
  obtain ⟨t0, ht0, hname, hmatch⟩ := isFileOwned_some_exists lc _ B hfo
  obtain ⟨k, hk, hkt⟩ := List.mem_iff_getElem.mp ht0
  have ht0own : ownsPair t0 d f = true :=
    ownsPair_of_threadMatches t0 d f (wfConfig_files lc hwf t0 ht0) hd hf hmatch
  by_cases hjk : j = k
  · subst hjk
    rw [List.getD_eq_getElem lc.threads default hj, hkt]
    exact hname
  · have hfalse := exclusive_idx lc.threads hex j k hj hk hjk d f how
    rw [List.getD_eq_getElem lc.threads default hk, hkt] at hfalse
    rw [ht0own] at hfalse
    simp at hfalse

theorem find?_set_of_pred_false {α : Type} [Inhabited α] (p : α → Bool) :
    ∀ (l : List α) (i : Nat) (a : α),
      (i < l.length → p (l.getD i default) = false) → p a = false →
      (l.set i a).find? p = l.find? p
  | [], _, _, _, _ => rfl
  | x :: xs, 0, a, hl, ha => by
    have hx : p x = false := by
      have h2 := hl (by simp)
      simpa using h2
    rw [List.set_cons_zero, List.find?_cons_of_neg _ (by simp [ha]),
      List.find?_cons_of_neg _ (by simp [hx])]
  | x :: xs, i + 1, a, hl, ha => by
    rw [List.set_cons_succ]
    by_cases hx : p x = true
    · rw [List.find?_cons_of_pos _ hx, List.find?_cons_of_pos _ hx]
    · rw [List.find?_cons_of_neg _ hx, List.find?_cons_of_neg _ hx]
      exact find?_set_of_pred_false p xs i a
        (fun hi => by
          have h2 := hl (by simpa using Nat.succ_lt_succ hi)
          simpa using h2) ha

/-! ## Lemma kit: multimaps and collected candidate sets -/

theorem pairMem_addToMultimap (m : List (String × List String)) (k : String) (vs : List String)
    (d f : String) :
    pairMem (addToMultimap m k vs) d f = true ↔ pairMem m d f = true ∨ (d = k ∧ f ∈ vs) := by
  unfold addToMultimap
  by_cases hk : m.any (·.1 = k) = true
  · rw [if_pos hk]
    rw [pairMem_iff, pairMem_iff]
    constructor
    · rintro ⟨e', he', hd, hf⟩
      obtain ⟨e, he, hge⟩ := List.mem_map.mp he'
      by_cases hek : e.1 = k
      · rw [if_pos hek] at hge
        subst hge
        simp only at hd hf
        rcases List.mem_append.mp hf with hf1 | hf1
        · exact Or.inl ⟨e, he, hd, hf1⟩
        · exact Or.inr ⟨by rw [← hd, hek], hf1⟩
      · rw [if_neg hek] at hge
        subst hge
        exact Or.inl ⟨e, he, hd, hf⟩
    · rintro (⟨e, he, hd, hf⟩ | ⟨hdk, hfv⟩)
      · by_cases hek : e.1 = k
        · refine ⟨(e.1, e.2 ++ vs), List.mem_map.mpr ⟨e, he, by rw [if_pos hek]⟩, hd, ?hm1⟩
          exact List.mem_append_left _ hf
        · exact ⟨e, List.mem_map.mpr ⟨e, he, by rw [if_neg hek]⟩, hd, hf⟩
      · obtain ⟨e, he, hek⟩ := List.any_eq_true.mp hk
        have hek2 : e.1 = k := of_decide_eq_true hek
        refine ⟨(e.1, e.2 ++ vs), List.mem_map.mpr ⟨e, he, by rw [if_pos hek2]⟩, by rw [hek2, hdk], ?hm2⟩
        exact List.mem_append_right _ hfv
  · rw [if_neg hk]
    rw [pairMem_iff, pairMem_iff]
    constructor
    · rintro ⟨e, he, hd, hf⟩
      rcases List.mem_append.mp he with he1 | he1
      · exact Or.inl ⟨e, he1, hd, hf⟩
      · rcases List.mem_singleton.mp he1 with rfl
        exact Or.inr ⟨hd.symm ▸ rfl, hf⟩
    · rintro (⟨e, he, hd, hf⟩ | ⟨hdk, hfv⟩)
      · exact ⟨e, List.mem_append_left _ he, hd, hf⟩
      · exact ⟨(k, vs), List.mem_append_right _ (List.mem_singleton.mpr rfl), hdk.symm, hfv⟩

theorem wfFilesMap_addToMultimap (m : List (String × List String)) (k : String) (vs : List String)
    (hm : wfFilesMap m = true) (hk : wfDirKey k = true)
    (hvs : ∀ v ∈ vs, isSimpleName v = true) : wfFilesMap (addToMultimap m k vs) = true := by
  have hent := wfFilesMap_entries m hm
  have hnd := wfFilesMap_nodup m hm
  unfold addToMultimap
  by_cases hany : m.any (·.1 = k) = true
  · rw [if_pos hany]
    unfold wfFilesMap
    rw [Bool.and_eq_true]
    constructor
    · rw [List.all_eq_true]
      intro e' he'
      obtain ⟨e, he, hge⟩ := List.mem_map.mp he'
      obtain ⟨hew, hes⟩ := hent e he
      by_cases hek : e.1 = k
      · rw [if_pos hek] at hge
        subst hge
        rw [Bool.and_eq_true]
        refine ⟨hew, List.all_eq_true.mpr ?hv⟩
        intro g hg
        rcases List.mem_append.mp hg with hg1 | hg1
        · exact hes g hg1
        · exact hvs g hg1
      · rw [if_neg hek] at hge
        subst hge
        rw [Bool.and_eq_true]
        exact ⟨hew, List.all_eq_true.mpr hes⟩
    · have hkeys : (m.map (fun e => if e.1 = k then (e.1, e.2 ++ vs) else e)).map (·.1)
          = m.map (·.1) := by
        rw [List.map_map]
        apply List.map_congr_left
        intro e _
        by_cases hek : e.1 = k
        · simp [hek]
        · simp [hek]
      rw [hkeys]
      exact decide_eq_true hnd
  · rw [if_neg hany]
    unfold wfFilesMap
    rw [Bool.and_eq_true]
    constructor
    · rw [List.all_eq_true]
      intro e he
      rcases List.mem_append.mp he with he1 | he1
      · obtain ⟨hew, hes⟩ := hent e he1
        rw [Bool.and_eq_true]
        exact ⟨hew, List.all_eq_true.mpr hes⟩
      · rcases List.mem_singleton.mp he1 with rfl
        rw [Bool.and_eq_true]
        exact ⟨hk, List.all_eq_true.mpr hvs⟩
    · rw [List.map_append]
      apply decide_eq_true
      rw [List.nodup_append]
      refine ⟨hnd, by simp, ?hdisj⟩
      intro x hx hx2
      simp only [List.map_cons, List.map_nil, List.mem_singleton] at hx2
      obtain ⟨e, he, hek⟩ := List.mem_map.mp hx
      have h2 : m.any (·.1 = k) = true :=
        List.any_eq_true.mpr ⟨e, he, decide_eq_true (by rw [hek, hx2])⟩
      exact absurd h2 hany

theorem mem_flattenPairs (m : List (String × List String)) (d f : String) :
    (d, f) ∈ flattenPairs m ↔ pairMem m d f = true := by
  unfold flattenPairs
  rw [pairMem_iff, List.mem_flatMap]
  constructor
  · rintro ⟨e, he, hm⟩
    obtain ⟨g, hg, hge⟩ := List.mem_map.mp hm
    obtain ⟨h1, h2⟩ := Prod.mk.injEq _ _ _ _ ▸ hge
    exact ⟨e, he, by simp_all, by simp_all⟩
  · rintro ⟨e, he, hd, hf⟩
    exact ⟨e, he, List.mem_map.mpr ⟨f, hf, by rw [hd]⟩⟩

theorem flattenPairs_wf (m : List (String × List String)) (hm : wfFilesMap m = true)
    (d f : String) (h : (d, f) ∈ flattenPairs m) :
    wfDirKey d = true ∧ isSimpleName f = true := by
  obtain ⟨e, he, hd, hf⟩ := (pairMem_iff m d f).mp ((mem_flattenPairs m d f).mp h)
  obtain ⟨hew, hes⟩ := wfFilesMap_entries m hm e he
  exact ⟨hd ▸ hew, hes f hf⟩

theorem pairMem_foldl_add {α : Type} (K : α → String) (V : α → List String) :
    ∀ (xs : List α) (m0 : List (String × List String)) (d f : String),
      pairMem (xs.foldl (fun m x => addToMultimap m (K x) (V x)) m0) d f = true ↔
      pairMem m0 d f = true ∨ ∃ x ∈ xs, K x = d ∧ f ∈ V x
  | [], m0, d, f => by simp
  | x :: xs, m0, d, f => by
    rw [List.foldl_cons, pairMem_foldl_add K V xs _ d f, pairMem_addToMultimap]
    constructor
    · rintro ((h1 | ⟨h1, h2⟩) | ⟨y, hy, h1, h2⟩)
      · exact Or.inl h1
      · exact Or.inr ⟨x, by simp, h1.symm, h2⟩
      · exact Or.inr ⟨y, List.mem_cons_of_mem x hy, h1, h2⟩
    · rintro (h1 | ⟨y, hy, h1, h2⟩)
      · exact Or.inl (Or.inl h1)
      · rcases List.mem_cons.mp hy with rfl | hy2
        · exact Or.inl (Or.inr ⟨h1.symm, h2⟩)
        · exact Or.inr ⟨y, hy2, h1, h2⟩

theorem wfFilesMap_foldl_add {α : Type} (K : α → String) (V : α → List String) :
    ∀ (xs : List α) (m0 : List (String × List String)),
      wfFilesMap m0 = true →
      (∀ x ∈ xs, wfDirKey (K x) = true ∧ ∀ v ∈ V x, isSimpleName v = true) →
      wfFilesMap (xs.foldl (fun m x => addToMultimap m (K x) (V x)) m0) = true
  | [], m0, h0, _ => h0
  | x :: xs, m0, h0, hx => by
    rw [List.foldl_cons]
    exact wfFilesMap_foldl_add K V xs _
      (wfFilesMap_addToMultimap m0 (K x) (V x) h0 (hx x (by simp)).1 (hx x (by simp)).2)
      (fun y hy => hx y (List.mem_cons_of_mem x hy))

/-! ## Lemma kit: candidate collection -/

theorem collect_targeted_eq (thread : Thread) (src : SourceTree) (target : String)
    (h1 : target ≠ "") (h2 : target = thread.name) :
    collectFilesToProcessForWeaving thread src target
      = thread.files.foldl (fun m e => addToMultimap m (normalizeDir e.1) e.2) [] := by
  unfold collectFilesToProcessForWeaving
  rw [if_pos ⟨h1, h2⟩]

theorem collect_targeted_mem (thread : Thread) (src : SourceTree) (target : String)
    (h1 : target ≠ "") (h2 : target = thread.name) (d f : String) :
    pairMem (collectFilesToProcessForWeaving thread src target) d f = true ↔
      ∃ e ∈ thread.files, normalizeDir e.1 = d ∧ f ∈ e.2 := by
  rw [collect_targeted_eq thread src target h1 h2]
  have h3 := pairMem_foldl_add (fun e : String × List String => normalizeDir e.1) (·.2)
    thread.files [] d f
  rw [h3]
  simp [pairMem]

theorem collect_targeted_wf (thread : Thread) (src : SourceTree) (target : String)
    (h1 : target ≠ "") (h2 : target = thread.name) (hwf : wfFilesMap thread.files = true) :
    wfFilesMap (collectFilesToProcessForWeaving thread src target) = true := by
  rw [collect_targeted_eq thread src target h1 h2]
  apply wfFilesMap_foldl_add (fun e : String × List String => normalizeDir e.1) (·.2)
  · rfl
  · intro e he
    obtain ⟨hew, hes⟩ := wfFilesMap_entries thread.files hwf e he
    rw [normalizeDir_wfDirKey e.1 hew]
    exact ⟨hew, hes⟩

theorem walkFold_eq_filtered (xs : List (String × SrcEntry)) (m0 : List (String × List String)) :
    xs.foldl weaveWalkStep m0
      = (xs.filter (fun e => isSrcFile (some e.2))).foldl
          (fun m e => addToMultimap m (normalizeDir (splitFileString e.1).1)
            [(splitFileString e.1).2]) m0 := by
  induction xs generalizing m0 with
  | nil => rfl
  | cons e xs IH =>
    cases he : e.2 with
    | dir =>
      rw [List.foldl_cons]
      rw [show weaveWalkStep m0 e = m0 from by unfold weaveWalkStep; rw [he]]
      rw [List.filter_cons_of_neg (by simp [isSrcFile, he])]
      exact IH m0
    | file c =>
      rw [List.foldl_cons]
      rw [show weaveWalkStep m0 e
        = addToMultimap m0 (normalizeDir (splitFileString e.1).1) [(splitFileString e.1).2]
        from by unfold weaveWalkStep; rw [he]]
      rw [List.filter_cons_of_pos (by simp [isSrcFile, he]), List.foldl_cons]
      exact IH _

theorem collect_walk_wf (thread : Thread) (src : SourceTree)
    (hsrc : wfSourceTree src = true) :
    wfFilesMap (collectFilesToProcessForWeaving thread src "") = true := by
  unfold collectFilesToProcessForWeaving
  rw [if_neg (by simp), if_pos rfl]
  rw [walkFold_eq_filtered]
  apply wfFilesMap_foldl_add
    (fun e : String × SrcEntry => normalizeDir (splitFileString e.1).1)
    (fun e : String × SrcEntry => [(splitFileString e.1).2])
  · rfl
  · intro e he
    have hclean : isCleanRel e.1 = true := by
      have h2 : e ∈ src.entries := List.mem_of_mem_filter he
      exact List.all_eq_true.mp hsrc e h2
    obtain ⟨hwf, hsimple, _⟩ := splitFileString_clean e.1 hclean
    refine ⟨hwf, ?hv⟩
    intro v hv
    rcases List.mem_singleton.mp hv with rfl
    exact hsimple

theorem collect_wf (thread : Thread) (src : SourceTree) (target : String)
    (hsrc : wfSourceTree src = true) (hwf : wfFilesMap thread.files = true) :
    wfFilesMap (collectFilesToProcessForWeaving thread src target) = true := by
  by_cases h1 : target = ""
  · subst h1
    exact collect_walk_wf thread src hsrc
  · by_cases h2 : target = thread.name
    · exact collect_targeted_wf thread src target h1 h2 hwf
    · unfold collectFilesToProcessForWeaving
      rw [if_neg (by simp [h2]), if_neg h1]
      rfl

/-! ## Lemma kit: manifest removal helpers -/

theorem removeFileFromFilesMap_cons (e : String × List String)
    (files : List (String × List String)) (k g : String) :
    removeFileFromFilesMap (e :: files) k g =
      (if e.1 = k ∧ e.2.contains g then
        (if (e.2.filter (· ≠ g)).isEmpty then removeFileFromFilesMap files k g
         else (e.1, e.2.filter (· ≠ g)) :: removeFileFromFilesMap files k g)
       else e :: removeFileFromFilesMap files k g) := rfl

theorem mem_removeFileFromFilesMap (k g : String) :
    ∀ (files : List (String × List String)) (e2 : String × List String),
      e2 ∈ removeFileFromFilesMap files k g →
      ∃ e ∈ files, e2.1 = e.1 ∧ ∀ x ∈ e2.2, x ∈ e.2
  | [], e2, h => by simp [removeFileFromFilesMap] at h
  | e :: files, e2, h => by
    rw [removeFileFromFilesMap_cons] at h
    by_cases hc : e.1 = k ∧ e.2.contains g
    · rw [if_pos hc] at h
      by_cases hemp : (e.2.filter (· ≠ g)).isEmpty = true
      · rw [if_pos hemp] at h
        obtain ⟨e3, he3, h1, h2⟩ := mem_removeFileFromFilesMap k g files e2 h
        exact ⟨e3, List.mem_cons_of_mem e he3, h1, h2⟩
      · rw [if_neg hemp] at h
        rcases List.mem_cons.mp h with rfl | h2
        · refine ⟨e, by simp, rfl, ?hsub⟩
          intro x hx
          exact List.mem_of_mem_filter hx
        · obtain ⟨e3, he3, h1, h2⟩ := mem_removeFileFromFilesMap k g files e2 h2
          exact ⟨e3, List.mem_cons_of_mem e he3, h1, h2⟩
    · rw [if_neg hc] at h
      rcases List.mem_cons.mp h with rfl | h2
      · exact ⟨e2, by simp, rfl, fun x hx => hx⟩
      · obtain ⟨e3, he3, h1, h2⟩ := mem_removeFileFromFilesMap k g files e2 h2
        exact ⟨e3, List.mem_cons_of_mem e he3, h1, h2⟩

theorem keys_removeFileFromFilesMap (k g : String) :
    ∀ files : List (String × List String),
      List.Sublist ((removeFileFromFilesMap files k g).map (·.1)) (files.map (·.1))
  | [] => by simp [removeFileFromFilesMap]
  | e :: files => by
    rw [removeFileFromFilesMap_cons]
    by_cases hc : e.1 = k ∧ e.2.contains g
    · rw [if_pos hc]
      by_cases hemp : (e.2.filter (· ≠ g)).isEmpty = true
      · rw [if_pos hemp]
        exact List.Sublist.cons _ (keys_removeFileFromFilesMap k g files)
      · rw [if_neg hemp, List.map_cons, List.map_cons]
        exact List.Sublist.cons₂ _ (keys_removeFileFromFilesMap k g files)
    · rw [if_neg hc, List.map_cons, List.map_cons]
      exact List.Sublist.cons₂ _ (keys_removeFileFromFilesMap k g files)

theorem ownsPairF_remove_shrink (files : List (String × List String)) (k g nd f : String)
    (h : ownsPairF (removeFileFromFilesMap files k g) nd f = true) :
    ownsPairF files nd f = true := by
  obtain ⟨e2, he2, hnd, hf⟩ := (ownsPairF_iff _ nd f).mp h
  obtain ⟨e, he, h1, h2⟩ := mem_removeFileFromFilesMap k g files e2 he2
  exact (ownsPairF_iff files nd f).mpr ⟨e, he, by rw [← h1, hnd], h2 f hf⟩

theorem ownsPairF_cons (e : String × List String) (rest : List (String × List String))
    (nd f : String) :
    ownsPairF (e :: rest) nd f
      = ((decide (normalizeDir e.1 = nd) && e.2.contains f) || ownsPairF rest nd f) := by
  unfold ownsPairF
  rw [List.any_cons]

theorem ownsPairF_remove_kill (k g : String) :
    ∀ files : List (String × List String), (∀ e ∈ files, normalizeDir e.1 = e.1) →
      ownsPairF (removeFileFromFilesMap files k g) k g = false
  | [], _ => rfl
  | e :: files, h => by
    have hnorm : normalizeDir e.1 = e.1 := h e (by simp)
    have IH := ownsPairF_remove_kill k g files (fun u hu => h u (List.mem_cons_of_mem e hu))
    rw [removeFileFromFilesMap_cons]
    by_cases hc : e.1 = k ∧ e.2.contains g
    · rw [if_pos hc]
      by_cases hemp : (e.2.filter (· ≠ g)).isEmpty = true
      · rw [if_pos hemp]
        exact IH
      · rw [if_neg hemp, ownsPairF_cons]
        have hgf : (e.2.filter (· ≠ g)).contains g = false := by
          rw [Bool.eq_false_iff]
          intro h2
          have h3 : g ∈ e.2.filter (· ≠ g) := by
            rw [List.contains_iff_exists_mem_beq] at h2
            obtain ⟨a, ha, hab⟩ := h2
            rw [show a = g from (show g = a from by simpa using hab).symm] at ha
            exact ha
          have h4 := List.of_mem_filter h3
          simp at h4
        simp only [hgf, Bool.and_false, Bool.false_or]
        exact IH
    · rw [if_neg hc, ownsPairF_cons, hnorm]
      by_cases hek : e.1 = k
      · have hcg : e.2.contains g = false := by
          rw [Bool.eq_false_iff]
          intro h2
          exact hc ⟨hek, h2⟩
        simp only [hcg, Bool.and_false, Bool.false_or]
        exact IH
      · simp only [decide_eq_false hek, Bool.false_and, Bool.false_or]
        exact IH

theorem wfFilesMap_remove (files : List (String × List String)) (k g : String)
    (hwf : wfFilesMap files = true) :
    wfFilesMap (removeFileFromFilesMap files k g) = true := by
  unfold wfFilesMap
  rw [Bool.and_eq_true]
  constructor
  · rw [List.all_eq_true]
    intro e2 he2
    obtain ⟨e, he, h1, h2⟩ := mem_removeFileFromFilesMap k g files e2 he2
    obtain ⟨hew, hes⟩ := wfFilesMap_entries files hwf e he
    rw [Bool.and_eq_true]
    refine ⟨h1 ▸ hew, List.all_eq_true.mpr ?hv⟩
    intro v hv
    exact hes v (h2 v hv)
  · apply decide_eq_true
    exact List.Nodup.sublist (keys_removeFileFromFilesMap k g files) (wfFilesMap_nodup files hwf)

/-! ## Lemma kit: first-named-thread update -/

theorem updateFirstNamed_names (n : String) (u : Thread → Thread)
    (hu : ∀ t, (u t).name = t.name) :
    ∀ l : List Thread, (updateFirstNamed n u l).map (·.name) = l.map (·.name)
  | [] => rfl
  | t :: rest => by
    unfold updateFirstNamed
    by_cases hn : t.name = n
    · rw [if_pos hn, List.map_cons, List.map_cons, hu t]
    · rw [if_neg hn, List.map_cons, List.map_cons, updateFirstNamed_names n u hu rest]

theorem updateFirstNamed_length (n : String) (u : Thread → Thread) (l : List Thread) :
    (updateFirstNamed n u l).length = l.length := by
  induction l with
  | nil => rfl
  | cons t rest IH =>
    unfold updateFirstNamed
    by_cases hn : t.name = n
    · rw [if_pos hn]
      simp
    · rw [if_neg hn]
      simpa using IH

theorem updateFirstNamed_getD (n : String) (u : Thread → Thread) :
    ∀ (l : List Thread) (j : Nat),
      (updateFirstNamed n u l).getD j default = l.getD j default ∨
      ((updateFirstNamed n u l).getD j default = u (l.getD j default) ∧
        (l.getD j default).name = n)
  | [], j => by simp [updateFirstNamed]
  | t :: rest, 0 => by
    unfold updateFirstNamed
    by_cases hn : t.name = n
    · rw [if_pos hn]
      exact Or.inr ⟨rfl, hn⟩
    · rw [if_neg hn]
      exact Or.inl rfl
  | t :: rest, j + 1 => by
    unfold updateFirstNamed
    by_cases hn : t.name = n
    · rw [if_pos hn]
      exact Or.inl rfl
    · rw [if_neg hn]
      exact updateFirstNamed_getD n u rest j

theorem updateFirstNamed_getD_ne (n : String) (u : Thread → Thread) :
    ∀ (l : List Thread) (j : Nat), (l.getD j default).name ≠ n →
      (updateFirstNamed n u l).getD j default = l.getD j default
  | [], j, _ => by simp [updateFirstNamed]
  | t :: rest, 0, h => by
    unfold updateFirstNamed
    rw [if_neg (by simpa using h)]
    rfl
  | t :: rest, j + 1, h => by
    unfold updateFirstNamed
    by_cases hn : t.name = n
    · rw [if_pos hn]
      rfl
    · rw [if_neg hn]
      exact updateFirstNamed_getD_ne n u rest j h

theorem updateFirstNamed_getD_hit (n : String) (u : Thread → Thread) :
    ∀ (l : List Thread) (k : Nat), (l.map (·.name)).Nodup → k < l.length →
      (l.getD k default).name = n →
      (updateFirstNamed n u l).getD k default = u (l.getD k default)
  | [], k, _, hk, _ => by simp at hk
  | t :: rest, 0, _, _, hname => by
    unfold updateFirstNamed
    rw [if_pos (by simpa using hname)]
    rfl
  | t :: rest, k + 1, hnd, hk, hname => by
    unfold updateFirstNamed
    by_cases hn : t.name = n
    · exfalso
      have hmem : (rest.getD k default).name ∈ rest.map (·.name) := by
        rw [List.getD_eq_getElem rest default (by simpa using hk)]
        exact List.mem_map.mpr ⟨_, List.getElem_mem _, rfl⟩
      have hname2 : (rest.getD k default).name = n := by
        have h3 : (t :: rest).getD (k + 1) default = rest.getD k default := rfl
        rw [← h3]
        exact hname
      rw [List.map_cons, List.nodup_cons] at hnd
      exact hnd.1 ((hname2.trans hn.symm) ▸ hmem)
    · rw [if_neg hn]
      exact updateFirstNamed_getD_hit n u rest k
        (by rw [List.map_cons, List.nodup_cons] at hnd; exact hnd.2)
        (by simpa using hk) hname

/-! ## Claim C10: trailing-slash insensitivity of `IsFileOwned` -/

theorem endsWithSlash_append_slash (s : String) : endsWithSlash (s ++ "/") = true := by
  unfold endsWithSlash
  rw [String.data_append]
  apply decide_eq_true
  rw [show ("/" : String).data = ['/'] from rfl]
  exact List.getLast?_concat _

theorem reconstruct_addSlashKey (d f : String) :
    reconstructOwnedPath (addSlashKey d) f = reconstructOwnedPath d f := by
  unfold addSlashKey
  by_cases h : endsWithSlash d = true
  · rw [if_pos h]
  · rw [if_neg h]
    have hroot : d ≠ "./" := by
      intro he
      subst he
      exact absurd (by decide) h
    have h1 : isOwnedNormDir d = d ++ "/" := by
      unfold isOwnedNormDir
      rw [if_pos ⟨hroot, by simp [h]⟩]
    have h2 : isOwnedNormDir (d ++ "/") = d ++ "/" := by
      unfold isOwnedNormDir
      rw [if_neg (by simp [endsWithSlash_append_slash d])]
    unfold reconstructOwnedPath
    rw [h1, h2]

theorem threadMatchesPath_slash (t : Thread) (p : String) :
    threadMatchesPath { t with files := t.files.map (fun e => (addSlashKey e.1, e.2)) } p
      = threadMatchesPath t p := by
  unfold threadMatchesPath
  rw [Bool.eq_iff_iff]
  simp only [List.any_eq_true]
  constructor
  · rintro ⟨e', he', g, hg, hr⟩
    obtain ⟨e, he, hge⟩ := List.mem_map.mp he'
    subst hge
    simp only at hg hr
    rw [reconstruct_addSlashKey e.1 g] at hr
    exact ⟨e, he, g, hg, hr⟩
  · rintro ⟨e, he, g, hg, hr⟩
    refine ⟨(addSlashKey e.1, e.2), List.mem_map.mpr ⟨e, he, rfl⟩, g, hg, ?hr2⟩
    rw [reconstruct_addSlashKey e.1 g]
    exact hr

theorem find?_name_slash (p : String) :
    ∀ l : List Thread,
      ((l.map (fun t => { t with files := t.files.map (fun e => (addSlashKey e.1, e.2)) })).find?
        (fun t => threadMatchesPath t p)).map (·.name)
      = (l.find? (fun t => threadMatchesPath t p)).map (·.name)
  | [] => rfl
  | t :: rest => by
    rw [List.map_cons]
    by_cases hm : threadMatchesPath t p = true
    · have h1 : List.find? (fun u => threadMatchesPath u p)
          ({ t with files := t.files.map (fun e => (addSlashKey e.1, e.2)) }
            :: rest.map (fun u => { u with files := u.files.map (fun e => (addSlashKey e.1, e.2)) }))
          = some { t with files := t.files.map (fun e => (addSlashKey e.1, e.2)) } :=
        List.find?_cons_of_pos _ (by rw [threadMatchesPath_slash]; exact hm)
      have h2 : List.find? (fun u => threadMatchesPath u p) (t :: rest) = some t :=
        List.find?_cons_of_pos _ hm
      rw [h1, h2]
      rfl
    · have h1 : List.find? (fun u => threadMatchesPath u p)
          ({ t with files := t.files.map (fun e => (addSlashKey e.1, e.2)) }
            :: rest.map (fun u => { u with files := u.files.map (fun e => (addSlashKey e.1, e.2)) }))
          = List.find? (fun u => threadMatchesPath u p)
              (rest.map (fun u => { u with files := u.files.map (fun e => (addSlashKey e.1, e.2)) })) :=
        List.find?_cons_of_neg _ (by rw [threadMatchesPath_slash]; simpa using hm)
      have h2 : List.find? (fun u => threadMatchesPath u p) (t :: rest)
          = List.find? (fun u => threadMatchesPath u p) rest :=
        List.find?_cons_of_neg _ (by simpa using hm)
      rw [h1, h2]
      exact find?_name_slash p rest

/-- C10: `IsFileOwned` returns the same `(owner, owned)` result whether a
thread's `Files` map stores a directory key with or without a trailing
slash — every key other than `"./"` is normalized by appending a trailing
slash before the reconstructed path is compared against the queried path, so
re-spelling every key with a trailing slash leaves every ownership query
unchanged. -/
theorem c10_isFileOwned_slash_insensitive (lc : LoomConfig) (relPath : String) :
    IsFileOwned (slashConfig lc) relPath = IsFileOwned lc relPath := by
  unfold IsFileOwned slashConfig
  exact find?_name_slash relPath lc.threads

/-! ## Claim C9: a missing source directory skips the thread, never fails -/

theorem processWeavingForThread_none (st : EngineState) (i : Nat) (tgt : String) :
    processWeavingForThread none st i tgt = .ok st := by
  show (if tgt ≠ "" ∧ (st.config.threads.getD i default).name ≠ tgt
    then Except.ok st else Except.ok st) = Except.ok st
  exact ite_self _

theorem weaveGo_none (target : String) :
    ∀ (idxs : List Nat) (found : Bool) (st : EngineState),
      ∃ fd, weaveGo (fun _ => none) target idxs found st = .ok (st, fd) ∧
        (fd = true ↔ found = true ∨
          (target ≠ "" ∧ ∃ i ∈ idxs, (st.config.threads.getD i default).name = target))
  | [], found, st => ⟨found, rfl, by simp⟩
  | i :: rest, found, st => by
    obtain ⟨fd, hrun, hiff⟩ := weaveGo_none target rest
      (found || (decide (target ≠ "") && decide ((st.config.threads.getD i default).name = target))) st
    by_cases hc : target ≠ "" ∧ (st.config.threads.getD i default).name = target
    · refine ⟨found || (decide (target ≠ "") && decide ((st.config.threads.getD i default).name = target)),
        ?hr1, ?hi1⟩
      case hr1 =>
        unfold weaveGo
        rw [processWeavingForThread_none st i target]
        simp only
        rw [if_pos hc]
      case hi1 =>
        simp only [Bool.or_eq_true, Bool.and_eq_true, decide_eq_true_eq]
        constructor
        · intro _
          exact Or.inr ⟨hc.1, i, by simp, hc.2⟩
        · intro _
          exact Or.inr ⟨hc.1, hc.2⟩
    · refine ⟨fd, ?hr2, ?hi2⟩
      case hr2 =>
        unfold weaveGo
        rw [processWeavingForThread_none st i target]
        simp only
        rw [if_neg hc]
        exact hrun
      case hi2 =>
        rw [hiff]
        simp only [Bool.or_eq_true, Bool.and_eq_true, decide_eq_true_eq, List.mem_cons]
        constructor
        · rintro ((h1 | h1) | ⟨h1, j, hj, h2⟩)
          · exact Or.inl h1
          · exact absurd h1 hc
          · exact Or.inr ⟨h1, j, Or.inr hj, h2⟩
        · rintro (h1 | ⟨h1, j, (rfl | hj), h2⟩)
          · exact Or.inl (Or.inl h1)
          · exact absurd ⟨h1, h2⟩ hc
          · exact Or.inr ⟨h1, j, hj, h2⟩

/-- C9: if a thread's resolved source directory does not exist, weaving does
not fail: the thread is skipped with its manifest entry unchanged
(`processWeavingForThread` returns the state untouched), and a whole `Weave`
run over it still succeeds — shown for a run in which every thread's source
directory is missing, which leaves the state unchanged and returns success
whenever the weave is untargeted or targets an existing thread name. -/
theorem c9_missing_source_skipped (st st2 : EngineState) (i : Nat) (tgt target : String)
    (h : target = "" ∨ st.config.threads.any (·.name = target) = true) :
    processWeavingForThread none st2 i tgt = .ok st2 ∧
    Weave (fun _ => none) target st = .ok st := by
  refine ⟨processWeavingForThread_none st2 i tgt, ?hw⟩
  unfold Weave
  obtain ⟨fd, hrun, hiff⟩ := weaveGo_none target (List.range st.config.threads.length) false st
  rw [hrun]
  show (if target ≠ "" ∧ fd = false then Except.error "thread not found" else Except.ok st)
    = Except.ok st
  by_cases htgt : target = ""
  · rw [if_neg (by simp [htgt])]
  · have hex : ∃ j ∈ List.range st.config.threads.length,
        (st.config.threads.getD j default).name = target := by
      rcases h with h1 | h1
      · exact absurd h1 htgt
      · obtain ⟨t, ht, hname⟩ := List.any_eq_true.mp h1
        obtain ⟨k, hk, hkt⟩ := List.mem_iff_getElem.mp ht
        refine ⟨k, List.mem_range.mpr hk, ?hn⟩
        rw [List.getD_eq_getElem _ default hk, hkt]
        exact of_decide_eq_true hname
    have hfd : fd = true := hiff.mpr (Or.inr ⟨htgt, hex⟩)
    rw [hfd]
    rw [if_neg (by simp)]

/-- Witness for C9 at a concrete project: one thread `t1` owning `a.txt`,
targeted weave of `t1` with its source directory missing. -/
theorem c9_missing_source_skipped_witness :
    processWeavingForThread none
        ⟨[("a.txt", "X")], ⟨"1", [⟨"t1", "s", [("./", ["a.txt"])]⟩]⟩, []⟩ 0 "t1"
      = .ok ⟨[("a.txt", "X")], ⟨"1", [⟨"t1", "s", [("./", ["a.txt"])]⟩]⟩, []⟩ ∧
    Weave (fun _ => none) "t1"
        ⟨[("a.txt", "X")], ⟨"1", [⟨"t1", "s", [("./", ["a.txt"])]⟩]⟩, []⟩
      = .ok ⟨[("a.txt", "X")], ⟨"1", [⟨"t1", "s", [("./", ["a.txt"])]⟩]⟩, []⟩ :=
  c9_missing_source_skipped
    ⟨[("a.txt", "X")], ⟨"1", [⟨"t1", "s", [("./", ["a.txt"])]⟩]⟩, []⟩
    ⟨[("a.txt", "X")], ⟨"1", [⟨"t1", "s", [("./", ["a.txt"])]⟩]⟩, []⟩
    0 "t1" "t1" (Or.inr (by decide))

/-! ## Claim C7: targeted enumeration replays the manifest only -/

/-- C7: enumeration for a targeted weave reads no filesystem state — the
candidate set is computed identically for any two source trees, and a
`(directory, file)` candidate exists exactly when the thread's manifest
`files` records it (so a file present only in the source tree is never a
candidate). -/
theorem c7_targeted_enumeration_from_manifest (thread : Thread) (src1 src2 : SourceTree)
    (target d f : String) (h1 : target ≠ "") (h2 : target = thread.name) :
    collectFilesToProcessForWeaving thread src1 target
      = collectFilesToProcessForWeaving thread src2 target ∧
    (pairMem (collectFilesToProcessForWeaving thread src1 target) d f = true ↔
      ∃ e ∈ thread.files, normalizeDir e.1 = d ∧ f ∈ e.2) := by
  refine ⟨?ha, collect_targeted_mem thread src1 target h1 h2 d f⟩
  rw [collect_targeted_eq thread src1 target h1 h2, collect_targeted_eq thread src2 target h1 h2]

/-- Witness for C7: thread `t1` owns `sub/x.txt`; its source tree contains an
unrecorded `y.txt`, which is not enumerated, while the recorded file is. -/
theorem c7_targeted_enumeration_from_manifest_witness :
    collectFilesToProcessForWeaving ⟨"t1", "s", [("sub/", ["x.txt"])]⟩ ⟨[("y.txt", .file "Y")]⟩ "t1"
      = collectFilesToProcessForWeaving ⟨"t1", "s", [("sub/", ["x.txt"])]⟩ ⟨[]⟩ "t1" ∧
    pairMem (collectFilesToProcessForWeaving ⟨"t1", "s", [("sub/", ["x.txt"])]⟩
      ⟨[("y.txt", .file "Y")]⟩ "t1") "sub/" "x.txt" = true ∧
    pairMem (collectFilesToProcessForWeaving ⟨"t1", "s", [("sub/", ["x.txt"])]⟩
      ⟨[("y.txt", .file "Y")]⟩ "t1") "./" "y.txt" = false :=
  ⟨(c7_targeted_enumeration_from_manifest ⟨"t1", "s", [("sub/", ["x.txt"])]⟩
      ⟨[("y.txt", .file "Y")]⟩ ⟨[]⟩ "t1" "sub/" "x.txt" (by decide) rfl).1,
    by decide, by decide⟩

/-! ## Claim C4: a targeted weave overwrites its candidates without prompting -/

/-- C4: during a targeted weave of thread `A`, a candidate destination that
exists on disk is handled without consulting the decision stream: if unowned,
the decision is to write with the manifest untouched; if owned by another
thread `B`, that owner's manifest entry is revoked and the decision is to
write; and in both cases the per-file operation copies the source content to
the destination (`A` then records the file in its written set). -/
theorem c4_targeted_no_prompt_overwrite (st : EngineState) (A p B content : String)
    (src : SourceTree) :
    ((diskLookup st.disk p).isSome = true → A ≠ "" → IsFileOwned st.config p = none →
      decideFileWeavingAction st A A p = .ok (true, st)) ∧
    ((diskLookup st.disk p).isSome = true → A ≠ "" → IsFileOwned st.config p = some B → B ≠ A →
      decideFileWeavingAction st A A p
        = .ok (true, { st with config := removeFileFromThreadManifest st.config B p })) ∧
    ((diskLookup st.disk p).isSome = true → A ≠ "" → IsFileOwned st.config p = none →
      srcLookup src p = some (.file content) →
      handleFileWeavingOperation src st A A p
        = .ok (true, { st with disk := diskWrite st.disk p content })) ∧
    ((diskLookup st.disk p).isSome = true → A ≠ "" → IsFileOwned st.config p = some B → B ≠ A →
      srcLookup src p = some (.file content) →
      handleFileWeavingOperation src st A A p
        = .ok (true, ⟨diskWrite st.disk p content,
            removeFileFromThreadManifest st.config B p, st.decisions⟩)) := by
  have hunowned : ∀ hd : (diskLookup st.disk p).isSome = true, A ≠ "" →
      IsFileOwned st.config p = none → decideFileWeavingAction st A A p = .ok (true, st) := by
    intro hd hA hown
    unfold decideFileWeavingAction
    rw [if_pos hd, hown]
    show handleFileConflictUnowned st A A = .ok (true, st)
    unfold handleFileConflictUnowned
    rw [if_neg hA, if_pos rfl]
  have howned : ∀ hd : (diskLookup st.disk p).isSome = true, A ≠ "" →
      IsFileOwned st.config p = some B → B ≠ A →
      decideFileWeavingAction st A A p
        = .ok (true, { st with config := removeFileFromThreadManifest st.config B p }) := by
    intro hd hA hown hBA
    unfold decideFileWeavingAction
    rw [if_pos hd, hown]
    show (if B ≠ A then handleFileConflictOwnedByOther st A A B p else Except.ok (true, st))
      = .ok (true, { st with config := removeFileFromThreadManifest st.config B p })
    rw [if_pos hBA]
    unfold handleFileConflictOwnedByOther
    rw [if_neg hA, if_pos rfl]
  refine ⟨hunowned, howned, ?h3, ?h4⟩
  case h3 =>
    intro hd hA hown hsrc
    unfold handleFileWeavingOperation
    rw [hsrc]
    show (match decideFileWeavingAction st A A p with
      | Except.error e => Except.error e
      | Except.ok (shouldWrite, st1) =>
        if shouldWrite then
          Except.ok (true, { st1 with disk := diskWrite st1.disk p content })
        else Except.ok (false, st1))
      = Except.ok (true, { st with disk := diskWrite st.disk p content })
    rw [hunowned hd hA hown]
    rfl
  case h4 =>
    intro hd hA hown hBA hsrc
    unfold handleFileWeavingOperation
    rw [hsrc]
    show (match decideFileWeavingAction st A A p with
      | Except.error e => Except.error e
      | Except.ok (shouldWrite, st1) =>
        if shouldWrite then
          Except.ok (true, { st1 with disk := diskWrite st1.disk p content })
        else Except.ok (false, st1))
      = Except.ok (true, ⟨diskWrite st.disk p content,
          removeFileFromThreadManifest st.config B p, st.decisions⟩)
    rw [howned hd hA hown hBA]
    rfl

/-- Witness for C4 at concrete states: an unowned existing `a.txt` and one
owned by `t2`, both processed by a targeted weave of `t1` with an empty
decision stream (no prompt is possible, yet the writes succeed). -/
theorem c4_targeted_no_prompt_overwrite_witness :
    decideFileWeavingAction ⟨[("a.txt", "OLD")], ⟨"1", []⟩, []⟩ "t1" "t1" "a.txt"
      = .ok (true, ⟨[("a.txt", "OLD")], ⟨"1", []⟩, []⟩) ∧
    handleFileWeavingOperation ⟨[("a.txt", .file "NEW")]⟩
        ⟨[("a.txt", "OLD")], ⟨"1", [⟨"t2", "s", [("./", ["a.txt"])]⟩]⟩, []⟩ "t1" "t1" "a.txt"
      = .ok (true, ⟨[("a.txt", "NEW")],
          removeFileFromThreadManifest ⟨"1", [⟨"t2", "s", [("./", ["a.txt"])]⟩]⟩ "t2" "a.txt",
          []⟩) :=
  ⟨(c4_targeted_no_prompt_overwrite ⟨[("a.txt", "OLD")], ⟨"1", []⟩, []⟩ "t1" "a.txt" "B" "c"
      ⟨[]⟩).1 (by decide) (by decide) (by decide),
   (c4_targeted_no_prompt_overwrite
      ⟨[("a.txt", "OLD")], ⟨"1", [⟨"t2", "s", [("./", ["a.txt"])]⟩]⟩, []⟩ "t1" "a.txt" "t2" "NEW"
      ⟨[("a.txt", .file "NEW")]⟩).2.2.2 (by decide) (by decide) (by decide) (by decide) (by decide)⟩

/-! ## Claim C8: malformed store entries during thread resolution -/

/-- Counterexample to C8 as stated: in the project-local store, a regular
file at `.loom/badThread/_thread` does NOT make resolution fail with a
malformed-thread error — `findThreadInProjectStore` performs no directory
check, so resolution succeeds and returns the file's path as found. -/
theorem c8_counterexample :
    handleThreadSearch [("badThread", FsKind.file)] [] "" "badThread"
      = .ok (".loom/badThread/_thread", "project:.loom/badThread") := rfl

/-- C8 amended: for a configured local store, a regular file at the thread's
`_thread` path makes resolution fail with the malformed-thread error naming
the offending path and the store (and resolution never touches the project
tree, so nothing is written); but for the project-local store, anything at
`.loom/<thread>/_thread` — including a regular file — resolves as found
without a directory check, and the failure only surfaces later during
copying. -/
theorem c8_amended_malformed_resolution (projectStore : List (String × FsKind))
    (store : GStore) (stores : List GStore) (tn : String) (k : FsKind) :
    (store.stype = "local" → storeStat store.threadEntries tn = some .file →
      findThreadInLocalStores "" tn [store]
        = .error (.malformedThread (store.path ++ "/" ++ tn ++ "/_thread") store.name)) ∧
    (storeStat projectStore tn = none → store.stype = "local" →
      storeStat store.threadEntries tn = some .file →
      handleThreadSearch projectStore [store] "" tn
        = .error (.malformedThread (store.path ++ "/" ++ tn ++ "/_thread") store.name)) ∧
    (storeStat projectStore tn = some k →
      handleThreadSearch projectStore stores "" tn
        = .ok (".loom/" ++ tn ++ "/_thread", "project:.loom/" ++ tn)) := by
  have hloc : ∀ hl : store.stype = "local", storeStat store.threadEntries tn = some .file →
      findThreadInLocalStores "" tn [store]
        = .error (.malformedThread (store.path ++ "/" ++ tn ++ "/_thread") store.name) := by
    intro hl hstat
    unfold findThreadInLocalStores
    rw [if_neg (by simp), if_pos hl, hstat]
  refine ⟨hloc, ?h2, ?h3⟩
  case h2 =>
    intro hp hl hstat
    unfold handleThreadSearch
    rw [if_pos rfl]
    unfold findThreadInProjectStore
    rw [hp]
    show (match findThreadInLocalStores "" tn [store] with
      | Except.error e => Except.error e
      | Except.ok (some r) => Except.ok r
      | Except.ok none =>
        if ("" : String) ≠ "" then
          if [store].any (·.name = "") then
            Except.error (ResolveError.threadNotFoundInStore tn "")
          else Except.error (ResolveError.storeNotFound "")
        else Except.error (ResolveError.threadNotFoundAnywhere tn))
      = Except.error (.malformedThread (store.path ++ "/" ++ tn ++ "/_thread") store.name)
    rw [hloc hl hstat]
  case h3 =>
    intro hp
    unfold handleThreadSearch
    rw [if_pos rfl]
    unfold findThreadInProjectStore
    rw [hp]

/-- Witness for the amended C8: concrete store `myStore` with a regular file
at `badThread/_thread`, and a project store containing the same malformed
entry. -/
theorem c8_amended_malformed_resolution_witness :
    findThreadInLocalStores "" "badThread" [⟨"myStore", "local", "/s", [("badThread", FsKind.file)]⟩]
      = .error (.malformedThread ("/s" ++ "/" ++ "badThread" ++ "/_thread") "myStore") ∧
    handleThreadSearch [] [⟨"myStore", "local", "/s", [("badThread", FsKind.file)]⟩] "" "badThread"
      = .error (.malformedThread ("/s" ++ "/" ++ "badThread" ++ "/_thread") "myStore") ∧
    handleThreadSearch [("badThread", FsKind.file)] [] "" "badThread"
      = .ok (".loom/" ++ "badThread" ++ "/_thread", "project:.loom/" ++ "badThread") :=
  ⟨(c8_amended_malformed_resolution [] ⟨"myStore", "local", "/s", [("badThread", FsKind.file)]⟩
      [] "badThread" FsKind.file).1 rfl rfl,
   (c8_amended_malformed_resolution [] ⟨"myStore", "local", "/s", [("badThread", FsKind.file)]⟩
      [] "badThread" FsKind.file).2.1 rfl rfl rfl,
   (c8_amended_malformed_resolution [("badThread", FsKind.file)]
      ⟨"myStore", "local", "/s", [("badThread", FsKind.file)]⟩ [] "badThread" FsKind.file).2.2 rfl⟩

/-! ## Claim C5: idempotent re-apply of a file owned by the current thread -/

/-- Counterexample to C5 as stated: in `add` mode the no-prompt re-apply is
keyed on the thread's recorded *source label*, not its name.  Re-adding
thread `t1` — which itself owns the existing `a.txt` — under a different
source label consults the decision stream, so with no answers available the
add fails instead of silently re-writing the file. -/
theorem c5_counterexample :
    IsFileOwned ⟨"1", [⟨"t1", "storeA", [("./", ["a.txt"])]⟩]⟩ "a.txt" = some "t1" ∧
    addThread ⟨[("a.txt", "OLD")], ⟨"1", [⟨"t1", "storeA", [("./", ["a.txt"])]⟩]⟩, []⟩
      "t1" "storeB" [("a.txt", "NEW")] = .error "prompt failure" :=
  ⟨rfl, rfl⟩

/-- C5 amended: when a destination file exists and is owned by the current
thread, the weave engine (all-threads or targeted, any target value) writes
it without prompting and leaves the ownership record unchanged; `add`
behaves that way only when the owning thread's recorded source label equals
the source label of the add — re-adding under a different source label
prompts even though the owner has the same name. -/
theorem c5_amended_self_reapply (st : EngineState) (A target p disp owner : String) :
    ((diskLookup st.disk p).isSome = true → IsFileOwned st.config p = some A →
      decideFileWeavingAction st A target p = .ok (true, st)) ∧
    ((diskLookup st.disk p).isSome = true → IsFileOwned st.config p = some owner →
      ownerSourceOf st.config owner = disp →
      handleExistingFileConflict st p disp = .ok (true, st)) := by
  constructor
  · intro hd hown
    unfold decideFileWeavingAction
    rw [if_pos hd, hown]
    show (if A ≠ A then handleFileConflictOwnedByOther st A target A p else Except.ok (true, st))
      = Except.ok (true, st)
    rw [if_neg (by simp)]
  · intro hd hown hsrc
    obtain ⟨c, hc⟩ := Option.isSome_iff_exists.mp hd
    unfold handleExistingFileConflict
    rw [hc, hown]
    show (if ownerSourceOf st.config owner = disp then Except.ok (true, st)
      else match promptDecide st.decisions with
        | Except.error e => Except.error e
        | Except.ok (choice, rest) =>
          if choice = Answer.yes then Except.ok (true, { st with decisions := rest })
          else Except.ok (false, { st with decisions := rest }))
      = Except.ok (true, st)
    rw [if_pos hsrc]

/-- Witness for the amended C5: a weave-all re-apply of `a.txt` owned by
`t1`, and an add re-apply with matching source labels, both decided with an
empty decision stream. -/
theorem c5_amended_self_reapply_witness :
    decideFileWeavingAction
        ⟨[("a.txt", "OLD")], ⟨"1", [⟨"t1", "storeA", [("./", ["a.txt"])]⟩]⟩, []⟩ "t1" "" "a.txt"
      = .ok (true, ⟨[("a.txt", "OLD")], ⟨"1", [⟨"t1", "storeA", [("./", ["a.txt"])]⟩]⟩, []⟩) ∧
    handleExistingFileConflict
        ⟨[("a.txt", "OLD")], ⟨"1", [⟨"t1", "storeA", [("./", ["a.txt"])]⟩]⟩, []⟩ "a.txt" "storeA"
      = .ok (true, ⟨[("a.txt", "OLD")], ⟨"1", [⟨"t1", "storeA", [("./", ["a.txt"])]⟩]⟩, []⟩) :=
  ⟨(c5_amended_self_reapply
      ⟨[("a.txt", "OLD")], ⟨"1", [⟨"t1", "storeA", [("./", ["a.txt"])]⟩]⟩, []⟩
      "t1" "" "a.txt" "storeA" "t1").1 (by decide) (by decide),
   (c5_amended_self_reapply
      ⟨[("a.txt", "OLD")], ⟨"1", [⟨"t1", "storeA", [("./", ["a.txt"])]⟩]⟩, []⟩
      "t1" "" "a.txt" "storeA" "t1").2 (by decide) (by decide) (by decide)⟩

/-! ## Claim C6: declining a conflict during add -/

/-- Counterexample to C6 as stated: when `t1`'s recorded source label equals
the label under which `t2` is added (both from store `myStore`), the conflict
on `a.txt` is resolved without ever consulting `Decide` — the file is
overwritten, `t1` loses it and `t2` gains it, with the `no` answer left
unread in the decision stream. -/
theorem c6_counterexample :
    IsFileOwned ⟨"1", [⟨"t1", "myStore", [("./", ["a.txt"])]⟩]⟩ "a.txt" = some "t1" ∧
    addThread ⟨[("a.txt", "OLD")], ⟨"1", [⟨"t1", "myStore", [("./", ["a.txt"])]⟩]⟩, [.no]⟩
      "t2" "myStore" [("a.txt", "NEW")]
    = .ok ⟨[("a.txt", "NEW")],
        ⟨"1", [⟨"t1", "myStore", []⟩, ⟨"t2", "myStore", [("./", ["a.txt"])]⟩]⟩, [.no]⟩ :=
  ⟨rfl, rfl⟩

/-- C6 amended: the conflict-decline scenario holds provided `t1`'s recorded
source label differs from the label under which `t2` is added: `t1` owns
`a.txt` (recorded from `storeA`), `t2`'s source also provides `a.txt`, and
adding `t2` from `storeB` with `Decide` answering `no` leaves the disk
content of `a.txt` unchanged, keeps `a.txt` in `t1`'s files, and records no
files for `t2` (the answer is consumed by the one prompt). -/
theorem c6_amended_conflict_decline :
    IsFileOwned ⟨"1", [⟨"t1", "storeA", [("./", ["a.txt"])]⟩]⟩ "a.txt" = some "t1" ∧
    addThread ⟨[("a.txt", "OLD")], ⟨"1", [⟨"t1", "storeA", [("./", ["a.txt"])]⟩]⟩, [.no]⟩
      "t2" "storeB" [("a.txt", "NEW")]
    = .ok ⟨[("a.txt", "OLD")],
        ⟨"1", [⟨"t1", "storeA", [("./", ["a.txt"])]⟩, ⟨"t2", "storeB", []⟩]⟩, []⟩ :=
  ⟨rfl, rfl⟩

/-! ## Claim C2: written-set replacement versus per-directory merge -/

/-- Counterexample to C2 as stated: re-adding existing thread `t` writes only
`b.txt` at the project root, yet the directory key `old/` — not written this
round — survives in `t`'s files: `add` merges at the directory level instead
of replacing the map. -/
theorem c2_counterexample :
    addThread ⟨[], ⟨"1", [⟨"t", "s", [("old/", ["a.txt"])]⟩]⟩, []⟩ "t" "s2" [("b.txt", "B")]
      = .ok ⟨[("b.txt", "B")], ⟨"1", [⟨"t", "s2", [("old/", ["a.txt"]), ("./", ["b.txt"])]⟩]⟩, []⟩ ∧
    pairMem [("old/", ["a.txt"]), ("./", ["b.txt"])] "old/" "a.txt" = true :=
  ⟨rfl, rfl⟩

/-! ## Lemma kit: the weave file loop -/

theorem decideFileWeavingAction_disk (st : EngineState) (A target p : String) (w : Bool)
    (st1 : EngineState) (h : decideFileWeavingAction st A target p = .ok (w, st1)) :
    st1.disk = st.disk := by
  unfold decideFileWeavingAction handleFileConflictOwnedByOther handleFileConflictUnowned
    promptDecide at h
  repeat' split at h
  all_goals simp_all
  all_goals rw [← h.2]

theorem weaveFilesLoop_written_sub (src : SourceTree) (A target : String) :
    ∀ (pairs : List (String × String)) (st : EngineState)
      (W0 : List (String × List String)) (st1 : EngineState) (W1 : List (String × List String)),
      weaveFilesLoop src A target pairs st W0 = .ok (st1, W1) →
      ∀ d f, pairMem W1 d f = true → pairMem W0 d f = true ∨ (d, f) ∈ pairs
  | [], st, W0, st1, W1, h, d, f, hm => by
    unfold weaveFilesLoop at h
    simp only [Except.ok.injEq, Prod.mk.injEq] at h
    rw [← h.2] at hm
    exact Or.inl hm
  | (d0, f0) :: rest, st, W0, st1, W1, h, d, f, hm => by
    unfold weaveFilesLoop at h
    cases hop : handleFileWeavingOperation src st A target (goJoin d0 f0) with
    | error e => rw [hop] at h; exact absurd h (by simp)
    | ok res =>
      rw [hop] at h
      obtain ⟨wrote, st2⟩ := res
      simp only at h
      have IH := weaveFilesLoop_written_sub src A target rest st2
        (if wrote = true then addToMultimap W0 d0 [f0] else W0) st1 W1 h d f hm
      rcases IH with h1 | h1
      · by_cases hw : wrote = true
        · rw [if_pos hw] at h1
          rcases (pairMem_addToMultimap W0 d0 [f0] d f).mp h1 with h2 | ⟨h2, h3⟩
          · exact Or.inl h2
          · rcases List.mem_singleton.mp h3 with rfl
            exact Or.inr (by rw [h2]; simp)
        · rw [if_neg hw] at h1
          exact Or.inl h1
      · exact Or.inr (List.mem_cons_of_mem _ h1)

theorem handleFileWeavingOperation_disk_content (src : SourceTree) (st : EngineState)
    (A target p : String) (w : Bool) (st2 : EngineState)
    (h : handleFileWeavingOperation src st A target p = .ok (w, st2)) :
    (w = true ∧ ∃ c, srcLookup src p = some (.file c) ∧ st2.disk = diskWrite st.disk p c) ∨
    (w = false ∧ st2.disk = st.disk) := by
  unfold handleFileWeavingOperation at h
  cases hsrc : srcLookup src p with
  | none =>
    rw [hsrc] at h
    simp only [Except.ok.injEq, Prod.mk.injEq] at h
    exact Or.inr ⟨h.1.symm, by rw [← h.2]⟩
  | some entry =>
    rw [hsrc] at h
    cases entry with
    | dir =>
      simp only [Except.ok.injEq, Prod.mk.injEq] at h
      exact Or.inr ⟨h.1.symm, by rw [← h.2]⟩
    | file c =>
      cases hdec : decideFileWeavingAction st A target p with
      | error e => rw [hdec] at h; exact absurd h (by simp)
      | ok res =>
        rw [hdec] at h
        obtain ⟨sw, st3⟩ := res
        have hdisk3 := decideFileWeavingAction_disk st A target p sw st3 hdec
        simp only at h
        by_cases hsw : sw = true
        · rw [if_pos hsw] at h
          simp only [Except.ok.injEq, Prod.mk.injEq] at h
          refine Or.inl ⟨h.1.symm, c, rfl, ?hd⟩
          rw [← h.2]
          simp only
          rw [hdisk3]
        · rw [if_neg hsw] at h
          simp only [Except.ok.injEq, Prod.mk.injEq] at h
          refine Or.inr ⟨h.1.symm, ?hd2⟩
          rw [← h.2, hdisk3]

theorem weaveFilesLoop_written_content (src : SourceTree) (A target : String) :
    ∀ (pairs : List (String × String)) (st : EngineState)
      (W0 : List (String × List String)) (st1 : EngineState) (W1 : List (String × List String)),
      weaveFilesLoop src A target pairs st W0 = .ok (st1, W1) →
      (∀ d f, pairMem W0 d f = true →
        ∃ c, srcLookup src (goJoin d f) = some (.file c) ∧
          diskLookup st.disk (goJoin d f) = some c) →
      ∀ d f, pairMem W1 d f = true →
        ∃ c, srcLookup src (goJoin d f) = some (.file c) ∧
          diskLookup st1.disk (goJoin d f) = some c
  | [], st, W0, st1, W1, h, hinv, d, f, hm => by
    unfold weaveFilesLoop at h
    simp only [Except.ok.injEq, Prod.mk.injEq] at h
    rw [← h.2] at hm
    obtain ⟨c, hc1, hc2⟩ := hinv d f hm
    exact ⟨c, hc1, by rw [← h.1]; exact hc2⟩
  | (d0, f0) :: rest, st, W0, st1, W1, h, hinv, d, f, hm => by
    unfold weaveFilesLoop at h
    cases hop : handleFileWeavingOperation src st A target (goJoin d0 f0) with
    | error e => rw [hop] at h; exact absurd h (by simp)
    | ok res =>
      rw [hop] at h
      obtain ⟨wrote, st2⟩ := res
      simp only at h
      have hcase := handleFileWeavingOperation_disk_content src st A target (goJoin d0 f0)
        wrote st2 hop
      refine weaveFilesLoop_written_content src A target rest st2 _ st1 W1 h ?hinv2 d f hm
      intro d2 f2 hm2
      rcases hcase with ⟨hw, c0, hc0, hdisk⟩ | ⟨hw, hdisk⟩
      · rw [hw] at hm2
        rw [if_pos rfl] at hm2
        rcases (pairMem_addToMultimap W0 d0 [f0] d2 f2).mp hm2 with h2 | ⟨h2, h3⟩
        · obtain ⟨c, hc1, hc2⟩ := hinv d2 f2 h2
          refine ⟨c, hc1, ?hd⟩
          rw [hdisk]
          by_cases hq : goJoin d2 f2 = goJoin d0 f0
          · rw [hq, diskLookup_write_self]
            rw [hq] at hc1
            rw [hc0] at hc1
            simp only [Option.some.injEq, SrcEntry.file.injEq] at hc1
            rw [hc1]
          · rw [diskLookup_write_ne _ _ _ _ hq]
            exact hc2
        · rcases List.mem_singleton.mp h3 with rfl
          rw [h2]
          refine ⟨c0, hc0, ?hd2⟩
          rw [hdisk, diskLookup_write_self]
      · rw [hw] at hm2
        rw [if_neg (by simp)] at hm2
        obtain ⟨c, hc1, hc2⟩ := hinv d2 f2 hm2
        exact ⟨c, hc1, by rw [hdisk]; exact hc2⟩

theorem handleExistingFileConflict_config (st : EngineState) (p disp : String) (b : Bool)
    (st1 : EngineState) (h : handleExistingFileConflict st p disp = .ok (b, st1)) :
    st1.config = st.config := by
  unfold handleExistingFileConflict promptDecide at h
  repeat' split at h
  all_goals simp_all
  all_goals rw [← h.2]

theorem processFileCopyModel_config (st : EngineState) (p c disp : String) (b : Bool)
    (st1 : EngineState) (h : processFileCopyModel st p c disp = .ok (b, st1)) :
    st1.config = st.config := by
  unfold processFileCopyModel at h
  cases hc : handleExistingFileConflict st p disp with
  | error e => rw [hc] at h; exact absurd h (by simp)
  | ok res =>
    rw [hc] at h
    obtain ⟨sw, st2⟩ := res
    have h2 := handleExistingFileConflict_config st p disp sw st2 hc
    simp only at h
    by_cases hsw : sw = true
    · rw [if_pos hsw] at h
      simp only [Except.ok.injEq, Prod.mk.injEq] at h
      rw [← h.2]
      exact h2
    · rw [if_neg hsw] at h
      simp only [Except.ok.injEq, Prod.mk.injEq] at h
      rw [← h.2]
      exact h2

theorem addFilesLoop_config (disp : String) :
    ∀ (fs : List (String × String)) (st : EngineState) (acc : List (String × List String))
      (st1 : EngineState) (fbd : List (String × List String)),
      addFilesLoop disp fs st acc = .ok (st1, fbd) → st1.config = st.config
  | [], st, acc, st1, fbd, h => by
    unfold addFilesLoop at h
    simp only [Except.ok.injEq, Prod.mk.injEq] at h
    rw [← h.1]
  | (p, c) :: rest, st, acc, st1, fbd, h => by
    unfold addFilesLoop at h
    cases hc : processFileCopyModel st p c disp with
    | error e => rw [hc] at h; exact absurd h (by simp)
    | ok res =>
      rw [hc] at h
      obtain ⟨copied, st2⟩ := res
      simp only at h
      have h1 := processFileCopyModel_config st p c disp copied st2 hc
      have h2 := addFilesLoop_config disp rest st2 _ st1 fbd h
      rw [h2, h1]

theorem removeFileFromThreadManifest_names (lc : LoomConfig) (owner p : String) :
    (removeFileFromThreadManifest lc owner p).threads.map (·.name)
      = lc.threads.map (·.name) := by
  unfold removeFileFromThreadManifest
  exact updateFirstNamed_names owner
    (fun t => { t with files := (removeFileFromFilesMap t.files
      (normalizeDir (splitFileString p).1) (splitFileString p).2) })
    (fun t => rfl) lc.threads

theorem handleFileConflictOwnedByOther_names (st : EngineState) (A target owner p : String)
    (b : Bool) (st1 : EngineState)
    (h : handleFileConflictOwnedByOther st A target owner p = .ok (b, st1)) :
    st1.config.threads.map (·.name) = st.config.threads.map (·.name) := by
  unfold handleFileConflictOwnedByOther at h
  by_cases h1 : target = ""
  · rw [if_pos h1] at h
    cases hp : promptDecide st.decisions with
    | error e => rw [hp] at h; exact absurd h (by simp)
    | ok res =>
      rw [hp] at h
      obtain ⟨choice, rest⟩ := res
      simp only at h
      by_cases hy : choice = Answer.yes
      · rw [if_pos hy] at h
        simp only [Except.ok.injEq, Prod.mk.injEq] at h
        rw [← h.2]
        exact removeFileFromThreadManifest_names st.config owner p
      · rw [if_neg hy] at h
        simp only [Except.ok.injEq, Prod.mk.injEq] at h
        rw [← h.2]
  · rw [if_neg h1] at h
    by_cases h2 : target = A
    · rw [if_pos h2] at h
      simp only [Except.ok.injEq, Prod.mk.injEq] at h
      rw [← h.2]
      exact removeFileFromThreadManifest_names st.config owner p
    · rw [if_neg h2] at h
      simp only [Except.ok.injEq, Prod.mk.injEq] at h
      rw [← h.2]

theorem handleFileConflictUnowned_config (st : EngineState) (A target : String) (b : Bool)
    (st1 : EngineState) (h : handleFileConflictUnowned st A target = .ok (b, st1)) :
    st1.config = st.config := by
  unfold handleFileConflictUnowned promptDecide at h
  repeat' split at h
  all_goals simp_all
  all_goals rw [← h.2]

theorem decideFileWeavingAction_names (st : EngineState) (A target p : String) (w : Bool)
    (st1 : EngineState) (h : decideFileWeavingAction st A target p = .ok (w, st1)) :
    st1.config.threads.map (·.name) = st.config.threads.map (·.name) := by
  unfold decideFileWeavingAction at h
  by_cases hd : (diskLookup st.disk p).isSome = true
  · rw [if_pos hd] at h
    cases ho : IsFileOwned st.config p with
    | some owner =>
      rw [ho] at h
      simp only at h
      by_cases hown : owner = A
      · rw [if_neg (not_not_intro hown)] at h
        simp only [Except.ok.injEq, Prod.mk.injEq] at h
        rw [← h.2]
      · rw [if_pos hown] at h
        exact handleFileConflictOwnedByOther_names st A target owner p w st1 h
    | none =>
      rw [ho] at h
      rw [handleFileConflictUnowned_config st A target w st1 h]
  · rw [if_neg hd] at h
    simp only [Except.ok.injEq, Prod.mk.injEq] at h
    rw [← h.2]

theorem handleFileWeavingOperation_names (src : SourceTree) (st : EngineState)
    (A target p : String) (w : Bool) (st1 : EngineState)
    (h : handleFileWeavingOperation src st A target p = .ok (w, st1)) :
    st1.config.threads.map (·.name) = st.config.threads.map (·.name) := by
  unfold handleFileWeavingOperation at h
  cases hs : srcLookup src p with
  | none =>
    rw [hs] at h
    simp only [Except.ok.injEq, Prod.mk.injEq] at h
    rw [← h.2]
  | some e =>
    rw [hs] at h
    cases e with
    | dir =>
      simp only [Except.ok.injEq, Prod.mk.injEq] at h
      rw [← h.2]
    | file c =>
      cases hdec : decideFileWeavingAction st A target p with
      | error e2 => rw [hdec] at h; exact absurd h (by simp)
      | ok res =>
        rw [hdec] at h
        obtain ⟨sw, st2⟩ := res
        have hn := decideFileWeavingAction_names st A target p sw st2 hdec
        simp only at h
        by_cases hsw : sw = true
        · rw [if_pos hsw] at h
          simp only [Except.ok.injEq, Prod.mk.injEq] at h
          rw [← h.2]
          exact hn
        · rw [if_neg hsw] at h
          simp only [Except.ok.injEq, Prod.mk.injEq] at h
          rw [← h.2]
          exact hn

theorem weaveFilesLoop_names (src : SourceTree) (A target : String) :
    ∀ (pairs : List (String × String)) (st : EngineState) (W0 : List (String × List String))
      (st1 : EngineState) (W1 : List (String × List String)),
      weaveFilesLoop src A target pairs st W0 = .ok (st1, W1) →
      st1.config.threads.map (·.name) = st.config.threads.map (·.name)
  | [], st, W0, st1, W1, h => by
    unfold weaveFilesLoop at h
    simp only [Except.ok.injEq, Prod.mk.injEq] at h
    rw [← h.1]
  | (d0, f0) :: rest, st, W0, st1, W1, h => by
    unfold weaveFilesLoop at h
    cases hop : handleFileWeavingOperation src st A target (goJoin d0 f0) with
    | error e => rw [hop] at h; exact absurd h (by simp)
    | ok res =>
      rw [hop] at h
      obtain ⟨wrote, st2⟩ := res
      simp only at h
      have h1 := handleFileWeavingOperation_names src st A target (goJoin d0 f0) wrote st2 hop
      have h2 := weaveFilesLoop_names src A target rest st2 _ st1 W1 h
      rw [h2, h1]

/-! ## Lemma kit: manifest update during `add` -/

theorem find?_name_map_strip (tn d f : String) :
    ∀ ts : List Thread,
      List.find? (fun t => t.name = tn)
        (ts.map (fun t => if t.name = tn then t
          else { t with files := (removeFileFromFilesMap t.files d f) })) =
      List.find? (fun t => t.name = tn) ts
  | [] => rfl
  | t :: rest => by
    rw [List.map_cons]
    by_cases hn : t.name = tn
    · rw [if_pos hn]
      rw [List.find?_cons_of_pos _ (by simp [hn]), List.find?_cons_of_pos _ (by simp [hn])]
    · rw [if_neg hn]
      rw [List.find?_cons_of_neg _ (by simp [hn]), List.find?_cons_of_neg _ (by simp [hn])]
      exact find?_name_map_strip tn d f rest

theorem find?_name_removeOthers (lc : LoomConfig) (tn d f : String) :
    List.find? (fun t => t.name = tn) (removeFileFromOtherThreads lc tn d f).threads =
    List.find? (fun t => t.name = tn) lc.threads := by
  unfold removeFileFromOtherThreads
  exact find?_name_map_strip tn d f lc.threads

theorem find?_name_strip_inner (tn d : String) :
    ∀ (fs : List String) (lc : LoomConfig),
      List.find? (fun t => t.name = tn)
        (fs.foldl (fun acc2 file => removeFileFromOtherThreads acc2 tn d file) lc).threads =
      List.find? (fun t => t.name = tn) lc.threads
  | [], lc => rfl
  | f :: rest, lc => by
    rw [List.foldl_cons]
    rw [find?_name_strip_inner tn d rest _]
    exact find?_name_removeOthers lc tn d f

theorem find?_name_strip_fold (tn : String) :
    ∀ (fbd : List (String × List String)) (lc : LoomConfig),
      List.find? (fun t => t.name = tn)
        (fbd.foldl (fun acc e => e.2.foldl
          (fun acc2 file => removeFileFromOtherThreads acc2 tn e.1 file) acc) lc).threads =
      List.find? (fun t => t.name = tn) lc.threads
  | [], lc => rfl
  | e :: rest, lc => by
    rw [List.foldl_cons]
    rw [find?_name_strip_fold tn rest _]
    exact find?_name_strip_inner tn e.1 e.2 lc

theorem any_name_eq_find?_isSome (tn : String) (ts : List Thread) :
    ts.any (fun t => t.name = tn) = (List.find? (fun t => t.name = tn) ts).isSome := by
  induction ts with
  | nil => rfl
  | cons t rest IH =>
    by_cases hn : t.name = tn
    · simp [List.find?_cons, hn]
    · simp [List.find?_cons, hn, IH]

theorem find?_updateFirstNamed (tn : String) (u : Thread → Thread)
    (hu : ∀ t, (u t).name = t.name) :
    ∀ (ts : List Thread) (t0 : Thread),
      List.find? (fun t => t.name = tn) ts = some t0 →
      List.find? (fun t => t.name = tn) (updateFirstNamed tn u ts) = some (u t0)
  | [], t0, h => by simp at h
  | t :: rest, t0, h => by
    unfold updateFirstNamed
    by_cases hn : t.name = tn
    · rw [if_pos hn]
      rw [List.find?_cons_of_pos _ (by simp [hn])] at h
      rw [List.find?_cons_of_pos _ (by simp [hu t, hn])]
      simp only [Option.some.injEq] at h ⊢
      rw [h]
    · rw [if_neg hn]
      rw [List.find?_cons_of_neg _ (by simp [hn])] at h
      rw [List.find?_cons_of_neg _ (by simp [hn])]
      exact find?_updateFirstNamed tn u hu rest t0 h

theorem find?_key_map_set (d : String) (l : List String) :
    ∀ files : List (String × List String),
      List.find? (fun e => e.1 = d)
        (files.map (fun e => if e.1 = d then (d, l) else e)) =
      (List.find? (fun e => e.1 = d) files).map (fun _ => (d, l))
  | [] => rfl
  | e :: rest => by
    rw [List.map_cons]
    by_cases hk : e.1 = d
    · rw [if_pos hk]
      rw [List.find?_cons_of_pos _ (by simp), List.find?_cons_of_pos _ (by simp [hk])]
      rfl
    · rw [if_neg hk]
      rw [List.find?_cons_of_neg _ (by simp [hk]), List.find?_cons_of_neg _ (by simp [hk])]
      exact find?_key_map_set d l rest

theorem any_eq_find?_isSome {α : Type} (p : α → Bool) (l : List α) :
    l.any p = (List.find? p l).isSome := by
  induction l with
  | nil => rfl
  | cons a rest IH =>
    cases h : p a <;> simp [List.find?_cons, h, IH]

theorem find?_key_map_set_other (d d' : String) (l : List String) (hne : d' ≠ d) :
    ∀ files : List (String × List String),
      List.find? (fun e => e.1 = d')
        (files.map (fun e => if e.1 = d then (d, l) else e)) =
      List.find? (fun e => e.1 = d') files
  | [] => rfl
  | e :: rest => by
    rw [List.map_cons]
    by_cases hk : e.1 = d
    · rw [if_pos hk]
      rw [List.find?_cons_of_neg _ (by simp [Ne.symm hne]),
        List.find?_cons_of_neg _ (by simp [hk, Ne.symm hne])]
      exact find?_key_map_set_other d d' l hne rest
    · rw [if_neg hk]
      by_cases hk' : e.1 = d'
      · rw [List.find?_cons_of_pos _ (by simp [hk']), List.find?_cons_of_pos _ (by simp [hk'])]
      · rw [List.find?_cons_of_neg _ (by simp [hk']), List.find?_cons_of_neg _ (by simp [hk'])]
        exact find?_key_map_set_other d d' l hne rest

theorem lookupFiles_setFilesEntry_self (files : List (String × List String))
    (d : String) (l : List String) :
    lookupFiles (setFilesEntry files d l) d = some l := by
  unfold lookupFiles setFilesEntry
  by_cases hany : files.any (fun e => e.1 = d) = true
  · rw [if_pos hany, find?_key_map_set]
    have h2 : (List.find? (fun e => decide (e.1 = d)) files).isSome = true := by
      rw [← any_eq_find?_isSome]
      exact hany
    cases hf : List.find? (fun e => decide (e.1 = d)) files with
    | none => rw [hf] at h2; exact absurd h2 (by simp)
    | some e0 => rfl
  · rw [if_neg hany, List.find?_append]
    have h2 : List.find? (fun e => decide (e.1 = d)) files = none := by
      cases hf : List.find? (fun e => decide (e.1 = d)) files with
      | none => rfl
      | some e0 =>
        exfalso
        apply hany
        rw [any_eq_find?_isSome, hf]
        rfl
    rw [h2, Option.none_or, List.find?_cons_of_pos _ (by simp)]
    rfl

theorem lookupFiles_setFilesEntry_ne (files : List (String × List String))
    (d : String) (l : List String) (d' : String) (hne : d' ≠ d) :
    lookupFiles (setFilesEntry files d l) d' = lookupFiles files d' := by
  unfold lookupFiles setFilesEntry
  by_cases hany : files.any (fun e => e.1 = d) = true
  · rw [if_pos hany, find?_key_map_set_other d d' l hne]
  · rw [if_neg hany, List.find?_append]
    cases hf : List.find? (fun e => decide (e.1 = d')) files with
    | some e0 => rfl
    | none =>
      rw [Option.none_or, List.find?_cons_of_neg _ (by simp [Ne.symm hne])]
      rfl

theorem lookupFiles_foldl_set_not_mem (d : String) :
    ∀ (fbd : List (String × List String)) (fs : List (String × List String)),
      d ∉ fbd.map (·.1) →
      lookupFiles (fbd.foldl (fun acc e => setFilesEntry acc e.1 e.2) fs) d = lookupFiles fs d
  | [], fs, _ => rfl
  | e :: rest, fs, h => by
    rw [List.map_cons, List.mem_cons] at h
    push_neg at h
    rw [List.foldl_cons]
    rw [lookupFiles_foldl_set_not_mem d rest _ h.2]
    exact lookupFiles_setFilesEntry_ne fs e.1 e.2 d h.1

theorem lookupFiles_foldl_set_mem (d : String) (l : List String) :
    ∀ (fbd : List (String × List String)) (fs : List (String × List String)),
      (fbd.map (·.1)).Nodup → (d, l) ∈ fbd →
      lookupFiles (fbd.foldl (fun acc e => setFilesEntry acc e.1 e.2) fs) d = some l
  | [], fs, _, hm => by simp at hm
  | e :: rest, fs, hnd, hm => by
    rw [List.map_cons, List.nodup_cons] at hnd
    rw [List.foldl_cons]
    rcases List.mem_cons.mp hm with heq | hmem
    · have hd : d ∉ rest.map (·.1) := by
        have hde : d = e.1 := by rw [← heq]
        rw [hde]
        exact hnd.1
      rw [lookupFiles_foldl_set_not_mem d rest _ hd, ← heq]
      exact lookupFiles_setFilesEntry_self fs d l
    · exact lookupFiles_foldl_set_mem d l rest _ hnd.2 hmem

theorem getD_set_self {α : Type} [Inhabited α] (l : List α) (i : Nat) (a : α)
    (h : i < l.length) : (l.set i a).getD i default = a := by
  rw [List.getD_eq_getElem _ _ (by simpa using h)]
  simp [List.getElem_set]

theorem updateLoomConfigModel_existing (lc : LoomConfig) (tn src : String)
    (fbd : List (String × List String)) (t0 : Thread)
    (hfind : lc.threads.find? (fun t => t.name = tn) = some t0) :
    (updateLoomConfigModel lc tn src fbd).threads.find? (fun t => t.name = tn) =
      some { t0 with
        source := src
        files := (fbd.foldl (fun fs e => setFilesEntry fs e.1 e.2) t0.files) } := by
  simp only [updateLoomConfigModel]
  have hfind1 := find?_name_strip_fold tn fbd lc
  have hany : ((fbd.foldl (fun acc e => e.2.foldl
      (fun acc2 file => removeFileFromOtherThreads acc2 tn e.1 file) acc) lc).threads.any
      (fun t => t.name = tn)) = true := by
    rw [any_eq_find?_isSome, hfind1, hfind]
    rfl
  rw [if_pos hany]
  exact find?_updateFirstNamed tn
    (fun t => { t with
      source := src
      files := (fbd.foldl (fun fs e => setFilesEntry fs e.1 e.2) t.files) })
    (fun t => rfl) _ t0 (by rw [hfind1]; exact hfind)

theorem updateLoomConfigModel_new (lc : LoomConfig) (tn src : String)
    (fbd : List (String × List String))
    (hnone : lc.threads.find? (fun t => t.name = tn) = none) :
    (updateLoomConfigModel lc tn src fbd).threads.getLast? =
      some { name := tn, source := src, files := fbd } := by
  simp only [updateLoomConfigModel]
  have hfind1 := find?_name_strip_fold tn fbd lc
  have hany : ((fbd.foldl (fun acc e => e.2.foldl
      (fun acc2 file => removeFileFromOtherThreads acc2 tn e.1 file) acc) lc).threads.any
      (fun t => t.name = tn)) = false := by
    rw [any_eq_find?_isSome, hfind1, hnone]
    rfl
  rw [if_neg (by simp [hany])]
  exact List.getLast?_concat _

/-! ## Claim C2: replacement in weave, per-directory merge on re-add -/

/-- C2 (amended): at the end of processing a thread in weave the thread's
manifest entry is replaced with exactly the set of files actually written this
round (never merged), and every written file holds its source content on disk;
at the end of add, a NEW thread's entry is exactly the copied map, while on
re-add of an existing thread name the entry is merged at the directory level —
directory keys copied this round replace the old lists and directory keys not
copied this round survive from the previous entry. -/
theorem c2_amended_replace_vs_merge :
    (∀ (src : SourceTree) (st : EngineState) (i : Nat) (target : String)
       (st1 : EngineState) (W : List (String × List String)),
       i < st.config.threads.length →
       ¬(target ≠ "" ∧ (st.config.threads.getD i default).name ≠ target) →
       weaveFilesLoop src (st.config.threads.getD i default).name target
         (flattenPairs (collectFilesToProcessForWeaving
           (st.config.threads.getD i default) src target)) st [] = .ok (st1, W) →
       processWeavingForThread (some src) st i target =
         .ok { st1 with config := setThreadFiles st1.config i W } ∧
       ((setThreadFiles st1.config i W).threads.getD i default).files = W ∧
       (∀ d f, pairMem W d f = true →
         ∃ c, srcLookup src (goJoin d f) = some (.file c) ∧
           diskLookup st1.disk (goJoin d f) = some c)) ∧
    (∀ (st : EngineState) (tn tsrc : String) (srcFiles : List (String × String))
       (st1 : EngineState) (fbd : List (String × List String)),
       addFilesLoop tsrc srcFiles st [] = .ok (st1, fbd) →
       st.config.threads.find? (fun t => t.name = tn) = none →
       addThread st tn tsrc srcFiles =
         .ok { st1 with config := updateLoomConfigModel st1.config tn tsrc fbd } ∧
       (updateLoomConfigModel st1.config tn tsrc fbd).threads.getLast? =
         some { name := tn, source := tsrc, files := fbd }) ∧
    (∀ (st : EngineState) (tn tsrc : String) (srcFiles : List (String × String))
       (st1 : EngineState) (fbd : List (String × List String)) (t0 : Thread),
       addFilesLoop tsrc srcFiles st [] = .ok (st1, fbd) →
       st.config.threads.find? (fun t => t.name = tn) = some t0 →
       addThread st tn tsrc srcFiles =
         .ok { st1 with config := updateLoomConfigModel st1.config tn tsrc fbd } ∧
       ∃ t1, (updateLoomConfigModel st1.config tn tsrc fbd).threads.find?
               (fun t => t.name = tn) = some t1 ∧
         t1.files = fbd.foldl (fun fs e => setFilesEntry fs e.1 e.2) t0.files ∧
         (∀ d, d ∉ fbd.map (·.1) → lookupFiles t1.files d = lookupFiles t0.files d) ∧
         (∀ d l, (fbd.map (·.1)).Nodup → (d, l) ∈ fbd →
           lookupFiles t1.files d = some l)) := by
  refine ⟨?hweave, ?hnew, ?hexist⟩
  case hweave =>
    intro src st i target st1 W hi hskip hloop
    have heq : processWeavingForThread (some src) st i target =
        .ok { st1 with config := setThreadFiles st1.config i W } := by
      show (if target ≠ "" ∧ (st.config.threads.getD i default).name ≠ target
          then Except.ok st
          else match weaveFilesLoop src (st.config.threads.getD i default).name target
              (flattenPairs (collectFilesToProcessForWeaving
                (st.config.threads.getD i default) src target)) st [] with
            | Except.error e => Except.error e
            | Except.ok (st2, written) =>
              Except.ok { st2 with config := setThreadFiles st2.config i written })
        = Except.ok { st1 with config := setThreadFiles st1.config i W }
      rw [if_neg hskip, hloop]
    have hlen : st1.config.threads.length = st.config.threads.length := by
      have h2 := congrArg List.length (weaveFilesLoop_names src
        (st.config.threads.getD i default).name target _ st [] st1 W hloop)
      simpa using h2
    have hset := getD_set_self st1.config.threads i
      { st1.config.threads.getD i default with files := W } (by rw [hlen]; exact hi)
    refine ⟨heq, ?hfiles, ?hcontent⟩
    case hfiles =>
      show ((st1.config.threads.set i
        { st1.config.threads.getD i default with files := W }).getD i default).files = W
      rw [hset]
    case hcontent =>
      refine weaveFilesLoop_written_content src
        (st.config.threads.getD i default).name target _ st [] st1 W hloop ?hbase
      intro d f hm
      exact absurd hm (by simp [pairMem])
  case hnew =>
    intro st tn tsrc srcFiles st1 fbd hloop hfind
    have hcfg := addFilesLoop_config tsrc srcFiles st [] st1 fbd hloop
    have heq : addThread st tn tsrc srcFiles =
        .ok { st1 with config := updateLoomConfigModel st1.config tn tsrc fbd } := by
      unfold addThread
      rw [hloop]
    exact ⟨heq, updateLoomConfigModel_new st1.config tn tsrc fbd (by rw [hcfg]; exact hfind)⟩
  case hexist =>
    intro st tn tsrc srcFiles st1 fbd t0 hloop hfind
    have hcfg := addFilesLoop_config tsrc srcFiles st [] st1 fbd hloop
    have heq : addThread st tn tsrc srcFiles =
        .ok { st1 with config := updateLoomConfigModel st1.config tn tsrc fbd } := by
      unfold addThread
      rw [hloop]
    refine ⟨heq, { t0 with
        source := tsrc
        files := (fbd.foldl (fun fs e => setFilesEntry fs e.1 e.2) t0.files) },
      updateLoomConfigModel_existing st1.config tn tsrc fbd t0 (by rw [hcfg]; exact hfind),
      rfl, ?hkeep, ?hrepl⟩
    case hkeep =>
      intro d hd
      exact lookupFiles_foldl_set_not_mem d fbd t0.files hd
    case hrepl =>
      intro d l hnd hm
      exact lookupFiles_foldl_set_mem d l fbd t0.files hnd hm

/-- Witness for C2 at concrete states: a targeted weave of `t1` whose stale
`sub/gone.txt` manifest entry is dropped (the written set replaces the old
entry), a fresh add of `t3` recording exactly the copied map, and a re-add of
`t2` under a new source where the stale `keep/` directory key survives the
merge while the copied `./` key is set. -/
theorem c2_amended_replace_vs_merge_witness :
    (weaveFilesLoop ⟨[("a.txt", SrcEntry.file "A")]⟩ "t1" "t1"
        (flattenPairs (collectFilesToProcessForWeaving
          ⟨"t1", "s1", [("./", ["a.txt"]), ("sub/", ["gone.txt"])]⟩
          ⟨[("a.txt", SrcEntry.file "A")]⟩ "t1"))
        ⟨[], ⟨"1", [⟨"t1", "s1", [("./", ["a.txt"]), ("sub/", ["gone.txt"])]⟩]⟩, []⟩ []
      = .ok (⟨[("a.txt", "A")],
            ⟨"1", [⟨"t1", "s1", [("./", ["a.txt"]), ("sub/", ["gone.txt"])]⟩]⟩, []⟩,
          [("./", ["a.txt"])])) ∧
    (processWeavingForThread (some ⟨[("a.txt", SrcEntry.file "A")]⟩)
        ⟨[], ⟨"1", [⟨"t1", "s1", [("./", ["a.txt"]), ("sub/", ["gone.txt"])]⟩]⟩, []⟩ 0 "t1"
      = .ok { (⟨[("a.txt", "A")],
            ⟨"1", [⟨"t1", "s1", [("./", ["a.txt"]), ("sub/", ["gone.txt"])]⟩]⟩,
            []⟩ : EngineState) with
          config := setThreadFiles
            ⟨"1", [⟨"t1", "s1", [("./", ["a.txt"]), ("sub/", ["gone.txt"])]⟩]⟩ 0
            [("./", ["a.txt"])] } ∧
      ((setThreadFiles ⟨"1", [⟨"t1", "s1", [("./", ["a.txt"]), ("sub/", ["gone.txt"])]⟩]⟩ 0
          [("./", ["a.txt"])]).threads.getD 0 default).files = [("./", ["a.txt"])] ∧
      (∀ d f, pairMem [("./", ["a.txt"])] d f = true →
        ∃ c, srcLookup ⟨[("a.txt", SrcEntry.file "A")]⟩ (goJoin d f) = some (.file c) ∧
          diskLookup [("a.txt", "A")] (goJoin d f) = some c)) ∧
    (addThread ⟨[], ⟨"1", []⟩, []⟩ "t3" "s3" [("c.txt", "C")]
      = .ok { (⟨[("c.txt", "C")], ⟨"1", []⟩, []⟩ : EngineState) with
          config := updateLoomConfigModel ⟨"1", []⟩ "t3" "s3" [("./", ["c.txt"])] } ∧
      (updateLoomConfigModel ⟨"1", []⟩ "t3" "s3" [("./", ["c.txt"])]).threads.getLast? =
        some ⟨"t3", "s3", [("./", ["c.txt"])]⟩) ∧
    (addThread ⟨[], ⟨"1", [⟨"t2", "old", [("keep/", ["k.txt"])]⟩]⟩, []⟩ "t2" "newsrc"
        [("b.txt", "B")]
      = .ok { (⟨[("b.txt", "B")], ⟨"1", [⟨"t2", "old", [("keep/", ["k.txt"])]⟩]⟩,
            []⟩ : EngineState) with
          config := updateLoomConfigModel ⟨"1", [⟨"t2", "old", [("keep/", ["k.txt"])]⟩]⟩
            "t2" "newsrc" [("./", ["b.txt"])] } ∧
      ∃ t1, (updateLoomConfigModel ⟨"1", [⟨"t2", "old", [("keep/", ["k.txt"])]⟩]⟩
            "t2" "newsrc" [("./", ["b.txt"])]).threads.find? (fun t => t.name = "t2")
          = some t1 ∧
        t1.files = [("./", ["b.txt"])].foldl (fun fs e => setFilesEntry fs e.1 e.2)
          [("keep/", ["k.txt"])] ∧
        (∀ d, d ∉ [("./", ["b.txt"])].map (·.1) →
          lookupFiles t1.files d = lookupFiles [("keep/", ["k.txt"])] d) ∧
        (∀ d l, ([("./", ["b.txt"])].map (·.1)).Nodup → (d, l) ∈ [("./", ["b.txt"])] →
          lookupFiles t1.files d = some l)) :=
  ⟨rfl,
   c2_amended_replace_vs_merge.1 ⟨[("a.txt", SrcEntry.file "A")]⟩
     ⟨[], ⟨"1", [⟨"t1", "s1", [("./", ["a.txt"]), ("sub/", ["gone.txt"])]⟩]⟩, []⟩ 0 "t1"
     ⟨[("a.txt", "A")], ⟨"1", [⟨"t1", "s1", [("./", ["a.txt"]), ("sub/", ["gone.txt"])]⟩]⟩, []⟩
     [("./", ["a.txt"])] (by decide) (by decide) rfl,
   c2_amended_replace_vs_merge.2.1 ⟨[], ⟨"1", []⟩, []⟩ "t3" "s3" [("c.txt", "C")]
     ⟨[("c.txt", "C")], ⟨"1", []⟩, []⟩ [("./", ["c.txt"])] rfl rfl,
   c2_amended_replace_vs_merge.2.2 ⟨[], ⟨"1", [⟨"t2", "old", [("keep/", ["k.txt"])]⟩]⟩, []⟩
     "t2" "newsrc" [("b.txt", "B")]
     ⟨[("b.txt", "B")], ⟨"1", [⟨"t2", "old", [("keep/", ["k.txt"])]⟩]⟩, []⟩
     [("./", ["b.txt"])] ⟨"t2", "old", [("keep/", ["k.txt"])]⟩ rfl rfl⟩

/-! ## Lemma kit: the targeted-weave frame -/

theorem decideFileWeavingAction_self (st : EngineState) (A p : String) (hA : A ≠ "")
    (howner : ∀ B, IsFileOwned st.config p = some B → B = A) :
    decideFileWeavingAction st A A p = .ok (true, st) := by
  unfold decideFileWeavingAction
  by_cases hd : (diskLookup st.disk p).isSome = true
  · rw [if_pos hd]
    cases ho : IsFileOwned st.config p with
    | some owner =>
      have hoA : owner = A := howner owner ho
      simp only
      rw [if_neg (not_not_intro hoA)]
    | none =>
      simp only
      unfold handleFileConflictUnowned
      rw [if_neg hA, if_pos rfl]
  · rw [if_neg hd]

theorem handleFileWeavingOperation_self_frame (src : SourceTree) (st : EngineState)
    (A p : String) (hA : A ≠ "")
    (howner : ∀ B, IsFileOwned st.config p = some B → B = A)
    (w : Bool) (st2 : EngineState)
    (h : handleFileWeavingOperation src st A A p = .ok (w, st2)) :
    st2.config = st.config ∧
    ∀ q, q ≠ p → diskLookup st2.disk q = diskLookup st.disk q := by
  unfold handleFileWeavingOperation at h
  cases hs : srcLookup src p with
  | none =>
    rw [hs] at h
    simp only [Except.ok.injEq, Prod.mk.injEq] at h
    rw [← h.2]
    exact ⟨rfl, fun q _ => rfl⟩
  | some e =>
    rw [hs] at h
    cases e with
    | dir =>
      simp only [Except.ok.injEq, Prod.mk.injEq] at h
      rw [← h.2]
      exact ⟨rfl, fun q _ => rfl⟩
    | file c =>
      rw [decideFileWeavingAction_self st A p hA howner] at h
      simp only [if_pos, Except.ok.injEq, Prod.mk.injEq] at h
      rw [← h.2]
      refine ⟨rfl, ?hq⟩
      intro q hq
      exact diskLookup_write_ne st.disk p c q hq

theorem weaveFilesLoop_self_frame (src : SourceTree) (A : String) (hA : A ≠ "") :
    ∀ (pairs : List (String × String)) (st : EngineState)
      (W0 : List (String × List String)) (st1 : EngineState) (W1 : List (String × List String)),
      (∀ pr ∈ pairs, ∀ B, IsFileOwned st.config (goJoin pr.1 pr.2) = some B → B = A) →
      weaveFilesLoop src A A pairs st W0 = .ok (st1, W1) →
      st1.config = st.config ∧
      ∀ q, (∀ pr ∈ pairs, q ≠ goJoin pr.1 pr.2) →
        diskLookup st1.disk q = diskLookup st.disk q
  | [], st, W0, st1, W1, _, h => by
    unfold weaveFilesLoop at h
    simp only [Except.ok.injEq, Prod.mk.injEq] at h
    rw [← h.1]
    exact ⟨rfl, fun q _ => rfl⟩
  | (d0, f0) :: rest, st, W0, st1, W1, hcand, h => by
    unfold weaveFilesLoop at h
    cases hop : handleFileWeavingOperation src st A A (goJoin d0 f0) with
    | error e => rw [hop] at h; exact absurd h (by simp)
    | ok res =>
      rw [hop] at h
      obtain ⟨wrote, st2⟩ := res
      simp only at h
      have hstep := handleFileWeavingOperation_self_frame src st A (goJoin d0 f0) hA
        (hcand (d0, f0) (by simp)) wrote st2 hop
      have hrest : ∀ pr ∈ rest, ∀ B,
          IsFileOwned st2.config (goJoin pr.1 pr.2) = some B → B = A := by
        intro pr hpr B hB
        rw [hstep.1] at hB
        exact hcand pr (List.mem_cons_of_mem _ hpr) B hB
      have hIH := weaveFilesLoop_self_frame src A hA rest st2 _ st1 W1 hrest h
      refine ⟨hIH.1.trans hstep.1, ?hq⟩
      intro q hq
      have h1 := hIH.2 q (fun pr hpr => hq pr (List.mem_cons_of_mem _ hpr))
      have h2 := hstep.2 q (hq (d0, f0) (by simp))
      exact h1.trans h2

theorem threadMatches_decomp (t : Thread) (p : String) (hwf : wfFilesMap t.files = true)
    (hm : threadMatchesPath t p = true) :
    ∃ d f, wfDirKey d = true ∧ isSimpleName f = true ∧ pathOf d f = p ∧
      ownsPair t d f = true := by
  obtain ⟨e, he, g, hg, hr⟩ := (threadMatchesPath_iff t p).mp hm
  obtain ⟨hkey, hsimple⟩ := wfFilesMap_entries t.files hwf e he
  rw [reconstruct_pathOf e.1 g hkey (hsimple g hg)] at hr
  exact ⟨e.1, g, hkey, hsimple g hg, hr,
    (ownsPair_iff t e.1 g).mpr ⟨e, he, normalizeDir_wfDirKey e.1 hkey, hg⟩⟩

theorem processWeavingForThread_some_eq (src : SourceTree) (st : EngineState) (i : Nat)
    (target : String)
    (hskip : ¬(target ≠ "" ∧ (st.config.threads.getD i default).name ≠ target)) :
    processWeavingForThread (some src) st i target =
      match weaveFilesLoop src (st.config.threads.getD i default).name target
          (flattenPairs (collectFilesToProcessForWeaving
            (st.config.threads.getD i default) src target)) st [] with
      | Except.error e => Except.error e
      | Except.ok (st2, written) =>
        Except.ok { st2 with config := setThreadFiles st2.config i written } := by
  show (if target ≠ "" ∧ (st.config.threads.getD i default).name ≠ target
      then Except.ok st
      else match weaveFilesLoop src (st.config.threads.getD i default).name target
          (flattenPairs (collectFilesToProcessForWeaving
            (st.config.threads.getD i default) src target)) st [] with
        | Except.error e => Except.error e
        | Except.ok (st2, written) =>
          Except.ok { st2 with config := setThreadFiles st2.config i written })
    = _
  rw [if_neg hskip]

theorem processWeavingForThread_skip (src? : Option SourceTree) (st : EngineState) (i : Nat)
    (target : String)
    (hc : target ≠ "" ∧ (st.config.threads.getD i default).name ≠ target) :
    processWeavingForThread src? st i target = .ok st := by
  cases src? with
  | none => exact processWeavingForThread_none st i target
  | some src =>
    show (if target ≠ "" ∧ (st.config.threads.getD i default).name ≠ target
        then Except.ok st
        else match weaveFilesLoop src (st.config.threads.getD i default).name target
            (flattenPairs (collectFilesToProcessForWeaving
              (st.config.threads.getD i default) src target)) st [] with
          | Except.error e => Except.error e
          | Except.ok (st2, written) =>
            Except.ok { st2 with config := setThreadFiles st2.config i written })
      = Except.ok st
    rw [if_pos hc]

theorem targeted_candidates_self (st : EngineState) (i : Nat) (A : String) (hA : A ≠ "")
    (hwf : wfConfig st.config = true) (hex : exclusive st.config = true)
    (hi : i < st.config.threads.length)
    (hname : (st.config.threads.getD i default).name = A) (src : SourceTree) :
    ∀ pr ∈ flattenPairs (collectFilesToProcessForWeaving
        (st.config.threads.getD i default) src A),
      (wfDirKey pr.1 = true ∧ isSimpleName pr.2 = true ∧
        ownsPair (st.config.threads.getD i default) pr.1 pr.2 = true) ∧
      ∀ B, IsFileOwned st.config (goJoin pr.1 pr.2) = some B → B = A := by
  intro pr hpr
  obtain ⟨d, f⟩ := pr
  have hmem : st.config.threads.getD i default ∈ st.config.threads := by
    rw [List.getD_eq_getElem _ default hi]
    exact List.getElem_mem hi
  have hwft : wfFilesMap (st.config.threads.getD i default).files = true :=
    wfConfig_files st.config hwf _ hmem
  have hcwf : wfFilesMap (collectFilesToProcessForWeaving
      (st.config.threads.getD i default) src A) = true :=
    collect_targeted_wf _ src A hA hname.symm hwft
  obtain ⟨hd, hf⟩ := flattenPairs_wf _ hcwf d f hpr
  have hpm := (mem_flattenPairs _ d f).mp hpr
  obtain ⟨e, he, hnd, hfm⟩ := (collect_targeted_mem _ src A hA hname.symm d f).mp hpm
  have hop : ownsPair (st.config.threads.getD i default) d f = true :=
    (ownsPair_iff _ d f).mpr ⟨e, he, hnd, hfm⟩
  refine ⟨⟨hd, hf, hop⟩, ?howner⟩
  intro B hB
  rw [goJoin_pathOf d f hd hf] at hB
  have hnm := ownsPair_name_of_isFileOwned_some st.config d f B hwf hex hd hf hB i hi hop
  rw [hname] at hnm
  exact hnm.symm

theorem processWeavingForThread_self_frame (src? : Option SourceTree) (st st1 : EngineState)
    (i : Nat) (A : String) (hA : A ≠ "") (hwf : wfConfig st.config = true)
    (hex : exclusive st.config = true) (hi : i < st.config.threads.length)
    (hname : (st.config.threads.getD i default).name = A)
    (h : processWeavingForThread src? st i A = .ok st1) :
    ∀ p B, IsFileOwned st.config p = some B → B ≠ A →
      diskLookup st1.disk p = diskLookup st.disk p ∧ IsFileOwned st1.config p = some B := by
  intro p B hown hBA
  cases src? with
  | none =>
    rw [processWeavingForThread_none st i A] at h
    simp only [Except.ok.injEq] at h
    rw [← h]
    exact ⟨rfl, hown⟩
  | some src =>
    have hskip : ¬(A ≠ "" ∧ (st.config.threads.getD i default).name ≠ A) :=
      fun hcc => hcc.2 hname
    rw [processWeavingForThread_some_eq src st i A hskip] at h
    cases hloop : weaveFilesLoop src (st.config.threads.getD i default).name A
        (flattenPairs (collectFilesToProcessForWeaving
          (st.config.threads.getD i default) src A)) st [] with
    | error e => rw [hloop] at h; exact absurd h (by simp)
    | ok res =>
      rw [hloop] at h
      obtain ⟨st2, W⟩ := res
      simp only [Except.ok.injEq] at h
      have hcand := targeted_candidates_self st i A hA hwf hex hi hname src
      rw [hname] at hloop
      have hframe := weaveFilesLoop_self_frame src A hA _ st [] st2 W
        (fun pr hpr B' hB' => (hcand pr hpr).2 B' hB') hloop
      have havoid : ∀ pr ∈ flattenPairs (collectFilesToProcessForWeaving
          (st.config.threads.getD i default) src A), p ≠ goJoin pr.1 pr.2 := by
        intro pr hpr hpe
        exact hBA ((hcand pr hpr).2 B (by rw [← hpe]; exact hown))
      refine ⟨?hdisk, ?hconf⟩
      case hdisk =>
        rw [← h]
        exact hframe.2 p havoid
      case hconf =>
        rw [← h]
        show IsFileOwned (setThreadFiles st2.config i W) p = some B
        rw [hframe.1]
        unfold IsFileOwned setThreadFiles
        have hold : i < st.config.threads.length →
            threadMatchesPath (st.config.threads.getD i default) p = false := by
          intro _
          by_cases hc : threadMatchesPath (st.config.threads.getD i default) p = true
          · exfalso
            have hmem : st.config.threads.getD i default ∈ st.config.threads := by
              rw [List.getD_eq_getElem _ default hi]
              exact List.getElem_mem hi
            obtain ⟨d, f, hd, hf, hpe, hop⟩ := threadMatches_decomp _ p
              (wfConfig_files st.config hwf _ hmem) hc
            rw [← hpe] at hown
            have hnm := ownsPair_name_of_isFileOwned_some st.config d f B hwf hex hd hf
              hown i hi hop
            rw [hname] at hnm
            exact hBA hnm.symm
          · simpa using hc
        have hnew : threadMatchesPath
            { st.config.threads.getD i default with files := W } p = false := by
          by_cases hc : threadMatchesPath
              { st.config.threads.getD i default with files := W } p = true
          · exfalso
            obtain ⟨e, he, g, hg, hr⟩ := (threadMatchesPath_iff _ p).mp hc
            have hpm : pairMem W e.1 g = true := (pairMem_iff W e.1 g).mpr ⟨e, he, rfl, hg⟩
            have hsub := weaveFilesLoop_written_sub src A A _ st [] st2 W hloop e.1 g hpm
            rcases hsub with hs | hs
            · exact absurd hs (by simp [pairMem])
            · have hc2 := (hcand (e.1, g) hs).1
              have hc3 := (hcand (e.1, g) hs).2
              rw [reconstruct_pathOf e.1 g hc2.1 hc2.2.1] at hr
              have hB2 : B = A := by
                apply hc3 B
                rw [goJoin_pathOf e.1 g hc2.1 hc2.2.1, hr]
                exact hown
              exact hBA hB2
          · simpa using hc
        rw [find?_set_of_pred_false (fun t => threadMatchesPath t p) st.config.threads i
          _ hold hnew]
        exact hown

theorem weaveGo_targeted_frame (srcs : Nat → Option SourceTree) (A : String) (hA : A ≠ "") :
    ∀ (idxs : List Nat) (found : Bool) (st out : EngineState) (fd : Bool),
      wfConfig st.config = true → exclusive st.config = true →
      (∀ i ∈ idxs, i < st.config.threads.length) →
      weaveGo srcs A idxs found st = .ok (out, fd) →
      ∀ p B, IsFileOwned st.config p = some B → B ≠ A →
        diskLookup out.disk p = diskLookup st.disk p ∧ IsFileOwned out.config p = some B
  | [], found, st, out, fd, _, _, _, h => by
    unfold weaveGo at h
    simp only [Except.ok.injEq, Prod.mk.injEq] at h
    intro p B hown hBA
    rw [← h.1]
    exact ⟨rfl, hown⟩
  | i :: rest, found, st, out, fd, hwf, hex, hidx, h => by
    intro p B hown hBA
    unfold weaveGo at h
    by_cases hni : (st.config.threads.getD i default).name = A
    · cases hop : processWeavingForThread (srcs i) st i A with
      | error e => rw [hop] at h; exact absurd h (by simp)
      | ok st1 =>
        rw [hop] at h
        simp only at h
        rw [if_pos ⟨hA, hni⟩] at h
        simp only [Except.ok.injEq, Prod.mk.injEq] at h
        have hframe := processWeavingForThread_self_frame (srcs i) st st1 i A hA hwf hex
          (hidx i (by simp)) hni hop p B hown hBA
        rw [← h.1]
        exact hframe
    · have hskip := processWeavingForThread_skip (srcs i) st i A ⟨hA, hni⟩
      rw [hskip] at h
      simp only at h
      rw [if_neg (fun hc => hni hc.2)] at h
      exact weaveGo_targeted_frame srcs A hA rest _ st out fd hwf hex
        (fun j hj => hidx j (List.mem_cons_of_mem _ hj)) h p B hown hBA

/-! ## Claim C3: the targeted-weave frame -/

/-- C3: under the manifest invariants (well-formed manifest, exclusive
ownership), a successful targeted weave of thread `A` never modifies any file
whose current owner is a thread `B` other than `A` — its disk content is
unchanged and `B` still owns it afterwards — regardless of what `A`'s source
tree contains (`srcs` is arbitrary). -/
theorem c3_targeted_frame (srcs : Nat → Option SourceTree) (A : String) (st out : EngineState)
    (hA : A ≠ "") (hwf : wfConfig st.config = true) (hex : exclusive st.config = true)
    (hrun : Weave srcs A st = .ok out) :
    ∀ p B, IsFileOwned st.config p = some B → B ≠ A →
      diskLookup out.disk p = diskLookup st.disk p ∧ IsFileOwned out.config p = some B := by
  intro p B hown hBA
  unfold Weave at hrun
  cases hgo : weaveGo srcs A (List.range st.config.threads.length) false st with
  | error e => rw [hgo] at hrun; exact absurd hrun (by simp)
  | ok res =>
    rw [hgo] at hrun
    obtain ⟨st1, found⟩ := res
    simp only at hrun
    by_cases hc : A ≠ "" ∧ found = false
    · rw [if_pos hc] at hrun
      exact absurd hrun (by simp)
    · rw [if_neg hc] at hrun
      simp only [Except.ok.injEq] at hrun
      rw [← hrun]
      exact weaveGo_targeted_frame srcs A hA (List.range st.config.threads.length) false st st1
        found hwf hex (fun i hi => List.mem_range.mp hi) hgo p B hown hBA

/-- Witness for C3 at a concrete project: `t1` owns `a.txt`, `t2` owns
`b.txt`, and `t2`'s source tree even provides an `a.txt` with new content; a
targeted weave of `t2` rewrites only `b.txt`, leaving `a.txt`'s content and
`t1`'s ownership of it untouched. -/
theorem c3_targeted_frame_witness :
    Weave (fun _ => some ⟨[("b.txt", SrcEntry.file "B2"), ("a.txt", SrcEntry.file "EVIL")]⟩)
        "t2"
        ⟨[("a.txt", "X"), ("b.txt", "Y")],
          ⟨"1", [⟨"t1", "s1", [("./", ["a.txt"])]⟩, ⟨"t2", "s2", [("./", ["b.txt"])]⟩]⟩, []⟩
      = .ok ⟨[("a.txt", "X"), ("b.txt", "B2")],
          ⟨"1", [⟨"t1", "s1", [("./", ["a.txt"])]⟩, ⟨"t2", "s2", [("./", ["b.txt"])]⟩]⟩, []⟩ ∧
    diskLookup [("a.txt", "X"), ("b.txt", "B2")] "a.txt"
      = diskLookup [("a.txt", "X"), ("b.txt", "Y")] "a.txt" ∧
    IsFileOwned ⟨"1", [⟨"t1", "s1", [("./", ["a.txt"])]⟩, ⟨"t2", "s2", [("./", ["b.txt"])]⟩]⟩
      "a.txt" = some "t1" :=
  ⟨rfl,
   c3_targeted_frame
     (fun _ => some ⟨[("b.txt", SrcEntry.file "B2"), ("a.txt", SrcEntry.file "EVIL")]⟩) "t2"
     ⟨[("a.txt", "X"), ("b.txt", "Y")],
       ⟨"1", [⟨"t1", "s1", [("./", ["a.txt"])]⟩, ⟨"t2", "s2", [("./", ["b.txt"])]⟩]⟩, []⟩
     ⟨[("a.txt", "X"), ("b.txt", "B2")],
       ⟨"1", [⟨"t1", "s1", [("./", ["a.txt"])]⟩, ⟨"t2", "s2", [("./", ["b.txt"])]⟩]⟩, []⟩
     (by decide) (by decide) (by decide) rfl "a.txt" "t1" (by decide) (by decide)⟩

/-! ## Lemma kit: structural preservation of exclusivity -/

theorem mem_updateFirstNamed (n : String) (u : Thread → Thread) :
    ∀ (l : List Thread) (t' : Thread), t' ∈ updateFirstNamed n u l →
      t' ∈ l ∨ ∃ t ∈ l, t' = u t
  | [], t', h => by simp [updateFirstNamed] at h
  | t :: rest, t', h => by
    unfold updateFirstNamed at h
    by_cases hn : t.name = n
    · rw [if_pos hn] at h
      rcases List.mem_cons.mp h with rfl | h2
      · exact Or.inr ⟨t, by simp, rfl⟩
      · exact Or.inl (List.mem_cons_of_mem t h2)
    · rw [if_neg hn] at h
      rcases List.mem_cons.mp h with rfl | h2
      · exact Or.inl (by simp)
      · rcases mem_updateFirstNamed n u rest t' h2 with h3 | ⟨t2, ht2, h3⟩
        · exact Or.inl (List.mem_cons_of_mem t h3)
        · exact Or.inr ⟨t2, List.mem_cons_of_mem t ht2, h3⟩

theorem exclusiveThreads_map_shrink (g : Thread → Thread)
    (hg : ∀ t nd f, ownsPair (g t) nd f = true → ownsPair t nd f = true)
    (l : List Thread) (h : exclusiveThreads l = true) :
    exclusiveThreads (l.map g) = true := by
  rw [exclusiveThreads_iff_pairwise] at h ⊢
  rw [List.pairwise_map]
  refine h.imp ?himp
  intro t v hR nd f hof
  by_cases hc : ownsPair (g v) nd f = true
  · have h2 := hg v nd f hc
    rw [hR nd f (hg t nd f hof)] at h2
    exact absurd h2 (by simp)
  · simpa using hc

theorem exclusiveThreads_updateFirst_gen (n : String) (u : Thread → Thread)
    (P : String → String → Prop)
    (hu : ∀ t nd f, ownsPair (u t) nd f = true → ownsPair t nd f = true ∨ P nd f) :
    ∀ l : List Thread, (l.map (·.name)).Nodup →
      exclusiveThreads l = true →
      (∀ t ∈ l, t.name ≠ n → ∀ nd f, P nd f → ownsPair t nd f = false) →
      exclusiveThreads (updateFirstNamed n u l) = true
  | [], _, _, _ => rfl
  | t :: rest, hnd, hex, hkill => by
    rw [List.map_cons, List.nodup_cons] at hnd
    rw [exclusiveThreads_iff_pairwise, List.pairwise_cons] at hex
    unfold updateFirstNamed
    by_cases hn : t.name = n
    · rw [if_pos hn]
      rw [exclusiveThreads_iff_pairwise, List.pairwise_cons]
      refine ⟨?hhead, hex.2⟩
      intro v hv nd f hof
      rcases hu t nd f hof with h1 | h1
      · exact hex.1 v hv nd f h1
      · have hvn : v.name ≠ n := by
          intro hvn
          exact hnd.1 (List.mem_map.mpr ⟨v, hv, by rw [hvn, hn]⟩)
        exact hkill v (List.mem_cons_of_mem t hv) hvn nd f h1
    · rw [if_neg hn]
      rw [exclusiveThreads_iff_pairwise, List.pairwise_cons]
      constructor
      · intro v' hv' nd f hof
        rcases mem_updateFirstNamed n u rest v' hv' with hm | ⟨v, hv, rfl⟩
        · exact hex.1 v' hm nd f hof
        · by_cases hc : ownsPair (u v) nd f = true
          · rcases hu v nd f hc with h1 | h1
            · have h2 := hex.1 v hv nd f hof
              rw [h2] at h1
              exact absurd h1 (by simp)
            · have h2 := hkill t (by simp) hn nd f h1
              rw [h2] at hof
              exact absurd hof (by simp)
          · simpa using hc
      · rw [← exclusiveThreads_iff_pairwise]
        exact exclusiveThreads_updateFirst_gen n u P hu rest hnd.2
          ((exclusiveThreads_iff_pairwise rest).mpr hex.2)
          (fun v hv => hkill v (List.mem_cons_of_mem t hv))

theorem exclusiveThreads_append_kill (l : List Thread) (tNew : Thread)
    (P : String → String → Prop)
    (hnew : ∀ nd f, ownsPair tNew nd f = true → P nd f)
    (hex : exclusiveThreads l = true)
    (hkill : ∀ t ∈ l, ∀ nd f, P nd f → ownsPair t nd f = false) :
    exclusiveThreads (l ++ [tNew]) = true := by
  rw [exclusiveThreads_iff_pairwise] at hex ⊢
  rw [List.pairwise_append]
  refine ⟨hex, List.pairwise_singleton _ _, ?hcross⟩
  intro t ht v hv nd f hof
  rcases List.mem_singleton.mp hv with rfl
  by_cases hc : ownsPair v nd f = true
  · have h1 := hkill t ht nd f (hnew nd f hc)
    rw [h1] at hof
    exact absurd hof (by simp)
  · simpa using hc

theorem getD_set_ne {α : Type} [Inhabited α] (l : List α) (i j : Nat) (a : α)
    (hij : i ≠ j) : (l.set i a).getD j default = l.getD j default := by
  rw [List.getD_eq_getElem?_getD, List.getD_eq_getElem?_getD, List.getElem?_set_ne hij]

theorem set_getD_self {α : Type} [Inhabited α] :
    ∀ (l : List α) (i : Nat), i < l.length → l.set i (l.getD i default) = l
  | [], i, h => by simp at h
  | a :: rest, 0, _ => rfl
  | a :: rest, i + 1, h => by
    rw [List.set_cons_succ]
    rw [show (a :: rest).getD (i + 1) default = rest.getD i default from rfl]
    rw [set_getD_self rest i (by simpa using h)]

theorem names_distinct (l : List Thread) (hnd : (l.map (·.name)).Nodup)
    (j k : Nat) (hj : j < l.length) (hk : k < l.length) (hjk : j ≠ k) :
    (l.getD j default).name ≠ (l.getD k default).name := by
  intro he
  have hj2 : j < (l.map (·.name)).length := by simpa using hj
  have hk2 : k < (l.map (·.name)).length := by simpa using hk
  have h1 : (l.map (·.name)).get ⟨j, hj2⟩ = (l.map (·.name)).get ⟨k, hk2⟩ := by
    rw [List.get_eq_getElem, List.get_eq_getElem, List.getElem_map, List.getElem_map]
    rw [← List.getD_eq_getElem l default hj, ← List.getD_eq_getElem l default hk]
    exact he
  have h2 := (List.Nodup.get_inj_iff hnd).mp h1
  rw [Fin.mk.injEq] at h2
  exact hjk h2

theorem ownedOnDisk_iff (lc : LoomConfig) (disk : List (String × String)) :
    ownedOnDisk lc disk = true ↔ ∀ t ∈ lc.threads, ∀ e ∈ t.files, ∀ f ∈ e.2,
      (diskLookup disk (pathOf e.1 f)).isSome = true := by
  unfold ownedOnDisk
  simp [List.all_eq_true]

/-! ## Lemma kit: invariants under manifest removals -/

theorem removeFileFromThreadManifest_eq (lc : LoomConfig) (B p : String) :
    removeFileFromThreadManifest lc B p =
      { lc with threads := (updateFirstNamed B
        (fun t => { t with files := (removeFileFromFilesMap t.files
          (normalizeDir (splitFileString p).1) (splitFileString p).2) }) lc.threads) } := rfl

theorem wfConfig_removeManifest (lc : LoomConfig) (B p : String)
    (h : wfConfig lc = true) :
    wfConfig (removeFileFromThreadManifest lc B p) = true := by
  rw [removeFileFromThreadManifest_eq]
  unfold wfConfig
  rw [Bool.and_eq_true]
  constructor
  · show decide ((updateFirstNamed B
      (fun t => { t with files := (removeFileFromFilesMap t.files
        (normalizeDir (splitFileString p).1) (splitFileString p).2) })
      lc.threads).map (fun x => x.name)).Nodup = true
    rw [updateFirstNamed_names B
      (fun t => { t with files := (removeFileFromFilesMap t.files
        (normalizeDir (splitFileString p).1) (splitFileString p).2) }) (fun t => rfl)]
    exact decide_eq_true (wfConfig_nodup_names lc h)
  · rw [List.all_eq_true]
    intro t' ht'
    rcases mem_updateFirstNamed _ _ lc.threads t' ht' with hm | ⟨t, ht, rfl⟩
    · exact wfConfig_files lc h t' hm
    · exact wfFilesMap_remove t.files _ _ (wfConfig_files lc h t ht)

theorem exclusive_removeManifest (lc : LoomConfig) (B p : String)
    (hnd : (lc.threads.map (·.name)).Nodup)
    (h : exclusive lc = true) :
    exclusive (removeFileFromThreadManifest lc B p) = true := by
  rw [removeFileFromThreadManifest_eq]
  show exclusiveThreads (updateFirstNamed B
    (fun t => { t with files := (removeFileFromFilesMap t.files
      (normalizeDir (splitFileString p).1) (splitFileString p).2) }) lc.threads) = true
  exact exclusiveThreads_updateFirst_gen B
    (fun t => { t with files := (removeFileFromFilesMap t.files
      (normalizeDir (splitFileString p).1) (splitFileString p).2) }) (fun _ _ => False)
    (fun t nd f hof => Or.inl (ownsPairF_remove_shrink t.files _ _ nd f hof))
    lc.threads hnd h (fun t _ _ nd f hP => absurd hP (fun hc => hc))

theorem ownedOnDisk_removeManifest (lc : LoomConfig) (B p : String)
    (disk : List (String × String)) (h : ownedOnDisk lc disk = true) :
    ownedOnDisk (removeFileFromThreadManifest lc B p) disk = true := by
  rw [ownedOnDisk_iff] at h ⊢
  intro t' ht' e' he' f hf
  rcases mem_updateFirstNamed _ _ lc.threads t' ht' with hm | ⟨t, ht, rfl⟩
  · exact h t' hm e' he' f hf
  · obtain ⟨e, he, h1, h2⟩ := mem_removeFileFromFilesMap _ _ t.files e' he'
    rw [h1]
    exact h t ht e he f (h2 f hf)

theorem ownsPair_getD_removeManifest_shrink (lc : LoomConfig) (B p : String)
    (j : Nat) (nd f : String)
    (h : ownsPair ((removeFileFromThreadManifest lc B p).threads.getD j default) nd f
      = true) :
    ownsPair (lc.threads.getD j default) nd f = true := by
  rcases updateFirstNamed_getD B
      (fun t => { t with files := (removeFileFromFilesMap t.files
        (normalizeDir (splitFileString p).1) (splitFileString p).2) })
      lc.threads j with h1 | ⟨h1, _⟩
  · rw [show (removeFileFromThreadManifest lc B p).threads
        = updateFirstNamed B (fun t => { t with files := (removeFileFromFilesMap t.files
          (normalizeDir (splitFileString p).1) (splitFileString p).2) }) lc.threads
        from rfl, h1] at h
    exact h
  · rw [show (removeFileFromThreadManifest lc B p).threads
        = updateFirstNamed B (fun t => { t with files := (removeFileFromFilesMap t.files
          (normalizeDir (splitFileString p).1) (splitFileString p).2) }) lc.threads
        from rfl, h1] at h
    exact ownsPairF_remove_shrink _ _ _ nd f h

theorem ownedOnDisk_write (lc : LoomConfig) (dk : List (String × String)) (p c : String)
    (h : ownedOnDisk lc dk = true) : ownedOnDisk lc (diskWrite dk p c) = true := by
  rw [ownedOnDisk_iff] at h ⊢
  intro t ht e he f hf
  exact diskLookup_write_isSome_mono dk p c _ (h t ht e he f hf)

theorem removeManifest_length (lc : LoomConfig) (B p : String) :
    (removeFileFromThreadManifest lc B p).threads.length = lc.threads.length := by
  rw [removeFileFromThreadManifest_eq]
  exact updateFirstNamed_length B _ lc.threads

theorem kill_of_isFileOwned_A (lc : LoomConfig) (A d f : String)
    (hwf : wfConfig lc = true) (hex : exclusive lc = true)
    (hd : wfDirKey d = true) (hf : isSimpleName f = true)
    (hfo : IsFileOwned lc (pathOf d f) = some A) :
    ∀ j, j < lc.threads.length → (lc.threads.getD j default).name ≠ A →
      ownsPair (lc.threads.getD j default) d f = false := by
  intro j hj hn
  by_cases hc : ownsPair (lc.threads.getD j default) d f = true
  · exact absurd (ownsPair_name_of_isFileOwned_some lc d f A hwf hex hd hf hfo j hj hc) hn
  · simpa using hc

theorem kill_of_disk_absent (lc : LoomConfig) (disk : List (String × String)) (d f : String)
    (hwf : wfConfig lc = true) (hod : ownedOnDisk lc disk = true)
    (habs : (diskLookup disk (pathOf d f)).isSome = false) :
    ∀ j, j < lc.threads.length →
      ownsPair (lc.threads.getD j default) d f = false := by
  intro j hj
  by_cases hc : ownsPair (lc.threads.getD j default) d f = true
  · exfalso
    have hmem : lc.threads.getD j default ∈ lc.threads := by
      rw [List.getD_eq_getElem _ default hj]
      exact List.getElem_mem hj
    obtain ⟨e, he, hnd, hfm⟩ := (ownsPair_iff _ d f).mp hc
    have hkey := (wfFilesMap_entries _ (wfConfig_files lc hwf _ hmem) e he).1
    have he1 : e.1 = d := by rw [← hnd, normalizeDir_wfDirKey e.1 hkey]
    have hsome := (ownedOnDisk_iff lc disk).mp hod _ hmem e he f hfm
    rw [he1] at hsome
    rw [hsome] at habs
    exact absurd habs (by simp)
  · simpa using hc

theorem kill_after_removeManifest (lc : LoomConfig) (B d f : String)
    (hwf : wfConfig lc = true) (hex : exclusive lc = true)
    (hd : wfDirKey d = true) (hf : isSimpleName f = true)
    (hfo : IsFileOwned lc (pathOf d f) = some B) :
    ∀ j, j < lc.threads.length →
      ownsPair ((removeFileFromThreadManifest lc B (pathOf d f)).threads.getD j default) d f
        = false := by
  intro j hj
  have hsplit := normalizeDir_split_pathOf d f hd hf
  have hrw : (removeFileFromThreadManifest lc B (pathOf d f)).threads
      = updateFirstNamed B
          (fun t => { t with files := (removeFileFromFilesMap t.files d f) }) lc.threads := by
    rw [removeFileFromThreadManifest_eq]
    show updateFirstNamed B
        (fun t => { t with files := (removeFileFromFilesMap t.files
          (normalizeDir (splitFileString (pathOf d f)).1)
          ((splitFileString (pathOf d f)).2)) }) lc.threads = _
    rw [hsplit.1, hsplit.2]
  rw [hrw]
  have hmem : lc.threads.getD j default ∈ lc.threads := by
    rw [List.getD_eq_getElem _ default hj]
    exact List.getElem_mem hj
  by_cases hb : (lc.threads.getD j default).name = B
  · rw [updateFirstNamed_getD_hit B _ lc.threads j (wfConfig_nodup_names lc hwf) hj hb]
    show ownsPairF (removeFileFromFilesMap (lc.threads.getD j default).files d f) d f = false
    apply ownsPairF_remove_kill
    intro e he
    exact normalizeDir_wfDirKey e.1
      (wfFilesMap_entries _ (wfConfig_files lc hwf _ hmem) e he).1
  · rw [updateFirstNamed_getD_ne B _ lc.threads j hb]
    by_cases hc : ownsPair (lc.threads.getD j default) d f = true
    · exact absurd (ownsPair_name_of_isFileOwned_some lc d f B hwf hex hd hf hfo j hj hc) hb
    · simpa using hc

theorem handleFileConflictUnowned_disk (st : EngineState) (A target : String) (b : Bool)
    (st1 : EngineState) (h : handleFileConflictUnowned st A target = .ok (b, st1)) :
    st1.disk = st.disk := by
  unfold handleFileConflictUnowned promptDecide at h
  repeat' split at h
  all_goals simp_all
  all_goals rw [← h.2]

theorem decideFileWeavingAction_inv (st : EngineState) (A target d f : String)
    (hwf : wfConfig st.config = true) (hex : exclusive st.config = true)
    (hod : ownedOnDisk st.config st.disk = true)
    (hd : wfDirKey d = true) (hf : isSimpleName f = true)
    (w : Bool) (st1 : EngineState)
    (h : decideFileWeavingAction st A target (pathOf d f) = .ok (w, st1)) :
    st1.disk = st.disk ∧
    (st1.config = st.config ∨
      ∃ B, st1.config = removeFileFromThreadManifest st.config B (pathOf d f)) ∧
    (w = true → ∀ j, j < st1.config.threads.length →
      (st1.config.threads.getD j default).name ≠ A →
      ownsPair (st1.config.threads.getD j default) d f = false) := by
  unfold decideFileWeavingAction at h
  by_cases hdisk : (diskLookup st.disk (pathOf d f)).isSome = true
  · rw [if_pos hdisk] at h
    cases ho : IsFileOwned st.config (pathOf d f) with
    | some owner =>
      rw [ho] at h
      simp only at h
      by_cases hoA : owner = A
      · rw [if_neg (not_not_intro hoA)] at h
        simp only [Except.ok.injEq, Prod.mk.injEq] at h
        refine ⟨by rw [← h.2], Or.inl (by rw [← h.2]), ?hk1⟩
        intro _ j hj hn
        rw [← h.2] at hj hn ⊢
        rw [← hoA] at hn
        exact kill_of_isFileOwned_A st.config owner d f hwf hex hd hf ho j hj hn
      · rw [if_pos hoA] at h
        unfold handleFileConflictOwnedByOther at h
        by_cases ht1 : target = ""
        · rw [if_pos ht1] at h
          cases hp : promptDecide st.decisions with
          | error e => rw [hp] at h; exact absurd h (by simp)
          | ok pr =>
            rw [hp] at h
            obtain ⟨choice, rest⟩ := pr
            simp only at h
            by_cases hy : choice = Answer.yes
            · rw [if_pos hy] at h
              simp only [Except.ok.injEq, Prod.mk.injEq] at h
              refine ⟨by rw [← h.2], Or.inr ⟨owner, by rw [← h.2]⟩, ?hk2⟩
              intro _ j hj hn
              rw [← h.2] at hj ⊢
              have hj2 : j < (removeFileFromThreadManifest st.config owner
                  (pathOf d f)).threads.length := hj
              rw [removeManifest_length] at hj2
              exact kill_after_removeManifest st.config owner d f hwf hex hd hf ho j hj2
            · rw [if_neg hy] at h
              simp only [Except.ok.injEq, Prod.mk.injEq] at h
              refine ⟨by rw [← h.2], Or.inl (by rw [← h.2]), ?hk3⟩
              intro hw
              rw [← h.1] at hw
              exact absurd hw (by simp)
        · rw [if_neg ht1] at h
          by_cases ht2 : target = A
          · rw [if_pos ht2] at h
            simp only [Except.ok.injEq, Prod.mk.injEq] at h
            refine ⟨by rw [← h.2], Or.inr ⟨owner, by rw [← h.2]⟩, ?hk4⟩
            intro _ j hj hn
            rw [← h.2] at hj ⊢
            have hj2 : j < (removeFileFromThreadManifest st.config owner
                (pathOf d f)).threads.length := hj
            rw [removeManifest_length] at hj2
            exact kill_after_removeManifest st.config owner d f hwf hex hd hf ho j hj2
          · rw [if_neg ht2] at h
            simp only [Except.ok.injEq, Prod.mk.injEq] at h
            refine ⟨by rw [← h.2], Or.inl (by rw [← h.2]), ?hk5⟩
            intro hw
            rw [← h.1] at hw
            exact absurd hw (by simp)
    | none =>
      rw [ho] at h
      have hcfg := handleFileConflictUnowned_config st A target w st1 h
      have hdk := handleFileConflictUnowned_disk st A target w st1 h
      refine ⟨hdk, Or.inl hcfg, ?hk6⟩
      intro _ j hj hn
      rw [hcfg] at hj ⊢
      exact ownsPair_false_of_isFileOwned_none st.config d f hwf hd hf ho j hj
  · rw [if_neg hdisk] at h
    simp only [Except.ok.injEq, Prod.mk.injEq] at h
    refine ⟨by rw [← h.2], Or.inl (by rw [← h.2]), ?hk7⟩
    intro _ j hj _
    rw [← h.2] at hj ⊢
    exact kill_of_disk_absent st.config st.disk d f hwf hod
      ((Bool.eq_false_iff).mpr hdisk) j hj

theorem handleFileWeavingOperation_inv (src : SourceTree) (st : EngineState)
    (A target d f : String)
    (hwf : wfConfig st.config = true) (hex : exclusive st.config = true)
    (hod : ownedOnDisk st.config st.disk = true)
    (hd : wfDirKey d = true) (hf : isSimpleName f = true)
    (w : Bool) (st2 : EngineState)
    (h : handleFileWeavingOperation src st A target (goJoin d f) = .ok (w, st2)) :
    wfConfig st2.config = true ∧ exclusive st2.config = true ∧
    ownedOnDisk st2.config st2.disk = true ∧
    (∀ q, (diskLookup st.disk q).isSome = true → (diskLookup st2.disk q).isSome = true) ∧
    (∀ j nd' f', ownsPair (st2.config.threads.getD j default) nd' f' = true →
      ownsPair (st.config.threads.getD j default) nd' f' = true) ∧
    (w = true → (diskLookup st2.disk (pathOf d f)).isSome = true ∧
      ∀ j, j < st2.config.threads.length →
        (st2.config.threads.getD j default).name ≠ A →
        ownsPair (st2.config.threads.getD j default) d f = false) := by
  rw [goJoin_pathOf d f hd hf] at h
  unfold handleFileWeavingOperation at h
  cases hs : srcLookup src (pathOf d f) with
  | none =>
    rw [hs] at h
    simp only [Except.ok.injEq, Prod.mk.injEq] at h
    obtain ⟨hw, hst⟩ := h
    rw [← hst]
    refine ⟨hwf, hex, hod, fun q hq => hq, fun j nd' f' hp => hp, ?hv⟩
    intro hw2
    rw [← hw] at hw2
    exact absurd hw2 (by simp)
  | some e =>
    rw [hs] at h
    cases e with
    | dir =>
      simp only [Except.ok.injEq, Prod.mk.injEq] at h
      obtain ⟨hw, hst⟩ := h
      rw [← hst]
      refine ⟨hwf, hex, hod, fun q hq => hq, fun j nd' f' hp => hp, ?hv2⟩
      intro hw2
      rw [← hw] at hw2
      exact absurd hw2 (by simp)
    | file c =>
      cases hdec : decideFileWeavingAction st A target (pathOf d f) with
      | error e2 => rw [hdec] at h; exact absurd h (by simp)
      | ok pr =>
        rw [hdec] at h
        obtain ⟨sw, st3⟩ := pr
        obtain ⟨hdk3, hcfg3, hkill3⟩ :=
          decideFileWeavingAction_inv st A target d f hwf hex hod hd hf sw st3 hdec
        have hwf3 : wfConfig st3.config = true := by
          rcases hcfg3 with hsame | ⟨B, hrem⟩
          · rw [hsame]; exact hwf
          · rw [hrem]; exact wfConfig_removeManifest st.config B _ hwf
        have hex3 : exclusive st3.config = true := by
          rcases hcfg3 with hsame | ⟨B, hrem⟩
          · rw [hsame]; exact hex
          · rw [hrem]
            exact exclusive_removeManifest st.config B _ (wfConfig_nodup_names st.config hwf) hex
        have hod3 : ownedOnDisk st3.config st3.disk = true := by
          rw [hdk3]
          rcases hcfg3 with hsame | ⟨B, hrem⟩
          · rw [hsame]; exact hod
          · rw [hrem]; exact ownedOnDisk_removeManifest st.config B _ st.disk hod
        have hshr3 : ∀ j nd' f', ownsPair (st3.config.threads.getD j default) nd' f' = true →
            ownsPair (st.config.threads.getD j default) nd' f' = true := by
          intro j nd' f' hp
          rcases hcfg3 with hsame | ⟨B, hrem⟩
          · rw [hsame] at hp; exact hp
          · rw [hrem] at hp
            exact ownsPair_getD_removeManifest_shrink st.config B _ j nd' f' hp
        simp only at h
        by_cases hsw : sw = true
        · rw [if_pos hsw] at h
          simp only [Except.ok.injEq, Prod.mk.injEq] at h
          obtain ⟨hw, hst⟩ := h
          rw [← hst]
          refine ⟨hwf3, hex3, ?hod2, ?hmono2, hshr3, ?hv3⟩
          case hod2 =>
            exact ownedOnDisk_write st3.config st3.disk (pathOf d f) c hod3
          case hmono2 =>
            intro q hq
            show (diskLookup (diskWrite st3.disk (pathOf d f) c) q).isSome = true
            rw [hdk3]
            exact diskLookup_write_isSome_mono st.disk (pathOf d f) c q hq
          case hv3 =>
            intro _
            constructor
            · rw [diskLookup_write_self]
              rfl
            · exact hkill3 hsw
        · rw [if_neg hsw] at h
          simp only [Except.ok.injEq, Prod.mk.injEq] at h
          obtain ⟨hw, hst⟩ := h
          rw [← hst]
          refine ⟨hwf3, hex3, hod3, ?hmono3, hshr3, ?hv4⟩
          case hmono3 =>
            intro q hq
            rw [hdk3]
            exact hq
          case hv4 =>
            intro hw2
            rw [← hw] at hw2
            exact absurd (hw2.symm.trans (Bool.eq_false_iff.mpr hsw).symm) (by simp_all)

theorem getD_name_eq_of_names_eq (l l' : List Thread)
    (h : l'.map (·.name) = l.map (·.name)) (j : Nat) :
    (l'.getD j default).name = (l.getD j default).name := by
  have h2 := congrArg (fun xs : List String => xs[j]?) h
  simp only [List.getElem?_map] at h2
  rw [List.getD_eq_getElem?_getD, List.getD_eq_getElem?_getD]
  cases h3 : l'[j]? with
  | none =>
    rw [h3] at h2
    cases h4 : l[j]? with
    | none => rfl
    | some t => rw [h4] at h2; simp at h2
  | some t' =>
    rw [h3] at h2
    cases h4 : l[j]? with
    | none => rw [h4] at h2; simp at h2
    | some t =>
      rw [h4] at h2
      simp only [Option.map_some', Option.some.injEq] at h2
      simpa using h2

theorem kill_transfer (stc stc' : LoomConfig) (A d f : String)
    (hnames : stc'.threads.map (·.name) = stc.threads.map (·.name))
    (hshrink : ∀ j nd' f', ownsPair (stc'.threads.getD j default) nd' f' = true →
      ownsPair (stc.threads.getD j default) nd' f' = true)
    (hkill : ∀ j, j < stc.threads.length → (stc.threads.getD j default).name ≠ A →
      ownsPair (stc.threads.getD j default) d f = false) :
    ∀ j, j < stc'.threads.length → (stc'.threads.getD j default).name ≠ A →
      ownsPair (stc'.threads.getD j default) d f = false := by
  intro j hj hn
  have hlen : stc'.threads.length = stc.threads.length := by
    have h5 := congrArg List.length hnames
    simpa using h5
  have hnm := getD_name_eq_of_names_eq stc.threads stc'.threads hnames j
  by_cases hc : ownsPair (stc'.threads.getD j default) d f = true
  · have h1 := hshrink j d f hc
    have h2 := hkill j (hlen ▸ hj) (by rw [← hnm]; exact hn)
    rw [h2] at h1
    exact absurd h1 (by simp)
  · simpa using hc

theorem weaveFilesLoop_inv (src : SourceTree) (A target : String) :
    ∀ (pairs : List (String × String)) (st : EngineState)
      (W0 : List (String × List String)) (st1 : EngineState)
      (W1 : List (String × List String)),
      wfConfig st.config = true → exclusive st.config = true →
      ownedOnDisk st.config st.disk = true →
      (∀ pr ∈ pairs, wfDirKey pr.1 = true ∧ isSimpleName pr.2 = true) →
      wfFilesMap W0 = true →
      (∀ d f, pairMem W0 d f = true →
        (diskLookup st.disk (pathOf d f)).isSome = true ∧
        ∀ j, j < st.config.threads.length →
          (st.config.threads.getD j default).name ≠ A →
          ownsPair (st.config.threads.getD j default) d f = false) →
      weaveFilesLoop src A target pairs st W0 = .ok (st1, W1) →
      wfConfig st1.config = true ∧ exclusive st1.config = true ∧
      ownedOnDisk st1.config st1.disk = true ∧
      st1.config.threads.map (·.name) = st.config.threads.map (·.name) ∧
      wfFilesMap W1 = true ∧
      (∀ d f, pairMem W1 d f = true →
        (diskLookup st1.disk (pathOf d f)).isSome = true ∧
        ∀ j, j < st1.config.threads.length →
          (st1.config.threads.getD j default).name ≠ A →
          ownsPair (st1.config.threads.getD j default) d f = false)
  | [], st, W0, st1, W1, hwf, hex, hod, _, hW0, hWinv, h => by
    unfold weaveFilesLoop at h
    simp only [Except.ok.injEq, Prod.mk.injEq] at h
    obtain ⟨h1, h2⟩ := h
    rw [← h1, ← h2]
    exact ⟨hwf, hex, hod, rfl, hW0, hWinv⟩
  | (d0, f0) :: rest, st, W0, st1, W1, hwf, hex, hod, hpairs, hW0, hWinv, h => by
    unfold weaveFilesLoop at h
    cases hop : handleFileWeavingOperation src st A target (goJoin d0 f0) with
    | error e => rw [hop] at h; exact absurd h (by simp)
    | ok res =>
      rw [hop] at h
      obtain ⟨wrote, st2⟩ := res
      simp only at h
      obtain ⟨hd0, hf0⟩ := hpairs (d0, f0) (by simp)
      obtain ⟨hwf2, hex2, hod2, hmono2, hshr2, hkill2⟩ :=
        handleFileWeavingOperation_inv src st A target d0 f0 hwf hex hod hd0 hf0
          wrote st2 hop
      have hnames2 := handleFileWeavingOperation_names src st A target (goJoin d0 f0)
        wrote st2 hop
      have hWinv2 : ∀ d f,
          pairMem (if wrote = true then addToMultimap W0 d0 [f0] else W0) d f = true →
          (diskLookup st2.disk (pathOf d f)).isSome = true ∧
          ∀ j, j < st2.config.threads.length →
            (st2.config.threads.getD j default).name ≠ A →
            ownsPair (st2.config.threads.getD j default) d f = false := by
        intro d f hm
        have hold : pairMem W0 d f = true →
            (diskLookup st2.disk (pathOf d f)).isSome = true ∧
            ∀ j, j < st2.config.threads.length →
              (st2.config.threads.getD j default).name ≠ A →
              ownsPair (st2.config.threads.getD j default) d f = false := by
          intro hm0
          obtain ⟨hdk0, hkl0⟩ := hWinv d f hm0
          exact ⟨hmono2 _ hdk0, kill_transfer st.config st2.config A d f hnames2 hshr2 hkl0⟩
        by_cases hwr : wrote = true
        · rw [if_pos hwr] at hm
          rcases (pairMem_addToMultimap W0 d0 [f0] d f).mp hm with hm0 | ⟨hdd, hff⟩
          · exact hold hm0
          · rcases List.mem_singleton.mp hff with rfl
            rw [hdd]
            exact hkill2 hwr
        · rw [if_neg hwr] at hm
          exact hold hm
      have hW0' : wfFilesMap (if wrote = true then addToMultimap W0 d0 [f0] else W0)
          = true := by
        by_cases hwr : wrote = true
        · rw [if_pos hwr]
          refine wfFilesMap_addToMultimap W0 d0 [f0] hW0 hd0 ?hv
          intro v hv
          rcases List.mem_singleton.mp hv with rfl
          exact hf0
        · rw [if_neg hwr]
          exact hW0
      obtain ⟨hwf1, hex1, hod1, hnames1, hW1, hWinv1⟩ :=
        weaveFilesLoop_inv src A target rest st2 _ st1 W1 hwf2 hex2 hod2
          (fun pr hpr => hpairs pr (List.mem_cons_of_mem _ hpr)) hW0' hWinv2 h
      exact ⟨hwf1, hex1, hod1, hnames1.trans hnames2, hW1, hWinv1⟩

theorem getD_map_name (l : List Thread) (i : Nat) :
    (l.map (·.name)).getD i default = (l.getD i default).name := by
  rw [List.getD_eq_getElem?_getD, List.getD_eq_getElem?_getD, List.getElem?_map]
  cases l[i]? <;> rfl

theorem setThreadFiles_eq (lc : LoomConfig) (i : Nat) (W : List (String × List String)) :
    (setThreadFiles lc i W).threads
      = lc.threads.set i { lc.threads.getD i default with files := W } := rfl

theorem setThreadFiles_inv (lc : LoomConfig) (i : Nat) (W : List (String × List String))
    (A : String)
    (hwf : wfConfig lc = true) (hex : exclusive lc = true)
    (hi : i < lc.threads.length)
    (hnameA : (lc.threads.getD i default).name = A)
    (hW : wfFilesMap W = true)
    (hkill : ∀ d f, pairMem W d f = true →
      ∀ j, j < lc.threads.length → (lc.threads.getD j default).name ≠ A →
        ownsPair (lc.threads.getD j default) d f = false) :
    wfConfig (setThreadFiles lc i W) = true ∧ exclusive (setThreadFiles lc i W) = true ∧
    (setThreadFiles lc i W).threads.map (·.name) = lc.threads.map (·.name) := by
  have hnset : (lc.threads.set i
      { lc.threads.getD i default with files := W }).map (·.name)
      = lc.threads.map (·.name) := by
    rw [List.map_set]
    rw [show ({ lc.threads.getD i default with files := W } : Thread).name
      = (lc.threads.map (·.name)).getD i default from (getD_map_name lc.threads i).symm]
    exact set_getD_self _ i (by simpa using hi)
  refine ⟨?hwfc, ?hexc, ?hnames⟩
  case hnames =>
    rw [setThreadFiles_eq]
    exact hnset
  case hwfc =>
    unfold wfConfig
    rw [Bool.and_eq_true]
    constructor
    · rw [setThreadFiles_eq, hnset]
      exact decide_eq_true (wfConfig_nodup_names lc hwf)
    · rw [List.all_eq_true]
      intro t' ht'
      rw [setThreadFiles_eq] at ht'
      rcases List.mem_or_eq_of_mem_set ht' with hm | rfl
      · exact wfConfig_files lc hwf t' hm
      · exact hW
  case hexc =>
    show exclusiveThreads (lc.threads.set i
      { lc.threads.getD i default with files := W }) = true
    apply exclusive_of_idx
    intro j k hj hk hjk nd f how
    rw [List.length_set] at hj hk
    by_cases hji : j = i
    · subst hji
      rw [getD_set_self lc.threads j _ hj] at how
      have hpm : pairMem W nd f = true := by
        rw [← ownsPairF_eq_pairMem W nd f hW]
        exact how
      rw [getD_set_ne lc.threads j k _ (fun he => hjk he)]
      apply hkill nd f hpm k hk
      have hnk := names_distinct lc.threads (wfConfig_nodup_names lc hwf) k j hk hj
        (Ne.symm hjk)
      rw [hnameA] at hnk
      exact hnk
    · rw [getD_set_ne lc.threads i j _ (fun he => hji he.symm)] at how
      by_cases hki : k = i
      · subst hki
        rw [getD_set_self lc.threads k _ hk]
        by_cases hc : ownsPair { lc.threads.getD k default with files := W } nd f = true
        · exfalso
          have hpm : pairMem W nd f = true := by
            rw [← ownsPairF_eq_pairMem W nd f hW]
            exact hc
          have hnj := names_distinct lc.threads (wfConfig_nodup_names lc hwf) j k hj hk hjk
          rw [hnameA] at hnj
          have h2 := hkill nd f hpm j hj hnj
          rw [h2] at how
          exact absurd how (by simp)
        · simpa using hc
      · rw [getD_set_ne lc.threads i k _ (fun he => hki he.symm)]
        exact exclusive_idx lc.threads hex j k hj hk hjk nd f how

theorem setThreadFiles_ownedOnDisk (lc : LoomConfig) (i : Nat)
    (W : List (String × List String)) (disk : List (String × String))
    (hod : ownedOnDisk lc disk = true)
    (hWdisk : ∀ d f, pairMem W d f = true →
      (diskLookup disk (pathOf d f)).isSome = true) :
    ownedOnDisk (setThreadFiles lc i W) disk = true := by
  rw [ownedOnDisk_iff]
  intro t' ht' e he f hf
  rw [setThreadFiles_eq] at ht'
  rcases List.mem_or_eq_of_mem_set ht' with hm | rfl
  · exact (ownedOnDisk_iff lc disk).mp hod t' hm e he f hf
  · exact hWdisk e.1 f ((pairMem_iff W e.1 f).mpr ⟨e, he, rfl, hf⟩)

theorem processWeavingForThread_inv (src? : Option SourceTree) (st st1 : EngineState)
    (i : Nat) (target : String)
    (hwf : wfConfig st.config = true) (hex : exclusive st.config = true)
    (hod : ownedOnDisk st.config st.disk = true)
    (hsrc : ∀ s, src? = some s → wfSourceTree s = true)
    (hi : i < st.config.threads.length)
    (h : processWeavingForThread src? st i target = .ok st1) :
    wfConfig st1.config = true ∧ exclusive st1.config = true ∧
    ownedOnDisk st1.config st1.disk = true ∧
    st1.config.threads.map (·.name) = st.config.threads.map (·.name) := by
  by_cases hskip : target ≠ "" ∧ (st.config.threads.getD i default).name ≠ target
  · rw [processWeavingForThread_skip src? st i target hskip] at h
    simp only [Except.ok.injEq] at h
    rw [← h]
    exact ⟨hwf, hex, hod, rfl⟩
  · cases src? with
    | none =>
      rw [processWeavingForThread_none st i target] at h
      simp only [Except.ok.injEq] at h
      rw [← h]
      exact ⟨hwf, hex, hod, rfl⟩
    | some src =>
      rw [processWeavingForThread_some_eq src st i target hskip] at h
      cases hloop : weaveFilesLoop src (st.config.threads.getD i default).name target
          (flattenPairs (collectFilesToProcessForWeaving
            (st.config.threads.getD i default) src target)) st [] with
      | error e => rw [hloop] at h; exact absurd h (by simp)
      | ok res =>
        rw [hloop] at h
        obtain ⟨st2, W⟩ := res
        simp only [Except.ok.injEq] at h
        have hmem : st.config.threads.getD i default ∈ st.config.threads := by
          rw [List.getD_eq_getElem _ default hi]
          exact List.getElem_mem hi
        have hwft := wfConfig_files st.config hwf _ hmem
        have hcolwf : wfFilesMap (collectFilesToProcessForWeaving
            (st.config.threads.getD i default) src target) = true :=
          collect_wf _ src target (hsrc src rfl) hwft
        have hpairs : ∀ pr ∈ flattenPairs (collectFilesToProcessForWeaving
            (st.config.threads.getD i default) src target),
            wfDirKey pr.1 = true ∧ isSimpleName pr.2 = true := by
          intro pr hpr
          obtain ⟨d, f⟩ := pr
          exact flattenPairs_wf _ hcolwf d f hpr
        obtain ⟨hwf2, hex2, hod2, hnames2, hW, hWinv⟩ :=
          weaveFilesLoop_inv src (st.config.threads.getD i default).name target _ st []
            st2 W hwf hex hod hpairs (by decide)
            (fun d f hm => absurd hm (by simp [pairMem])) hloop
        have hlen2 : st2.config.threads.length = st.config.threads.length := by
          have h5 := congrArg List.length hnames2
          simpa using h5
        have hi2 : i < st2.config.threads.length := by rw [hlen2]; exact hi
        have hnameA : (st2.config.threads.getD i default).name
            = (st.config.threads.getD i default).name :=
          getD_name_eq_of_names_eq st.config.threads st2.config.threads hnames2 i
        obtain ⟨hwfS, hexS, hnamesS⟩ := setThreadFiles_inv st2.config i W
          (st.config.threads.getD i default).name hwf2 hex2 hi2 hnameA hW
          (fun d f hm => (hWinv d f hm).2)
        rw [← h]
        refine ⟨hwfS, hexS, ?hodS, hnamesS.trans hnames2⟩
        exact setThreadFiles_ownedOnDisk st2.config i W st2.disk hod2
          (fun d f hm => (hWinv d f hm).1)

theorem weaveGo_inv (srcs : Nat → Option SourceTree) (target : String)
    (hsrcs : ∀ i s, srcs i = some s → wfSourceTree s = true) :
    ∀ (idxs : List Nat) (found : Bool) (st out : EngineState) (fd : Bool),
      wfConfig st.config = true → exclusive st.config = true →
      ownedOnDisk st.config st.disk = true →
      (∀ i ∈ idxs, i < st.config.threads.length) →
      weaveGo srcs target idxs found st = .ok (out, fd) →
      wfConfig out.config = true ∧ exclusive out.config = true ∧
      ownedOnDisk out.config out.disk = true
  | [], found, st, out, fd, hwf, hex, hod, _, h => by
    unfold weaveGo at h
    simp only [Except.ok.injEq, Prod.mk.injEq] at h
    rw [← h.1]
    exact ⟨hwf, hex, hod⟩
  | i :: rest, found, st, out, fd, hwf, hex, hod, hidx, h => by
    unfold weaveGo at h
    cases hop : processWeavingForThread (srcs i) st i target with
    | error e => rw [hop] at h; exact absurd h (by simp)
    | ok st1 =>
      rw [hop] at h
      simp only at h
      obtain ⟨hwf1, hex1, hod1, hnames1⟩ := processWeavingForThread_inv (srcs i) st st1 i
        target hwf hex hod (fun s hs => hsrcs i s hs) (hidx i (by simp)) hop
      have hlen1 : st1.config.threads.length = st.config.threads.length := by
        have h5 := congrArg List.length hnames1
        simpa using h5
      by_cases hc : target ≠ "" ∧ (st.config.threads.getD i default).name = target
      · rw [if_pos hc] at h
        simp only [Except.ok.injEq, Prod.mk.injEq] at h
        rw [← h.1]
        exact ⟨hwf1, hex1, hod1⟩
      · rw [if_neg hc] at h
        exact weaveGo_inv srcs target hsrcs rest _ st1 out fd hwf1 hex1 hod1
          (fun j hj => by rw [hlen1]; exact hidx j (List.mem_cons_of_mem _ hj)) h

theorem Weave_inv (srcs : Nat → Option SourceTree) (target : String) (st out : EngineState)
    (hwf : wfConfig st.config = true) (hex : exclusive st.config = true)
    (hod : ownedOnDisk st.config st.disk = true)
    (hsrcs : ∀ i s, srcs i = some s → wfSourceTree s = true)
    (h : Weave srcs target st = .ok out) :
    wfConfig out.config = true ∧ exclusive out.config = true ∧
    ownedOnDisk out.config out.disk = true := by
  unfold Weave at h
  cases hgo : weaveGo srcs target (List.range st.config.threads.length) false st with
  | error e => rw [hgo] at h; exact absurd h (by simp)
  | ok res =>
    rw [hgo] at h
    obtain ⟨st1, found⟩ := res
    simp only at h
    by_cases hc : target ≠ "" ∧ found = false
    · rw [if_pos hc] at h
      exact absurd h (by simp)
    · rw [if_neg hc] at h
      simp only [Except.ok.injEq] at h
      rw [← h]
      exact weaveGo_inv srcs target hsrcs (List.range st.config.threads.length) false st st1
        found hwf hex hod (fun i hi => List.mem_range.mp hi) hgo

/-! ## Lemma kit: exclusivity through the add-side manifest update -/

theorem removeFileFromOtherThreads_eq (lc : LoomConfig) (tn dir file : String) :
    removeFileFromOtherThreads lc tn dir file
      = { lc with threads := (lc.threads.map (fun t =>
          if t.name = tn then t
          else { t with files := (removeFileFromFilesMap t.files dir file) })) } := rfl

theorem map_name_map_strip (tn dir file : String) (l : List Thread) :
    (l.map (fun t => if t.name = tn then t
      else { t with files := (removeFileFromFilesMap t.files dir file) })).map (·.name)
      = l.map (·.name) := by
  induction l with
  | nil => rfl
  | cons t rest IH =>
    rw [List.map_cons, List.map_cons, List.map_cons]
    by_cases hn : t.name = tn <;> simp [hn, IH]

theorem removeOthers_wfConfig (lc : LoomConfig) (tn dir file : String)
    (h : wfConfig lc = true) :
    wfConfig (removeFileFromOtherThreads lc tn dir file) = true := by
  rw [removeFileFromOtherThreads_eq]
  unfold wfConfig
  rw [Bool.and_eq_true]
  constructor
  · rw [map_name_map_strip]
    exact decide_eq_true (wfConfig_nodup_names lc h)
  · rw [List.all_eq_true]
    intro t' ht'
    obtain ⟨t, ht, rfl⟩ := List.mem_map.mp ht'
    by_cases hn : t.name = tn
    · rw [if_pos hn]
      exact wfConfig_files lc h t ht
    · rw [if_neg hn]
      exact wfFilesMap_remove t.files dir file (wfConfig_files lc h t ht)

theorem removeOthers_exclusive (lc : LoomConfig) (tn dir file : String)
    (h : exclusive lc = true) :
    exclusive (removeFileFromOtherThreads lc tn dir file) = true := by
  rw [removeFileFromOtherThreads_eq]
  show exclusiveThreads (lc.threads.map (fun t =>
    if t.name = tn then t
    else { t with files := (removeFileFromFilesMap t.files dir file) })) = true
  apply exclusiveThreads_map_shrink
  · intro t nd f hof
    by_cases hn : t.name = tn
    · rw [if_pos hn] at hof
      exact hof
    · rw [if_neg hn] at hof
      exact ownsPairF_remove_shrink t.files dir file nd f hof
  · exact h

theorem removeOthers_kill (lc : LoomConfig) (tn dir file : String)
    (hwf : wfConfig lc = true) :
    ∀ u ∈ (removeFileFromOtherThreads lc tn dir file).threads, u.name ≠ tn →
      ownsPair u dir file = false := by
  rw [removeFileFromOtherThreads_eq]
  intro u hu hn
  obtain ⟨t, ht, rfl⟩ := List.mem_map.mp hu
  by_cases htn : t.name = tn
  · rw [if_pos htn] at hn ⊢
    exact absurd htn hn
  · rw [if_neg htn]
    show ownsPairF (removeFileFromFilesMap t.files dir file) dir file = false
    apply ownsPairF_remove_kill
    intro e he
    exact normalizeDir_wfDirKey e.1 (wfFilesMap_entries _ (wfConfig_files lc hwf t ht) e he).1

theorem removeOthers_ancestor (lc : LoomConfig) (tn dir file : String) :
    ∀ u' ∈ (removeFileFromOtherThreads lc tn dir file).threads, ∃ u ∈ lc.threads,
      u'.name = u.name ∧ ∀ nd f2, ownsPair u' nd f2 = true → ownsPair u nd f2 = true := by
  rw [removeFileFromOtherThreads_eq]
  intro u' hu'
  obtain ⟨t, ht, rfl⟩ := List.mem_map.mp hu'
  refine ⟨t, ht, ?hn, ?ho⟩
  case hn => by_cases hn : t.name = tn <;> simp [hn]
  case ho =>
    intro nd f2 hof
    by_cases hn : t.name = tn
    · rw [if_pos hn] at hof
      exact hof
    · rw [if_neg hn] at hof
      exact ownsPairF_remove_shrink t.files dir file nd f2 hof

theorem strip_inner_props (tn dir : String) :
    ∀ (fs : List String) (lc : LoomConfig),
      wfConfig lc = true → exclusive lc = true →
      wfConfig (fs.foldl (fun acc2 file => removeFileFromOtherThreads acc2 tn dir file) lc)
        = true ∧
      exclusive (fs.foldl (fun acc2 file => removeFileFromOtherThreads acc2 tn dir file) lc)
        = true ∧
      (∀ u' ∈ (fs.foldl (fun acc2 file =>
          removeFileFromOtherThreads acc2 tn dir file) lc).threads,
        ∃ u ∈ lc.threads, u'.name = u.name ∧
          ∀ nd f2, ownsPair u' nd f2 = true → ownsPair u nd f2 = true) ∧
      (∀ f2 ∈ fs, ∀ u ∈ (fs.foldl (fun acc2 file =>
          removeFileFromOtherThreads acc2 tn dir file) lc).threads,
        u.name ≠ tn → ownsPair u dir f2 = false)
  | [], lc, hwf, hex =>
    ⟨hwf, hex, fun u' hu' => ⟨u', hu', rfl, fun _ _ hp => hp⟩, fun f2 hf2 => by simp at hf2⟩
  | f :: fs, lc, hwf, hex => by
    rw [List.foldl_cons]
    have hwf1 := removeOthers_wfConfig lc tn dir f hwf
    have hex1 := removeOthers_exclusive lc tn dir f hex
    obtain ⟨hwf2, hex2, hanc2, hkill2⟩ := strip_inner_props tn dir fs
      (removeFileFromOtherThreads lc tn dir f) hwf1 hex1
    refine ⟨hwf2, hex2, ?hanc, ?hkill⟩
    case hanc =>
      intro u' hu'
      obtain ⟨u1, hu1, hn1, ho1⟩ := hanc2 u' hu'
      obtain ⟨u0, hu0, hn0, ho0⟩ := removeOthers_ancestor lc tn dir f u1 hu1
      exact ⟨u0, hu0, hn1.trans hn0, fun nd f2 hp => ho0 nd f2 (ho1 nd f2 hp)⟩
    case hkill =>
      intro f2 hf2 u hu hn
      rcases List.mem_cons.mp hf2 with rfl | hf2'
      · by_cases hc : ownsPair u dir f2 = true
        · exfalso
          obtain ⟨u1, hu1, hn1, ho1⟩ := hanc2 u hu
          have h2 := removeOthers_kill lc tn dir f2 hwf u1 hu1 (by rw [← hn1]; exact hn)
          rw [ho1 dir f2 hc] at h2
          exact absurd h2 (by simp)
        · simpa using hc
      · exact hkill2 f2 hf2' u hu hn

theorem strip_fold_props (tn : String) :
    ∀ (fbd : List (String × List String)) (lc : LoomConfig),
      wfConfig lc = true → exclusive lc = true →
      wfConfig (fbd.foldl (fun acc e => e.2.foldl
          (fun acc2 file => removeFileFromOtherThreads acc2 tn e.1 file) acc) lc) = true ∧
      exclusive (fbd.foldl (fun acc e => e.2.foldl
          (fun acc2 file => removeFileFromOtherThreads acc2 tn e.1 file) acc) lc) = true ∧
      (∀ u' ∈ (fbd.foldl (fun acc e => e.2.foldl
          (fun acc2 file => removeFileFromOtherThreads acc2 tn e.1 file) acc) lc).threads,
        ∃ u ∈ lc.threads, u'.name = u.name ∧
          ∀ nd f2, ownsPair u' nd f2 = true → ownsPair u nd f2 = true) ∧
      (∀ e ∈ fbd, ∀ f2 ∈ e.2, ∀ u ∈ (fbd.foldl (fun acc e => e.2.foldl
          (fun acc2 file => removeFileFromOtherThreads acc2 tn e.1 file) acc) lc).threads,
        u.name ≠ tn → ownsPair u e.1 f2 = false)
  | [], lc, hwf, hex =>
    ⟨hwf, hex, fun u' hu' => ⟨u', hu', rfl, fun _ _ hp => hp⟩, fun e he => by simp at he⟩
  | e :: fbd, lc, hwf, hex => by
    rw [List.foldl_cons]
    obtain ⟨hwf1, hex1, hanc1, hkill1⟩ := strip_inner_props tn e.1 e.2 lc hwf hex
    obtain ⟨hwf2, hex2, hanc2, hkill2⟩ := strip_fold_props tn fbd
      (e.2.foldl (fun acc2 file => removeFileFromOtherThreads acc2 tn e.1 file) lc) hwf1 hex1
    refine ⟨hwf2, hex2, ?hanc, ?hkill⟩
    case hanc =>
      intro u' hu'
      obtain ⟨u1, hu1, hn1, ho1⟩ := hanc2 u' hu'
      obtain ⟨u0, hu0, hn0, ho0⟩ := hanc1 u1 hu1
      exact ⟨u0, hu0, hn1.trans hn0, fun nd f2 hp => ho0 nd f2 (ho1 nd f2 hp)⟩
    case hkill =>
      intro e2 he2 f2 hf2 u hu hn
      rcases List.mem_cons.mp he2 with rfl | he2'
      · by_cases hc : ownsPair u e2.1 f2 = true
        · exfalso
          obtain ⟨u1, hu1, hn1, ho1⟩ := hanc2 u hu
          have h2 := hkill1 f2 hf2 u1 hu1 (by rw [← hn1]; exact hn)
          rw [ho1 e2.1 f2 hc] at h2
          exact absurd h2 (by simp)
        · simpa using hc
      · exact hkill2 e2 he2' f2 hf2 u hu hn

theorem mem_setFilesEntry (fs : List (String × List String)) (d : String) (l : List String)
    (e : String × List String) (h : e ∈ setFilesEntry fs d l) : e = (d, l) ∨ e ∈ fs := by
  unfold setFilesEntry at h
  by_cases hany : fs.any (fun x => x.1 = d) = true
  · rw [if_pos hany] at h
    obtain ⟨e0, he0, he⟩ := List.mem_map.mp h
    by_cases hk : e0.1 = d
    · rw [if_pos hk] at he
      exact Or.inl he.symm
    · rw [if_neg hk] at he
      exact Or.inr (he ▸ he0)
  · rw [if_neg hany] at h
    rcases List.mem_append.mp h with h2 | h2
    · exact Or.inr h2
    · exact Or.inl (List.mem_singleton.mp h2)

theorem mem_foldl_setFilesEntry :
    ∀ (fbd : List (String × List String)) (fs : List (String × List String))
      (e : String × List String),
      e ∈ fbd.foldl (fun acc x => setFilesEntry acc x.1 x.2) fs → e ∈ fbd ∨ e ∈ fs
  | [], fs, e, h => Or.inr h
  | x :: fbd, fs, e, h => by
    rw [List.foldl_cons] at h
    rcases mem_foldl_setFilesEntry fbd _ e h with h2 | h2
    · exact Or.inl (List.mem_cons_of_mem x h2)
    · rcases mem_setFilesEntry fs x.1 x.2 e h2 with h3 | h3
      · exact Or.inl (by rw [h3]; exact List.mem_cons_self x fbd)
      · exact Or.inr h3

theorem updateLoomConfig_exclusive (lc : LoomConfig) (tn tsrc : String)
    (fbd : List (String × List String)) (hwf : wfConfig lc = true)
    (hex : exclusive lc = true) (hfbd : wfFilesMap fbd = true) :
    exclusive (updateLoomConfigModel lc tn tsrc fbd) = true := by
  simp only [updateLoomConfigModel]
  obtain ⟨hwf1, hex1, _, hkill1⟩ := strip_fold_props tn fbd lc hwf hex
  have hP : ∀ (t : Thread), t ∈ (fbd.foldl (fun acc e => e.2.foldl
      (fun acc2 file => removeFileFromOtherThreads acc2 tn e.1 file) acc) lc).threads →
      t.name ≠ tn → ∀ nd f, pairMem fbd nd f = true → ownsPair t nd f = false := by
    intro t ht hn nd f hp
    obtain ⟨e, he, he1, hfm⟩ := (pairMem_iff fbd nd f).mp hp
    rw [← he1]
    exact hkill1 e he f hfm t ht hn
  by_cases hany : ((fbd.foldl (fun acc e => e.2.foldl
      (fun acc2 file => removeFileFromOtherThreads acc2 tn e.1 file) acc) lc).threads.any
      (fun t => t.name = tn)) = true
  · rw [if_pos hany]
    show exclusiveThreads (updateFirstNamed tn
      (fun t => { t with
        source := tsrc
        files := (fbd.foldl (fun fs e => setFilesEntry fs e.1 e.2) t.files) })
      (fbd.foldl (fun acc e => e.2.foldl
        (fun acc2 file => removeFileFromOtherThreads acc2 tn e.1 file) acc) lc).threads)
      = true
    apply exclusiveThreads_updateFirst_gen tn _ (fun nd f => pairMem fbd nd f = true)
      ?hu _ (wfConfig_nodup_names _ hwf1) hex1 hP
    case hu =>
      intro t nd f hof
      obtain ⟨e, he, hnd, hfm⟩ := (ownsPairF_iff _ nd f).mp hof
      rcases mem_foldl_setFilesEntry fbd t.files e he with hm | hm
      · refine Or.inr ((pairMem_iff fbd nd f).mpr ⟨e, hm, ?he1, hfm⟩)
        rw [← hnd, normalizeDir_wfDirKey e.1 (wfFilesMap_entries fbd hfbd e hm).1]
      · exact Or.inl ((ownsPairF_iff t.files nd f).mpr ⟨e, hm, hnd, hfm⟩)
  · rw [if_neg hany]
    show exclusiveThreads ((fbd.foldl (fun acc e => e.2.foldl
      (fun acc2 file => removeFileFromOtherThreads acc2 tn e.1 file) acc) lc).threads
      ++ [{ name := tn, source := tsrc, files := fbd }]) = true
    apply exclusiveThreads_append_kill _ _ (fun nd f => pairMem fbd nd f = true)
      ?hnew hex1 ?hkill
    case hnew =>
      intro nd f hof
      obtain ⟨e, he, hnd, hfm⟩ := (ownsPairF_iff _ nd f).mp hof
      refine (pairMem_iff fbd nd f).mpr ⟨e, he, ?he2, hfm⟩
      rw [← hnd, normalizeDir_wfDirKey e.1 (wfFilesMap_entries fbd hfbd e he).1]
    case hkill =>
      intro t ht nd f hp
      have hn : t.name ≠ tn := by
        intro he
        exact hany (List.any_eq_true.mpr ⟨t, ht, by simp [he]⟩)
      exact hP t ht hn nd f hp

theorem addFilesLoop_fbd_wf (disp : String) :
    ∀ (fs : List (String × String)) (st : EngineState) (acc : List (String × List String))
      (st1 : EngineState) (fbd : List (String × List String)),
      (∀ e ∈ fs, isCleanRel e.1 = true) → wfFilesMap acc = true →
      addFilesLoop disp fs st acc = .ok (st1, fbd) → wfFilesMap fbd = true
  | [], st, acc, st1, fbd, _, hacc, h => by
    unfold addFilesLoop at h
    simp only [Except.ok.injEq, Prod.mk.injEq] at h
    rw [← h.2]
    exact hacc
  | (p, c) :: fs, st, acc, st1, fbd, hcl, hacc, h => by
    unfold addFilesLoop at h
    cases hc : processFileCopyModel st p c disp with
    | error e => rw [hc] at h; exact absurd h (by simp)
    | ok res =>
      rw [hc] at h
      obtain ⟨copied, st2⟩ := res
      simp only at h
      have hclean := hcl (p, c) (by simp)
      obtain ⟨hwfk, hsimp, _⟩ := splitFileString_clean p hclean
      have hacc2 : wfFilesMap (if copied = true then addToMultimap acc
          (normalizeDir (splitFileString p).1) [(splitFileString p).2] else acc) = true := by
        by_cases hcp : copied = true
        · rw [if_pos hcp]
          refine wfFilesMap_addToMultimap acc _ _ hacc hwfk ?hv
          intro v hv
          rcases List.mem_singleton.mp hv with rfl
          exact hsimp
        · rw [if_neg hcp]
          exact hacc
      exact addFilesLoop_fbd_wf disp fs st2 _ st1 fbd
        (fun e he => hcl e (List.mem_cons_of_mem _ he)) hacc2 h

/-! ## Claim C1: exclusivity of ownership after every operation -/

/-- C1: under the engine invariants (well-formed manifest, disk-backed
ownership, clean source trees), every successful operation preserves exclusive
ownership: after a weave (targeted or all-threads), an add (fresh or re-add),
a single-thread remove, or remove-all, no two distinct threads of the
resulting manifest own the same normalized `(directory, filename)` pair. -/
theorem c1_exclusive_ownership :
    (∀ (srcs : Nat → Option SourceTree) (target : String) (st out : EngineState),
       wfConfig st.config = true → exclusive st.config = true →
       ownedOnDisk st.config st.disk = true →
       (∀ i s, srcs i = some s → wfSourceTree s = true) →
       Weave srcs target st = .ok out → exclusive out.config = true) ∧
    (∀ (st : EngineState) (tn tsrc : String) (srcFiles : List (String × String))
       (out : EngineState),
       wfConfig st.config = true → exclusive st.config = true →
       (∀ e ∈ srcFiles, isCleanRel e.1 = true) →
       addThread st tn tsrc srcFiles = .ok out → exclusive out.config = true) ∧
    (∀ (st out : EngineState) (tn : String),
       exclusive st.config = true → removeThreadAction st tn = .ok out →
       exclusive out.config = true) ∧
    (∀ st : EngineState, exclusive (removeAllThreadsAction st).config = true) := by
  refine ⟨?hweave, ?hadd, ?hrem, ?hremall⟩
  case hweave =>
    intro srcs target st out hwf hex hod hsrcs hrun
    exact (Weave_inv srcs target st out hwf hex hod hsrcs hrun).2.1
  case hadd =>
    intro st tn tsrc srcFiles out hwf hex hcl h
    unfold addThread at h
    cases hloop : addFilesLoop tsrc srcFiles st [] with
    | error e => rw [hloop] at h; exact absurd h (by simp)
    | ok res =>
      rw [hloop] at h
      obtain ⟨st1, fbd⟩ := res
      simp only [Except.ok.injEq] at h
      rw [← h]
      have hcfg := addFilesLoop_config tsrc srcFiles st [] st1 fbd hloop
      have hfbd := addFilesLoop_fbd_wf tsrc srcFiles st [] st1 fbd hcl (by decide) hloop
      show exclusive (updateLoomConfigModel st1.config tn tsrc fbd) = true
      rw [hcfg]
      exact updateLoomConfig_exclusive st.config tn tsrc fbd hwf hex hfbd
  case hrem =>
    intro st out tn hex h
    unfold removeThreadAction at h
    cases hf : st.config.threads.find? (fun t => t.name = tn) with
    | none => rw [hf] at h; exact absurd h (by simp)
    | some t =>
      rw [hf] at h
      simp only [Except.ok.injEq] at h
      rw [← h]
      show exclusiveThreads (st.config.threads.filter (fun t => t.name ≠ tn)) = true
      rw [exclusiveThreads_iff_pairwise]
      exact List.Pairwise.sublist (List.filter_sublist _)
        ((exclusiveThreads_iff_pairwise _).mp hex)
  case hremall =>
    intro st
    rfl

/-- Witness for C1 at concrete projects: an all-threads weave with a declined
conflict prompt (thread `t2` loses its unwritten entry), a fresh add of `t2`
next to `t1`, a remove of `t1`, and a remove-all — each leaves an exclusively
owned manifest. -/
theorem c1_exclusive_ownership_witness :
    (Weave (fun _ => some ⟨[("a.txt", SrcEntry.file "NEW")]⟩) ""
        ⟨[("a.txt", "X"), ("b.txt", "Y")],
          ⟨"1", [⟨"t1", "s1", [("./", ["a.txt"])]⟩, ⟨"t2", "s2", [("./", ["b.txt"])]⟩]⟩,
          [Answer.no]⟩
      = .ok ⟨[("a.txt", "NEW"), ("b.txt", "Y")],
          ⟨"1", [⟨"t1", "s1", [("./", ["a.txt"])]⟩, ⟨"t2", "s2", []⟩]⟩, []⟩ ∧
     exclusive (⟨"1", [⟨"t1", "s1", [("./", ["a.txt"])]⟩, ⟨"t2", "s2", []⟩]⟩ : LoomConfig)
       = true) ∧
    (addThread ⟨[("a.txt", "X")], ⟨"1", [⟨"t1", "s1", [("./", ["a.txt"])]⟩]⟩, []⟩
        "t2" "s2" [("c.txt", "C")]
      = .ok ⟨[("a.txt", "X"), ("c.txt", "C")],
          ⟨"1", [⟨"t1", "s1", [("./", ["a.txt"])]⟩, ⟨"t2", "s2", [("./", ["c.txt"])]⟩]⟩, []⟩ ∧
     exclusive (⟨"1", [⟨"t1", "s1", [("./", ["a.txt"])]⟩,
        ⟨"t2", "s2", [("./", ["c.txt"])]⟩]⟩ : LoomConfig) = true) ∧
    (removeThreadAction
        ⟨[("a.txt", "X")], ⟨"1", [⟨"t1", "s1", [("./", ["a.txt"])]⟩]⟩, []⟩ "t1"
      = .ok ⟨[], ⟨"1", []⟩, []⟩ ∧
     exclusive (⟨"1", []⟩ : LoomConfig) = true) ∧
    exclusive (removeAllThreadsAction
      ⟨[("a.txt", "X")], ⟨"1", [⟨"t1", "s1", [("./", ["a.txt"])]⟩]⟩, []⟩).config = true :=
  ⟨⟨rfl,
    c1_exclusive_ownership.1 (fun _ => some ⟨[("a.txt", SrcEntry.file "NEW")]⟩) ""
      ⟨[("a.txt", "X"), ("b.txt", "Y")],
        ⟨"1", [⟨"t1", "s1", [("./", ["a.txt"])]⟩, ⟨"t2", "s2", [("./", ["b.txt"])]⟩]⟩,
        [Answer.no]⟩
      ⟨[("a.txt", "NEW"), ("b.txt", "Y")],
        ⟨"1", [⟨"t1", "s1", [("./", ["a.txt"])]⟩, ⟨"t2", "s2", []⟩]⟩, []⟩
      (by decide) (by decide) (by decide)
      (fun i s hs => by injection hs with h2; rw [← h2]; decide) rfl⟩,
   ⟨rfl,
    c1_exclusive_ownership.2.1
      ⟨[("a.txt", "X")], ⟨"1", [⟨"t1", "s1", [("./", ["a.txt"])]⟩]⟩, []⟩ "t2" "s2"
      [("c.txt", "C")]
      ⟨[("a.txt", "X"), ("c.txt", "C")],
        ⟨"1", [⟨"t1", "s1", [("./", ["a.txt"])]⟩, ⟨"t2", "s2", [("./", ["c.txt"])]⟩]⟩, []⟩
      (by decide) (by decide) (by decide) rfl⟩,
   ⟨rfl,
    c1_exclusive_ownership.2.2.1
      ⟨[("a.txt", "X")], ⟨"1", [⟨"t1", "s1", [("./", ["a.txt"])]⟩]⟩, []⟩
      ⟨[], ⟨"1", []⟩, []⟩ "t1" (by decide) rfl⟩,
   c1_exclusive_ownership.2.2.2
     ⟨[("a.txt", "X")], ⟨"1", [⟨"t1", "s1", [("./", ["a.txt"])]⟩]⟩, []⟩⟩
